import Mathlib

set_option maxRecDepth 20000
set_option maxHeartbeats 2000000

/-!
# Verification of the overunder gradebook engine

A shallow embedding of `src/overunder.py` (the consolidated implementation of
the engine; the other files in the repository are earlier drafts of the same
program).  Python strings are embedded as `List Char`, `fractions.Fraction`
as the unreduced exact-rational type `Fraction` below, exceptions as the
result type `Res`, and the `NamedNode` object trees as the rose tree
`NamedNode` with explicit payloads.  Source line references appear in the
doc comments of the corresponding definitions.
-/

/-! ## Exact rationals

Python's `fractions.Fraction` keeps values normalised; every comparison the
source performs on fractions is a value comparison, so the embedding stores
unreduced integer pairs (all produced denominators are nonzero), compares by
cross-multiplication (`Fraction.beq`, `Fraction.ble`), and maps into `ℚ` via
`Fraction.toQ` for specification-level statements.
-/

/-- An exact rational `num / den` with `den ≠ 0`, modelling `fractions.Fraction`. -/
structure Fraction where
  num : ℤ
  den : ℤ
  den_nz : den ≠ 0
deriving DecidableEq

/-- Extensionality for `Fraction` representations. -/
theorem Fraction.ext {a b : Fraction} (hn : a.num = b.num) (hd : a.den = b.den) : a = b := by
  cases a; cases b; simp_all

/-- Embed an integer. -/
def Fraction.ofInt (k : ℤ) : Fraction := ⟨k, 1, one_ne_zero⟩

/-- The rational value of a `Fraction`. -/
def Fraction.toQ (a : Fraction) : ℚ := (a.num : ℚ) / (a.den : ℚ)

/-- Exact addition (`Fraction.__add__`). -/
instance : Add Fraction :=
  ⟨fun a b => ⟨a.num * b.den + b.num * a.den, a.den * b.den, mul_ne_zero a.den_nz b.den_nz⟩⟩

/-- Exact multiplication (`Fraction.__mul__`). -/
instance : Mul Fraction :=
  ⟨fun a b => ⟨a.num * b.num, a.den * b.den, mul_ne_zero a.den_nz b.den_nz⟩⟩

/-- Negation. -/
instance : Neg Fraction := ⟨fun a => ⟨-a.num, a.den, a.den_nz⟩⟩

/-- Subtraction. -/
instance : Sub Fraction := ⟨fun a b => a + -b⟩

/-- Exact division (`Fraction.__truediv__`).  Python raises `ZeroDivisionError`
when the divisor is zero; every division in the engine is guarded, so the
junk value returned in that branch is never observable along guarded paths. -/
def Fraction.div (a b : Fraction) : Fraction :=
  if h : b.num = 0 then ⟨0, 1, one_ne_zero⟩
  else ⟨a.num * b.den, a.den * b.num, mul_ne_zero a.den_nz h⟩

/-- Value equality by cross-multiplication (`Fraction.__eq__`). -/
def Fraction.beq (a b : Fraction) : Bool := a.num * b.den == b.num * a.den

/-- Value order by cross-multiplication with squared denominators. -/
def Fraction.ble (a b : Fraction) : Bool :=
  decide (a.num * a.den * (b.den * b.den) ≤ b.num * b.den * (a.den * a.den))

theorem Fraction.denQ_ne (a : Fraction) : (a.den : ℚ) ≠ 0 :=
  Int.cast_ne_zero.mpr a.den_nz

@[simp] theorem Fraction.toQ_ofInt (k : ℤ) : (Fraction.ofInt k).toQ = (k : ℚ) := by
  simp [Fraction.ofInt, Fraction.toQ]

@[simp] theorem Fraction.toQ_add (a b : Fraction) : (a + b).toQ = a.toQ + b.toQ := by
  show ((a.num * b.den + b.num * a.den : ℤ) : ℚ) / ((a.den * b.den : ℤ) : ℚ) = _
  have ha := a.denQ_ne
  have hb := b.denQ_ne
  unfold Fraction.toQ
  push_cast
  field_simp

@[simp] theorem Fraction.toQ_mul (a b : Fraction) : (a * b).toQ = a.toQ * b.toQ := by
  show ((a.num * b.num : ℤ) : ℚ) / ((a.den * b.den : ℤ) : ℚ) = _
  unfold Fraction.toQ
  push_cast
  rw [div_mul_div_comm]

@[simp] theorem Fraction.toQ_neg (a : Fraction) : (-a).toQ = -a.toQ := by
  show ((-a.num : ℤ) : ℚ) / ((a.den : ℤ) : ℚ) = _
  unfold Fraction.toQ
  push_cast
  rw [neg_div]

@[simp] theorem Fraction.toQ_sub (a b : Fraction) : (a - b).toQ = a.toQ - b.toQ := by
  show ((a + -b).toQ) = _
  rw [Fraction.toQ_add, Fraction.toQ_neg, sub_eq_add_neg]

theorem Fraction.toQ_div {b : Fraction} (a : Fraction) (hb : b.num ≠ 0) :
    (a.div b).toQ = a.toQ / b.toQ := by
  unfold Fraction.div Fraction.toQ
  rw [dif_neg hb]
  have ha := a.denQ_ne
  have hd := b.denQ_ne
  have hn : (b.num : ℚ) ≠ 0 := Int.cast_ne_zero.mpr hb
  push_cast
  field_simp

theorem Fraction.beq_iff (a b : Fraction) : a.beq b = true ↔ a.toQ = b.toQ := by
  unfold Fraction.beq Fraction.toQ
  rw [beq_iff_eq, div_eq_div_iff a.denQ_ne b.denQ_ne]
  constructor
  · intro h; exact_mod_cast congrArg (fun z : ℤ => (z : ℚ)) h
  · intro h; exact_mod_cast h

theorem Fraction.ble_iff (a b : Fraction) : a.ble b = true ↔ a.toQ ≤ b.toQ := by
  unfold Fraction.ble Fraction.toQ
  rw [decide_eq_true_eq]
  have ha : (0 : ℚ) < (a.den : ℚ) * (a.den : ℚ) :=
    mul_self_pos.mpr a.denQ_ne
  have hb : (0 : ℚ) < (b.den : ℚ) * (b.den : ℚ) :=
    mul_self_pos.mpr b.denQ_ne
  have ea : (a.num : ℚ) / (a.den : ℚ) = ((a.num : ℚ) * (a.den : ℚ)) / ((a.den : ℚ) * (a.den : ℚ)) :=
    (mul_div_mul_right _ _ a.denQ_ne).symm
  have eb : (b.num : ℚ) / (b.den : ℚ) = ((b.num : ℚ) * (b.den : ℚ)) / ((b.den : ℚ) * (b.den : ℚ)) :=
    (mul_div_mul_right _ _ b.denQ_ne).symm
  rw [ea, eb, div_le_div_iff₀ ha hb]
  constructor
  · intro h
    calc (a.num : ℚ) * (a.den : ℚ) * ((b.den : ℚ) * (b.den : ℚ))
        = ((a.num * a.den * (b.den * b.den) : ℤ) : ℚ) := by push_cast; ring
      _ ≤ ((b.num * b.den * (a.den * a.den) : ℤ) : ℚ) := by exact_mod_cast h
      _ = (b.num : ℚ) * (b.den : ℚ) * ((a.den : ℚ) * (a.den : ℚ)) := by push_cast; ring
  · intro h
    have h' : ((a.num * a.den * (b.den * b.den) : ℤ) : ℚ) ≤
        ((b.num * b.den * (a.den * a.den) : ℤ) : ℚ) := by
      calc ((a.num * a.den * (b.den * b.den) : ℤ) : ℚ)
          = (a.num : ℚ) * (a.den : ℚ) * ((b.den : ℚ) * (b.den : ℚ)) := by push_cast; ring
        _ ≤ (b.num : ℚ) * (b.den : ℚ) * ((a.den : ℚ) * (a.den : ℚ)) := h
        _ = ((b.num * b.den * (a.den * a.den) : ℤ) : ℚ) := by push_cast; ring
    exact_mod_cast h'

/-! ## Strings and the grade-text grammar (src/overunder.py:210-259) -/

/-- Python strings are embedded as character lists. -/
abbrev Str := List Char

/-- Result of a fallible computation; `err` carries the Python exception class. -/
inductive PErr where
  | valueError
  | zeroDivision
  | keyError
deriving DecidableEq

/-- Exception-aware result type. -/
inductive Res (α : Type) where
  | ok (v : α)
  | err (e : PErr)
deriving DecidableEq

def Res.bind {α β : Type} : Res α → (α → Res β) → Res β
  | .ok v, f => f v
  | .err e, _ => .err e

def Res.isOk {α : Type} : Res α → Bool
  | .ok _ => true
  | .err _ => false

/-- Decimal digit test (`[0-9]` character class). -/
def isDig (c : Char) : Bool := '0' ≤ c && c ≤ '9'

def digitVal (c : Char) : ℕ := c.toNat - 48

def digitsToNat (s : Str) : ℕ := s.foldl (fun a c => 10 * a + digitVal c) 0

/-- Python `Fraction(string)` on the decimal-literal shapes that reach it from
`parse_fraction` (`digits`, `digits.digits`, `.digits`; the empty string raises
`ValueError`, modelled as `none`). -/
def parseDecimal (s : Str) : Option Fraction :=
  let a := s.takeWhile isDig
  match s.dropWhile isDig with
  | [] => if a.isEmpty then none else some (Fraction.ofInt (digitsToNat a))
  | '.' :: b =>
    if b.isEmpty || !(b.all isDig) then none
    else some ⟨(digitsToNat a : ℤ) * 10 ^ b.length + (digitsToNat b : ℤ), (10 : ℤ) ^ b.length,
      pow_ne_zero _ (by decide)⟩
  | _ => none

/-- `SCORE_REGEX = ([0-9]*)(\.[0-9]+)?` (src/overunder.py:212), full match. -/
def matchDec (s : Str) : Bool :=
  match s.dropWhile isDig with
  | [] => true
  | '.' :: b => !b.isEmpty && b.all isDig
  | _ => false

/-- `PERCENT_REGEX = ([0-9]*)(\.[0-9]+)?%` (src/overunder.py:210), full match. -/
def matchPercent (s : Str) : Bool :=
  match s.getLast? with
  | some '%' => matchDec s.dropLast
  | _ => false

/-- `string.split(c)` for a single-character separator. -/
def splitOnChar (c : Char) : Str → List Str
  | [] => [[]]
  | x :: xs =>
    if x = c then [] :: splitOnChar c xs
    else
      match splitOnChar c xs with
      | [] => [[x]]
      | y :: ys => (x :: y) :: ys

/-- `FRACTION_REGEX = ([0-9]*)(\.[0-9]+)?/([0-9]*)(\.[0-9]+)?` (src/overunder.py:211). -/
def matchFrac (s : Str) : Bool :=
  match splitOnChar '/' s with
  | [a, b] => matchDec a && matchDec b
  | _ => false

def isAF (c : Char) : Bool := 'A' ≤ c && c ≤ 'F'

/-- One letter-grade atom `[A-F][+-]?`. -/
def matchL1 : Str → Bool
  | [c] => isAF c
  | [c, d] => isAF c && (d == '+' || d == '-')
  | _ => false

/-- `LETTER_REGEX = [A-F][+-]?(/[A-F][+-]?)?` (src/overunder.py:213), full match. -/
def matchLetter (s : Str) : Bool :=
  match splitOnChar '/' s with
  | [a] => matchL1 a
  | [a, b] => matchL1 a && matchL1 b
  | _ => false

/-- `AssignmentGrade.LETTER_FRACTIONS` (src/overunder.py:375-387); dictionary
lookup raises `KeyError` for letters the regex admits but the table omits. -/
def LETTER_FRACTIONS (s : Str) : Option Fraction :=
  if s = "F".toList then some ⟨180, 300, by decide⟩
  else if s = "D".toList then some ⟨195, 300, by decide⟩
  else if s = "D+".toList then some ⟨210, 300, by decide⟩
  else if s = "C-".toList then some ⟨220, 300, by decide⟩
  else if s = "C".toList then some ⟨230, 300, by decide⟩
  else if s = "C+".toList then some ⟨240, 300, by decide⟩
  else if s = "B-".toList then some ⟨250, 300, by decide⟩
  else if s = "B".toList then some ⟨260, 300, by decide⟩
  else if s = "B+".toList then some ⟨270, 300, by decide⟩
  else if s = "A-".toList then some ⟨285, 300, by decide⟩
  else if s = "A".toList then some ⟨300, 300, by decide⟩
  else none

/-- The `fraction_type` tags assigned by `parse_fraction`. -/
inductive FType where
  | noneF
  | percent
  | fracTag
  | points
  | letter
deriving DecidableEq

/-- The pattern dispatch of `parse_fraction` (src/overunder.py:225-255),
applied to the string after sentinel check and sign stripping: percent,
fraction, score and letter patterns tried in order, with `ValueError` on
anything else. -/
def parse_fraction_core (s : Str) (full_points : Option Fraction)
    (grade_scale : Option (Str → Option Fraction)) : Res (Fraction × FType) :=
  if matchPercent s then
        match parseDecimal s.dropLast with
        | none => .err .valueError
        | some v => .ok (v.div (Fraction.ofInt 100), .percent)
      else if matchFrac s then
        match splitOnChar '/' s with
        | [a, b] =>
          let a' := if a.isEmpty then "0".toList else a
          let b' := if b.isEmpty then "1".toList else b
          match parseDecimal a', parseDecimal b' with
          | some x, some y =>
            if y.num = 0 then .err .zeroDivision else .ok (x.div y, .fracTag)
          | _, _ => .err .valueError
        | _ => .err .valueError
      else if matchDec s then
        match parseDecimal s with
        | none => .err .valueError
        | some v =>
          match full_points with
          | none => .ok (v, .points)
          | some fp => if fp.num = 0 then .err .zeroDivision else .ok (v.div fp, .points)
      else if matchLetter s then
        match grade_scale with
        | none => .err .valueError
        | some scale =>
          if s.contains '/' then
            match splitOnChar '/' s with
            | [a, b] =>
              match scale a, scale b with
              | some x, some y => .ok ((x + y).div (Fraction.ofInt 2), .letter)
              | _, _ => .err .keyError
            | _ => .err .valueError
          else
            match scale s with
            | some x => .ok (x, .letter)
            | none => .err .keyError
      else .err .valueError

/-- `parse_fraction(string, full_points, grade_scale)` (src/overunder.py:216-259).

The `'none'` sentinel is checked before sign stripping; leading `+` signs
are stripped and one leading `-` is remembered as `negative`; the patterns
are then dispatched by `parse_fraction_core`, and a `negative` value becomes
`1 - value`. -/
def parse_fraction (s0 : Str) (full_points : Option Fraction)
    (grade_scale : Option (Str → Option Fraction)) : Res (Option Fraction × FType) :=
  if s0.map Char.toLower = "none".toList then .ok (none, .noneF)
  else
    let s1 := s0.dropWhile (· == '+')
    let negative := s1.head? == some '-'
    let s := if negative then s1.drop 1 else s1
    match parse_fraction_core s full_points grade_scale with
    | .err e => .err e
    | .ok (v, t) => .ok (some (if negative then Fraction.ofInt 1 - v else v), t)

example : parse_fraction "None".toList none none = .ok (none, .noneF) := by decide
example : parse_fraction "50%".toList none none =
    .ok (some ((Fraction.ofInt 50).div (Fraction.ofInt 100)), .percent) := by decide
example : (parse_fraction "18/20".toList none none).isOk = true := by decide
example : (parse_fraction "xyz".toList none none) = .err .valueError := by decide
example : (parse_fraction "1/0".toList none none) = .err .zeroDivision := by decide
example :
    (parse_fraction "-20%".toList none none) =
    .ok (some (Fraction.ofInt 1 - (Fraction.ofInt 20).div (Fraction.ofInt 100)), .percent) := by
  decide
example : (parse_fraction "B+".toList none (some LETTER_FRACTIONS)) =
    .ok (some ⟨270, 300, by decide⟩, .letter) := by decide
example : (parse_fraction "E".toList none (some LETTER_FRACTIONS)) = .err .keyError := by decide

/-! ## Assignments (src/overunder.py:262-296) -/

/-- The constructed state of an `Assignment`: raw weight text, extra-credit
flag, and the parsed weight with its kind (src/overunder.py:265-279). -/
structure AData where
  weight_str : Str
  extra_credit : Bool
  weight : Fraction
  weight_type : FType
deriving DecidableEq

/-- `Assignment.__init__`/`_parse_weight_str` (src/overunder.py:265-279):
parse the weight text with no full points and no grade scale; a `None`
result (the `'none'` sentinel) raises `ValueError`. -/
def mkAData (ws : Str) (ec : Bool) : Res AData :=
  match parse_fraction ws none none with
  | .err e => .err e
  | .ok (none, _) => .err .valueError
  | .ok (some w, t) => .ok ⟨ws, ec, w, t⟩

/-- The hierarchically named object trees of the source (`NamedNode`,
src/overunder.py:11-207).  Parent pointers and depths are positional here:
a node's children list is the `_children` list, and depth is the path length
from the root. -/
inductive NamedNode (α : Type) where
  | node (name : Str) (data : α) (children : List (NamedNode α))

def NamedNode.name : NamedNode α → Str
  | .node nm _ _ => nm

def NamedNode.data : NamedNode α → α
  | .node _ d _ => d

def NamedNode.children : NamedNode α → List (NamedNode α)
  | .node _ _ cs => cs

mutual
def nnBEq [DecidableEq α] : NamedNode α → NamedNode α → Bool
  | .node n d cs, .node n' d' cs' => n == n' && decide (d = d') && nnListBEq cs cs'
def nnListBEq [DecidableEq α] : List (NamedNode α) → List (NamedNode α) → Bool
  | [], [] => true
  | c :: cs, c' :: cs' => nnBEq c c' && nnListBEq cs cs'
  | _, _ => false
end

mutual
theorem nnBEq_iff [DecidableEq α] : ∀ (a b : NamedNode α), (nnBEq a b = true) ↔ a = b
  | .node n d cs, .node n' d' cs' => by
    simp only [nnBEq, Bool.and_eq_true, beq_iff_eq, decide_eq_true_eq, NamedNode.node.injEq,
      and_assoc]
    exact and_congr Iff.rfl (and_congr Iff.rfl (nnListBEq_iff cs cs'))
theorem nnListBEq_iff [DecidableEq α] :
    ∀ (as bs : List (NamedNode α)), (nnListBEq as bs = true) ↔ as = bs
  | [], [] => by simp [nnListBEq]
  | c :: cs, c' :: cs' => by
    simp only [nnListBEq, Bool.and_eq_true, List.cons.injEq]
    exact and_congr (nnBEq_iff c c') (nnListBEq_iff cs cs')
  | [], _ :: _ => by simp [nnListBEq]
  | _ :: _, [] => by simp [nnListBEq]
end

instance [DecidableEq α] : DecidableEq (NamedNode α) :=
  fun a b => decidable_of_iff _ (nnBEq_iff a b)

mutual
/-- Pre-order traversal carrying each node's depth
(`NamedNode.traversal`, src/overunder.py:90-96, with `depth`, lines 66-70). -/
def preorderD (d : ℕ) : NamedNode α → List (ℕ × Str × α)
  | .node nm a cs => (d, nm, a) :: preorderDL (d + 1) cs
def preorderDL (d : ℕ) : List (NamedNode α) → List (ℕ × Str × α)
  | [] => []
  | c :: rest => preorderD d c ++ preorderDL d rest
end

/-- Sum of sibling parsed weights, `sum(child._weight for child in
self.parent.children)` (src/overunder.py:294); Python `sum` starts from
integer `0`. -/
def sibWeightSum (sibs : List AData) : Fraction :=
  sibs.foldl (fun acc a => acc + a.weight) (Fraction.ofInt 0)

/-- The `[0-9.]*` pattern of `Assignment.percent_weight` (src/overunder.py:293). -/
def matchPtsStr (s : Str) : Bool := s.all (fun c => isDig c || c == '.')

/-- `Assignment.percent_weight` (src/overunder.py:285-296).  The root returns
`1`; a weight string ending in `%` or containing `/` is used literally; a
`[0-9.]*` weight string is divided by the sum of the parsed weights of *all*
siblings (including the node itself and extra-credit siblings); anything else
raises `ValueError`.  A zero sibling sum raises `ZeroDivisionError`. -/
def percent_weight (isRoot : Bool) (siblings : List AData) (a : AData) : Res Fraction :=
  if isRoot then .ok (Fraction.ofInt 1)
  else if a.weight_str.getLast? == some '%' || a.weight_str.contains '/' then .ok a.weight
  else if matchPtsStr a.weight_str then
    let s := sibWeightSum siblings
    if s.beq (Fraction.ofInt 0) then .err .zeroDivision else .ok (a.weight.div s)
  else .err .valueError

/-! ## Grade nodes and aggregation (src/overunder.py:372-553) -/

/-- The `_weight_grade_cache` dictionary (src/overunder.py:404).  Only the
three default-grade keys `0`, `None` and `1` ever occur (src 488-504). -/
structure Memo where
  mn : Option Fraction
  pr : Option Fraction
  mx : Option Fraction
deriving DecidableEq

def Memo.empty : Memo := ⟨none, none, none⟩

/-- Mutable state of an `AssignmentGrade` node (src/overunder.py:394-406):
the bound assignment's data, the raw grade text, and the cache fields
`_percent_grade`, `_has_grade` and `_weight_grade_cache`. -/
structure GData where
  adata : AData
  grade_str : Str
  percent_grade : Option Fraction
  has_grade : Bool
  memo : Memo
deriving DecidableEq

/-- `AssignmentGrade._parse_grade_str` (src/overunder.py:408-415): parse with
the bound assignment's parsed weight as full points and `LETTER_FRACTIONS`
as the grade scale. -/
def parse_grade_str (a : AData) (gs : Str) : Res (Option Fraction) :=
  match parse_fraction gs (some a.weight) (some LETTER_FRACTIONS) with
  | .err e => .err e
  | .ok (v, _) => .ok v

/-- The three aggregation policies; `Pol.dflt` is the `default_grade`
argument passed by `minimum_grade` / `partial_grade` / `maximum_grade`
(src/overunder.py:488-504). -/
inductive Pol where
  | mn
  | pr
  | mx
deriving DecidableEq

def Pol.dflt : Pol → Option Fraction
  | .mn => some (Fraction.ofInt 0)
  | .pr => none
  | .mx => some (Fraction.ofInt 1)

/-- Leaf cases of `_weighted_grade` (src/overunder.py:478-484): the parsed
value if graded, `0` for a direct query with `default_grade is None`, else
the default.  A leaf flagged `has_grade` with no stored parsed value would
make Python return `None` and fail in the caller's arithmetic; modelled as
an error. -/
def wgLeaf (d : GData) (dflt : Option Fraction) : Res Fraction :=
  if d.has_grade then
    match d.percent_grade with
    | some v => .ok v
    | none => .err .valueError
  else
    match dflt with
    | none => .ok (Fraction.ofInt 0)
    | some g => .ok g

mutual
/-- `AssignmentGrade._weighted_grade` (src/overunder.py:460-486) without the
memoisation lines 462-463 and 485 (the cache is modelled separately by
`wgC`): for an internal node, loop over the children skipping a child with
no grade when `default_grade is None`, accumulating
`total_grade += child.percent_weight * child._weighted_grade(default)` and,
for non-extra-credit children, `total_weight += child.percent_weight`;
return `0` if the total weight is `0`, else the quotient.  For a leaf:
the parsed value if graded, `0` for a direct query with default `None`,
else the default.  `AssignmentGrade.percent_weight` delegates to the bound
assignment (src 431-434), whose siblings carry the same `AData` as the
grade node's siblings, so the sibling list is taken from the grade tree.
A leaf flagged `has_grade` with no stored parsed value would make Python
return `None` and fail in the caller's arithmetic; this is modelled as an
error. -/
def wg : NamedNode GData → Option Fraction → Res Fraction
  | .node _ d [], dflt => wgLeaf d dflt
  | .node _ _ (c :: cs), dflt =>
    match wgFold ((c :: cs).map (fun x => x.data.adata)) dflt (c :: cs)
        (Fraction.ofInt 0) (Fraction.ofInt 0) with
    | .err e => .err e
    | .ok (tg, tw) =>
      .ok (if tw.beq (Fraction.ofInt 0) then Fraction.ofInt 0 else tg.div tw)
def wgFold (sibs : List AData) (dflt : Option Fraction) :
    List (NamedNode GData) → Fraction → Fraction → Res (Fraction × Fraction)
  | [], tg, tw => .ok (tg, tw)
  | c :: rest, tg, tw =>
    if dflt.isNone && !c.data.has_grade then wgFold sibs dflt rest tg tw
    else
      match percent_weight false sibs c.data.adata with
      | .err e => .err e
      | .ok w =>
        match wg c dflt with
        | .err e => .err e
        | .ok g =>
          wgFold sibs dflt rest (tg + w * g)
            (if c.data.adata.extra_credit then tw else tw + w)
end

/-- `AssignmentGrade.minimum_grade` (src/overunder.py:488-492). -/
def minimum_grade (t : NamedNode GData) : Res Fraction := wg t (some (Fraction.ofInt 0))

/-- `AssignmentGrade.partial_grade` (src/overunder.py:494-498); renamed to
avoid a reserved word. -/
def mid_grade (t : NamedNode GData) : Res Fraction := wg t none

/-- `AssignmentGrade.maximum_grade` (src/overunder.py:500-504). -/
def maximum_grade (t : NamedNode GData) : Res Fraction := wg t (some (Fraction.ofInt 1))

/-- Specification-level percent weight in `ℚ` of a non-root child among its
siblings (value of `percent_weight` along its non-error paths). -/
def pwQ (sibs : List AData) (a : AData) : ℚ :=
  if a.weight_str.getLast? == some '%' || a.weight_str.contains '/' then a.weight.toQ
  else a.weight.toQ / (sibs.map (fun x => x.weight.toQ)).sum

/-- Denominator sum of the aggregation formula: percent weights of the
considered non-extra-credit children. -/
def wgQden (sibs : List AData) (dflt : Option Fraction) (l : List (NamedNode GData)) : ℚ :=
  (l.map (fun x =>
    if (dflt.isNone && !x.data.has_grade) || x.data.adata.extra_credit then 0
    else pwQ sibs x.data.adata)).sum

/-- Specification-level leaf aggregate in `ℚ`. -/
def wgQLeaf (d : GData) (dflt : Option Fraction) : ℚ :=
  if d.has_grade then (d.percent_grade.getD (Fraction.ofInt 0)).toQ
  else
    match dflt with
    | none => 0
    | some g => g.toQ

mutual
/-- Specification-level aggregate in `ℚ` (the value of `wg` along non-error
paths, proved by `wg_toQ`): weighted sum over considered children divided by
the total considered non-extra-credit weight, with the zero-total guard. -/
def wgQ : NamedNode GData → Option Fraction → ℚ
  | .node _ d [], dflt => wgQLeaf d dflt
  | .node _ _ (c :: cs), dflt =>
    let sibs := (c :: cs).map (fun x => x.data.adata)
    let tw := wgQden sibs dflt (c :: cs)
    if tw = 0 then 0 else wgQnum sibs dflt (c :: cs) / tw
def wgQnum (sibs : List AData) (dflt : Option Fraction) : List (NamedNode GData) → ℚ
  | [] => 0
  | x :: rest =>
    (if dflt.isNone && !x.data.has_grade then 0 else pwQ sibs x.data.adata * wgQ x dflt)
      + wgQnum sibs dflt rest
end

mutual
/-- Well-formedness for aggregation: every `percent_weight` call made by
`wg` succeeds, and every leaf flagged `has_grade` stores a parsed value. -/
def wfT : NamedNode GData → Bool
  | .node _ d [] => !d.has_grade || d.percent_grade.isSome
  | .node _ _ (c :: cs) =>
    ((c :: cs).all (fun x =>
      (percent_weight false ((c :: cs).map (fun y => y.data.adata)) x.data.adata).isOk))
      && wfL (c :: cs)
def wfL : List (NamedNode GData) → Bool
  | [] => true
  | c :: rest => wfT c && wfL rest
end

theorem Fraction.toQ_eq_zero_iff (a : Fraction) : a.toQ = 0 ↔ a.num = 0 := by
  unfold Fraction.toQ
  rw [div_eq_zero_iff]
  constructor
  · rintro (h | h)
    · exact_mod_cast h
    · exact absurd h a.denQ_ne
  · intro h; left; exact_mod_cast h

theorem Fraction.beq_zero_iff (a : Fraction) :
    a.beq (Fraction.ofInt 0) = true ↔ a.toQ = 0 := by
  rw [Fraction.beq_iff]
  simp

theorem sibWeightSum_toQ_aux (l : List AData) :
    ∀ acc : Fraction, (l.foldl (fun acc a => acc + a.weight) acc).toQ
      = acc.toQ + (l.map (fun x => x.weight.toQ)).sum := by
  induction l with
  | nil => intro acc; simp
  | cons a rest ih =>
    intro acc
    simp only [List.foldl_cons, List.map_cons, List.sum_cons]
    rw [ih (acc + a.weight), Fraction.toQ_add]
    ring

theorem sibWeightSum_toQ (l : List AData) :
    (sibWeightSum l).toQ = (l.map (fun x => x.weight.toQ)).sum := by
  unfold sibWeightSum
  rw [sibWeightSum_toQ_aux]
  simp

/-- Along success paths, `percent_weight` of a non-root node has the value
`pwQ`. -/
theorem pw_toQ {sibs : List AData} {a : AData} {w : Fraction}
    (h : percent_weight false sibs a = .ok w) : w.toQ = pwQ sibs a := by
  unfold percent_weight at h
  unfold pwQ
  simp only [if_neg Bool.false_ne_true] at h
  by_cases h1 : (a.weight_str.getLast? == some '%' || a.weight_str.contains '/') = true
  · rw [if_pos h1] at h
    rw [if_pos h1]
    cases h
    rfl
  · rw [if_neg h1] at h
    rw [if_neg h1]
    by_cases h2 : matchPtsStr a.weight_str = true
    · rw [if_pos h2] at h
      by_cases h3 : (sibWeightSum sibs).beq (Fraction.ofInt 0) = true
      · rw [if_pos h3] at h; cases h
      · rw [if_neg h3] at h
        cases h
        have hnz : (sibWeightSum sibs).num ≠ 0 := by
          intro h0
          exact h3 ((Fraction.beq_zero_iff _).mpr ((Fraction.toQ_eq_zero_iff _).mpr h0))
        rw [Fraction.toQ_div _ hnz, sibWeightSum_toQ]
    · rw [if_neg h2] at h; cases h

theorem pw_isOk_toQ {sibs : List AData} {a : AData}
    (h : (percent_weight false sibs a).isOk = true) :
    ∃ w, percent_weight false sibs a = .ok w ∧ w.toQ = pwQ sibs a := by
  cases hw : percent_weight false sibs a with
  | ok w => exact ⟨w, rfl, pw_toQ hw⟩
  | err e => rw [hw] at h; cases h

theorem wg_leaf_eq (nm : Str) (d : GData) (dflt : Option Fraction) :
    wg (NamedNode.node nm d []) dflt = wgLeaf d dflt := rfl

theorem wg_cons_eq (nm : Str) (d : GData) (c : NamedNode GData) (cs : List (NamedNode GData))
    (dflt : Option Fraction) :
    wg (NamedNode.node nm d (c :: cs)) dflt =
      match wgFold ((c :: cs).map (fun x => x.data.adata)) dflt (c :: cs)
          (Fraction.ofInt 0) (Fraction.ofInt 0) with
      | .err e => .err e
      | .ok (tg, tw) =>
        .ok (if tw.beq (Fraction.ofInt 0) then Fraction.ofInt 0 else tg.div tw) := rfl

theorem wgFold_nil_eq (sibs : List AData) (dflt : Option Fraction) (tg tw : Fraction) :
    wgFold sibs dflt [] tg tw = .ok (tg, tw) := rfl

theorem wgFold_cons_eq (sibs : List AData) (dflt : Option Fraction) (c : NamedNode GData)
    (rest : List (NamedNode GData)) (tg tw : Fraction) :
    wgFold sibs dflt (c :: rest) tg tw =
      if dflt.isNone && !c.data.has_grade then wgFold sibs dflt rest tg tw
      else
        match percent_weight false sibs c.data.adata with
        | .err e => .err e
        | .ok w =>
          match wg c dflt with
          | .err e => .err e
          | .ok g =>
            wgFold sibs dflt rest (tg + w * g)
              (if c.data.adata.extra_credit then tw else tw + w) := rfl

theorem wgQ_leaf_eq (nm : Str) (d : GData) (dflt : Option Fraction) :
    wgQ (NamedNode.node nm d []) dflt = wgQLeaf d dflt := rfl

theorem wgQ_cons_eq (nm : Str) (d : GData) (c : NamedNode GData) (cs : List (NamedNode GData))
    (dflt : Option Fraction) :
    wgQ (NamedNode.node nm d (c :: cs)) dflt =
      (if wgQden ((c :: cs).map (fun x => x.data.adata)) dflt (c :: cs) = 0 then 0
       else wgQnum ((c :: cs).map (fun x => x.data.adata)) dflt (c :: cs) /
         wgQden ((c :: cs).map (fun x => x.data.adata)) dflt (c :: cs)) := rfl

theorem wgQnum_nil_eq (sibs : List AData) (dflt : Option Fraction) :
    wgQnum sibs dflt [] = 0 := rfl

theorem wgQnum_cons_eq (sibs : List AData) (dflt : Option Fraction) (x : NamedNode GData)
    (rest : List (NamedNode GData)) :
    wgQnum sibs dflt (x :: rest) =
      (if dflt.isNone && !x.data.has_grade then 0 else pwQ sibs x.data.adata * wgQ x dflt)
        + wgQnum sibs dflt rest := rfl

theorem wfT_leaf_eq (nm : Str) (d : GData) :
    wfT (NamedNode.node nm d []) = (!d.has_grade || d.percent_grade.isSome) := rfl

theorem wfT_cons_eq (nm : Str) (d : GData) (c : NamedNode GData) (cs : List (NamedNode GData)) :
    wfT (NamedNode.node nm d (c :: cs)) =
      (((c :: cs).all (fun x =>
        (percent_weight false ((c :: cs).map (fun y => y.data.adata)) x.data.adata).isOk))
        && wfL (c :: cs)) := rfl

theorem wfL_cons_eq (c : NamedNode GData) (rest : List (NamedNode GData)) :
    wfL (c :: rest) = (wfT c && wfL rest) := rfl

/-- Leaf case of the bridge between `wg` and `wgQ`. -/
theorem wg_toQ_leaf {nm : Str} {d : GData} (dflt : Option Fraction)
    (h : wfT (NamedNode.node nm d []) = true) :
    ∃ v, wg (NamedNode.node nm d []) dflt = .ok v ∧
      v.toQ = wgQ (NamedNode.node nm d []) dflt := by
  rw [wfT_leaf_eq] at h
  simp only [Bool.or_eq_true, Bool.not_eq_eq_eq_not, Bool.not_true] at h
  rw [wg_leaf_eq, wgQ_leaf_eq]
  unfold wgLeaf wgQLeaf
  by_cases hg : d.has_grade
  · rw [if_pos hg, if_pos hg]
    rcases h with h | h
    · rw [h] at hg; cases hg
    · cases hv : d.percent_grade with
      | none => rw [hv] at h; cases h
      | some v => exact ⟨v, rfl, rfl⟩
  · rw [if_neg hg, if_neg hg]
    cases dflt with
    | none => exact ⟨Fraction.ofInt 0, rfl, by simp⟩
    | some g => exact ⟨g, rfl, rfl⟩

/-- Internal-node case of the bridge, given the fold result. -/
theorem wg_toQ_node {nm : Str} {d : GData} {c : NamedNode GData} {cs : List (NamedNode GData)}
    {dflt : Option Fraction} {tgv twv : Fraction}
    (hfold : wgFold ((c :: cs).map (fun x => x.data.adata)) dflt (c :: cs)
      (Fraction.ofInt 0) (Fraction.ofInt 0) = .ok (tgv, twv))
    (htg : tgv.toQ = (Fraction.ofInt 0).toQ +
      wgQnum ((c :: cs).map (fun x => x.data.adata)) dflt (c :: cs))
    (htw : twv.toQ = (Fraction.ofInt 0).toQ +
      wgQden ((c :: cs).map (fun x => x.data.adata)) dflt (c :: cs)) :
    ∃ v, wg (NamedNode.node nm d (c :: cs)) dflt = .ok v ∧
      v.toQ = wgQ (NamedNode.node nm d (c :: cs)) dflt := by
  rw [wg_cons_eq, wgQ_cons_eq, hfold]
  simp only [Fraction.toQ_ofInt, Int.cast_zero, zero_add] at htg htw
  by_cases hz : twv.beq (Fraction.ofInt 0) = true
  · have hden : wgQden ((c :: cs).map (fun x => x.data.adata)) dflt (c :: cs) = 0 := by
      rw [← htw]; exact (Fraction.beq_zero_iff _).mp hz
    rw [if_pos hden]
    refine ⟨Fraction.ofInt 0, ?_, by simp⟩
    show Res.ok (if twv.beq (Fraction.ofInt 0) then Fraction.ofInt 0 else tgv.div twv) = _
    rw [if_pos hz]
  · have hne : wgQden ((c :: cs).map (fun x => x.data.adata)) dflt (c :: cs) ≠ 0 := by
      rw [← htw]
      intro h0
      exact hz ((Fraction.beq_zero_iff _).mpr h0)
    have hnz : twv.num ≠ 0 := by
      intro h0
      exact hz ((Fraction.beq_zero_iff _).mpr ((Fraction.toQ_eq_zero_iff _).mpr h0))
    rw [if_neg hne]
    refine ⟨tgv.div twv, ?_, by rw [Fraction.toQ_div _ hnz, htg, htw]⟩
    show Res.ok (if twv.beq (Fraction.ofInt 0) then Fraction.ofInt 0 else tgv.div twv) = _
    rw [if_neg hz]

/-- Empty-list case of the fold bridge. -/
theorem wgFold_toQ_nil (sibs : List AData) (dflt : Option Fraction) (tg tw : Fraction) :
    ∃ tgv twv, wgFold sibs dflt [] tg tw = .ok (tgv, twv) ∧
      tgv.toQ = tg.toQ + wgQnum sibs dflt [] ∧ twv.toQ = tw.toQ + wgQden sibs dflt [] := by
  refine ⟨tg, tw, wgFold_nil_eq sibs dflt tg tw, ?_, ?_⟩ <;> simp [wgQnum_nil_eq, wgQden]

/-- Cons case of the fold bridge, with the recursive facts as hypotheses. -/
theorem wgFold_toQ_cons {sibs : List AData} {dflt : Option Fraction} {c : NamedNode GData}
    {rest : List (NamedNode GData)}
    (hpwc : (percent_weight false sibs c.data.adata).isOk = true)
    (ihc : ∃ g, wg c dflt = .ok g ∧ g.toQ = wgQ c dflt)
    (ihrest : ∀ tg' tw' : Fraction,
      ∃ tgv twv, wgFold sibs dflt rest tg' tw' = .ok (tgv, twv) ∧
        tgv.toQ = tg'.toQ + wgQnum sibs dflt rest ∧
        twv.toQ = tw'.toQ + wgQden sibs dflt rest)
    (tg tw : Fraction) :
    ∃ tgv twv, wgFold sibs dflt (c :: rest) tg tw = .ok (tgv, twv) ∧
      tgv.toQ = tg.toQ + wgQnum sibs dflt (c :: rest) ∧
      twv.toQ = tw.toQ + wgQden sibs dflt (c :: rest) := by
  rw [wgFold_cons_eq]
  by_cases hskip : (dflt.isNone && !c.data.has_grade) = true
  · rw [if_pos hskip]
    obtain ⟨tgv, twv, hrec, htg, htw⟩ := ihrest tg tw
    refine ⟨tgv, twv, hrec, ?_, ?_⟩
    · rw [htg, wgQnum_cons_eq, if_pos hskip]
      ring
    · rw [htw]
      unfold wgQden
      simp only [List.map_cons, List.sum_cons, Bool.or_eq_true]
      rw [if_pos (Or.inl hskip)]
      ring
  · rw [if_neg hskip]
    obtain ⟨w, hw, hwq⟩ := pw_isOk_toQ hpwc
    rw [hw]
    obtain ⟨g, hgEq, hgq⟩ := ihc
    rw [hgEq]
    obtain ⟨tgv, twv, hrec, htg, htw⟩ :=
      ihrest (tg + w * g) (if c.data.adata.extra_credit then tw else tw + w)
    refine ⟨tgv, twv, hrec, ?_, ?_⟩
    · rw [htg, Fraction.toQ_add, Fraction.toQ_mul, hwq, hgq, wgQnum_cons_eq, if_neg hskip]
      ring
    · rw [htw]
      unfold wgQden
      simp only [List.map_cons, List.sum_cons, Bool.or_eq_true]
      by_cases hec : c.data.adata.extra_credit = true
      · rw [if_pos hec, if_pos (Or.inr hec)]
        ring
      · rw [if_neg hec, if_neg (not_or.mpr ⟨hskip, hec⟩), Fraction.toQ_add, hwq]
        ring

/-- Split a well-formedness fact at an internal node. -/
theorem wfT_parts {nm : Str} {d : GData} {c : NamedNode GData} {cs : List (NamedNode GData)}
    (h : wfT (NamedNode.node nm d (c :: cs)) = true) :
    ((c :: cs).all (fun x =>
      (percent_weight false ((c :: cs).map (fun y => y.data.adata)) x.data.adata).isOk)) = true ∧
    wfL (c :: cs) = true := by
  rw [wfT_cons_eq, Bool.and_eq_true] at h
  exact h

theorem allPW_parts {sibs : List AData} {c : NamedNode GData} {rest : List (NamedNode GData)}
    (h : ((c :: rest).all fun x => (percent_weight false sibs x.data.adata).isOk) = true) :
    (percent_weight false sibs c.data.adata).isOk = true ∧
    (rest.all fun x => (percent_weight false sibs x.data.adata).isOk) = true := by
  rw [List.all_cons, Bool.and_eq_true] at h
  exact h

theorem wfL_parts {c : NamedNode GData} {rest : List (NamedNode GData)}
    (h : wfL (c :: rest) = true) : wfT c = true ∧ wfL rest = true := by
  rw [wfL_cons_eq, Bool.and_eq_true] at h
  exact h

/-- Internal-node bridge case packaged over the universally quantified fold fact. -/
theorem wg_toQ_node2 {nm : Str} {d : GData} {c : NamedNode GData} {cs : List (NamedNode GData)}
    {dflt : Option Fraction}
    (ihfold : ∀ tg tw : Fraction,
      ∃ tgv twv, wgFold ((c :: cs).map (fun x => x.data.adata)) dflt (c :: cs) tg tw
          = .ok (tgv, twv) ∧
        tgv.toQ = tg.toQ + wgQnum ((c :: cs).map (fun x => x.data.adata)) dflt (c :: cs) ∧
        twv.toQ = tw.toQ + wgQden ((c :: cs).map (fun x => x.data.adata)) dflt (c :: cs)) :
    ∃ v, wg (NamedNode.node nm d (c :: cs)) dflt = .ok v ∧
      v.toQ = wgQ (NamedNode.node nm d (c :: cs)) dflt := by
  obtain ⟨tgv, twv, hfold, htg, htw⟩ := ihfold (Fraction.ofInt 0) (Fraction.ofInt 0)
  exact wg_toQ_node hfold htg htw

/-- Fold bridge for a child list, with the per-child bridge as a hypothesis. -/
theorem wgFold_toQ_aux (sibs : List AData) (dflt : Option Fraction) :
    ∀ (l : List (NamedNode GData)),
    (∀ x ∈ l, wfT x = true → ∃ g, wg x dflt = .ok g ∧ g.toQ = wgQ x dflt) →
    (l.all fun x => (percent_weight false sibs x.data.adata).isOk) = true →
    wfL l = true → ∀ tg tw : Fraction,
    ∃ tgv twv, wgFold sibs dflt l tg tw = .ok (tgv, twv) ∧
      tgv.toQ = tg.toQ + wgQnum sibs dflt l ∧ twv.toQ = tw.toQ + wgQden sibs dflt l := by
  intro l
  induction l with
  | nil => intro _ _ _; exact wgFold_toQ_nil sibs dflt
  | cons c rest ih =>
    intro hx hpw hwf
    exact wgFold_toQ_cons (allPW_parts hpw).1
      (hx c (List.mem_cons_self c rest) (wfL_parts hwf).1)
      (ih (fun x hm => hx x (List.mem_cons_of_mem c hm)) (allPW_parts hpw).2 (wfL_parts hwf).2)

theorem wg_toQ_szd : ∀ (n : ℕ) (t : NamedNode GData), sizeOf t ≤ n →
    ∀ (dflt : Option Fraction), wfT t = true →
    ∃ v, wg t dflt = .ok v ∧ v.toQ = wgQ t dflt := by
  intro n
  induction n with
  | zero =>
    intro t ht
    exfalso
    cases t with
    | node nm d cs => simp [NamedNode.node.sizeOf_spec] at ht
  | succ n ih =>
    intro t ht dflt hwf
    cases t with
    | node nm d cs =>
      cases cs with
      | nil => exact wg_toQ_leaf dflt hwf
      | cons c cs' =>
        refine wg_toQ_node2
          (wgFold_toQ_aux _ dflt (c :: cs') ?_ (wfT_parts hwf).1 (wfT_parts hwf).2)
        intro x hm hwfx
        refine ih x ?_ dflt hwfx
        have h1 : sizeOf x < sizeOf (c :: cs') := List.sizeOf_lt_of_mem hm
        have h2 : sizeOf (NamedNode.node nm d (c :: cs')) = 1 + sizeOf nm + sizeOf d
            + sizeOf (c :: cs') := by simp [NamedNode.node.sizeOf_spec]
        omega

/-- The faithful `_weighted_grade` succeeds on a well-formed tree and its
value is the specification aggregate `wgQ`. -/
theorem wg_toQ (t : NamedNode GData) (dflt : Option Fraction) (h : wfT t = true) :
    ∃ v, wg t dflt = .ok v ∧ v.toQ = wgQ t dflt :=
  wg_toQ_szd (sizeOf t) t le_rfl dflt h

/-! ## Claim C2 — the aggregation formula -/

/-- C2: for every internal GradeNode and each policy, the aggregate equals
weightedSum / totalWeight, where weightedSum sums childPercentWeight ×
childAggregate(policy) over children (under PARTIAL a child with
`has_grade = false` is skipped), totalWeight sums childPercentWeight over
every non-extra-credit child considered, and the result is exactly 0 when
totalWeight is 0; an ungraded leaf defaults to 0 (MIN), exclusion (PARTIAL)
or 1 (MAX); a graded leaf yields its parsed value.  The first conjunct is
the internal formula, the second identifies the code aggregate `wg` with the
specification aggregate `wgQ` (so the child aggregates in `wgQnum` are the
code's), the third and fourth give the leaf cases, and the fifth makes the
PARTIAL exclusion explicit (an ungraded child contributes to neither sum). -/
theorem c2_aggregation_formula :
    (∀ (nm : Str) (d : GData) (c : NamedNode GData) (cs : List (NamedNode GData))
        (dflt : Option Fraction), wfT (NamedNode.node nm d (c :: cs)) = true →
      ∃ v, wg (NamedNode.node nm d (c :: cs)) dflt = .ok v ∧
        v.toQ = (if wgQden ((c :: cs).map (fun x => x.data.adata)) dflt (c :: cs) = 0 then 0
          else wgQnum ((c :: cs).map (fun x => x.data.adata)) dflt (c :: cs) /
            wgQden ((c :: cs).map (fun x => x.data.adata)) dflt (c :: cs)))
    ∧ (∀ (t : NamedNode GData) (dflt : Option Fraction), wfT t = true →
        ∃ v, wg t dflt = .ok v ∧ v.toQ = wgQ t dflt)
    ∧ (∀ (nm : Str) (d : GData) (v : Fraction) (dflt : Option Fraction),
        d.has_grade = true → d.percent_grade = some v →
        wg (NamedNode.node nm d []) dflt = .ok v)
    ∧ (∀ (nm : Str) (d : GData), d.has_grade = false →
        minimum_grade (NamedNode.node nm d []) = .ok (Fraction.ofInt 0) ∧
        maximum_grade (NamedNode.node nm d []) = .ok (Fraction.ofInt 1))
    ∧ (∀ (sibs : List AData) (x : NamedNode GData) (rest : List (NamedNode GData)),
        x.data.has_grade = false →
        wgQnum sibs none (x :: rest) = wgQnum sibs none rest ∧
        wgQden sibs none (x :: rest) = wgQden sibs none rest) := by
  refine ⟨?_, wg_toQ, ?_, ?_, ?_⟩
  · intro nm d c cs dflt h
    obtain ⟨v, hv, hq⟩ := wg_toQ (NamedNode.node nm d (c :: cs)) dflt h
    rw [wgQ_cons_eq] at hq
    exact ⟨v, hv, hq⟩
  · intro nm d v dflt hg hp
    rw [wg_leaf_eq]
    unfold wgLeaf
    rw [if_pos hg, hp]
  · intro nm d hg
    have hni : d.has_grade ≠ true := by rw [hg]; exact Bool.false_ne_true
    constructor
    · unfold minimum_grade
      rw [wg_leaf_eq]
      unfold wgLeaf
      rw [if_neg hni]
    · unfold maximum_grade
      rw [wg_leaf_eq]
      unfold wgLeaf
      rw [if_neg hni]
  · intro sibs x rest hx
    have hskip : (Option.isNone (none : Option Fraction) && !x.data.has_grade) = true := by
      rw [hx]; rfl
    constructor
    · rw [wgQnum_cons_eq, if_pos hskip, zero_add]
    · unfold wgQden
      simp only [List.map_cons, List.sum_cons, Bool.or_eq_true]
      rw [if_pos (Or.inl hskip), zero_add]

def c2ex1 : NamedNode GData :=
  .node "a".toList ⟨⟨"40%".toList, false, ⟨40, 100, by decide⟩, .percent⟩, "100%".toList,
    some ⟨100, 100, by decide⟩, true, Memo.empty⟩ []

def c2ex2 : NamedNode GData :=
  .node "b".toList ⟨⟨"60%".toList, false, ⟨60, 100, by decide⟩, .percent⟩, "50%".toList,
    some ⟨50, 100, by decide⟩, true, Memo.empty⟩ []

def c2root : NamedNode GData :=
  .node "r".toList ⟨⟨"100%".toList, false, ⟨1, 1, by decide⟩, .percent⟩, "None".toList,
    none, true, Memo.empty⟩ [c2ex1, c2ex2]

theorem c2_aggregation_formula_witness :
    wfT c2root = true ∧
    (∃ v, wg c2root none = .ok v ∧
      v.toQ = (if wgQden ((c2ex1 :: [c2ex2]).map (fun x => x.data.adata)) none
            (c2ex1 :: [c2ex2]) = 0 then 0
        else wgQnum ((c2ex1 :: [c2ex2]).map (fun x => x.data.adata)) none (c2ex1 :: [c2ex2]) /
          wgQden ((c2ex1 :: [c2ex2]).map (fun x => x.data.adata)) none (c2ex1 :: [c2ex2]))) :=
  ⟨by decide, c2_aggregation_formula.1 _ _ c2ex1 [c2ex2] none (by decide)⟩

/-! ## Claim C5 — points-kind percent weights -/

/-- Modelled from the spec, for comparison with the source's
`percent_weight`: §4.2 asks that a points-kind weight be divided by the sum
of points over *non-extra-credit* siblings only. -/
def percent_weight_spec (isRoot : Bool) (siblings : List AData) (a : AData) : Res Fraction :=
  if isRoot then .ok (Fraction.ofInt 1)
  else if a.weight_str.getLast? == some '%' || a.weight_str.contains '/' then .ok a.weight
  else if matchPtsStr a.weight_str then
    let s := sibWeightSum (siblings.filter (fun x => !x.extra_credit))
    if s.beq (Fraction.ofInt 0) then .err .zeroDivision else .ok (a.weight.div s)
  else .err .valueError

def c5A : AData := ⟨"10".toList, false, ⟨10, 1, by decide⟩, .points⟩

def c5B : AData := ⟨"10".toList, true, ⟨10, 1, by decide⟩, .points⟩

/-- C5 counterexample: with a 10-point non-extra-credit assignment next to a
10-point extra-credit sibling, the source computes 10/20 = 1/2 (the
extra-credit sibling is *included* in the denominator), while the claim's
formula gives 10/10 = 1. -/
theorem c5_counterexample :
    ∃ w ws : Fraction,
      percent_weight false [c5A, c5B] c5A = .ok w ∧
      percent_weight_spec false [c5A, c5B] c5A = .ok ws ∧
      w.toQ = 1 / 2 ∧ ws.toQ = 1 ∧ w.toQ ≠ ws.toQ := by
  refine ⟨⟨10, 20, by decide⟩, ⟨10, 10, by decide⟩, by decide, by decide, ?_, ?_, ?_⟩
  · show ((10 : ℤ) : ℚ) / ((20 : ℤ) : ℚ) = 1 / 2
    norm_num
  · show ((10 : ℤ) : ℚ) / ((10 : ℤ) : ℚ) = 1
    norm_num
  · show ((10 : ℤ) : ℚ) / ((20 : ℤ) : ℚ) ≠ ((10 : ℤ) : ℚ) / ((10 : ℤ) : ℚ)
    norm_num

/-- C5 amended: the root's percent weight is 1; percent- and ratio-kind
weight strings are used literally; a points-kind weight is divided by the
sum of the parsed weights of *all* siblings, extra-credit siblings
included. -/
theorem c5_amended :
    (∀ (sibs : List AData) (a : AData), percent_weight true sibs a = .ok (Fraction.ofInt 1))
    ∧ (∀ (sibs : List AData) (a : AData),
        (a.weight_str.getLast? == some '%' || a.weight_str.contains '/') = true →
        percent_weight false sibs a = .ok a.weight)
    ∧ (∀ (sibs : List AData) (a : AData),
        (a.weight_str.getLast? == some '%' || a.weight_str.contains '/') = false →
        matchPtsStr a.weight_str = true →
        (sibWeightSum sibs).beq (Fraction.ofInt 0) = false →
        ∃ w, percent_weight false sibs a = .ok w ∧
          w.toQ = a.weight.toQ / (sibs.map (fun x => x.weight.toQ)).sum) := by
  refine ⟨fun sibs a => rfl, ?_, ?_⟩
  · intro sibs a h
    unfold percent_weight
    rw [if_neg Bool.false_ne_true, if_pos h]
  · intro sibs a h1 h2 h3
    refine ⟨a.weight.div (sibWeightSum sibs), ?_, ?_⟩
    · unfold percent_weight
      rw [if_neg Bool.false_ne_true, if_neg (by rw [h1]; exact Bool.false_ne_true),
        if_pos h2]
      show (if (sibWeightSum sibs).beq (Fraction.ofInt 0) = true then _ else _) = _
      rw [if_neg (by rw [h3]; exact Bool.false_ne_true)]
    · have hnz : (sibWeightSum sibs).num ≠ 0 := by
        intro h0
        rw [(Fraction.beq_zero_iff _).mpr ((Fraction.toQ_eq_zero_iff _).mpr h0)] at h3
        cases h3
      rw [Fraction.toQ_div _ hnz, sibWeightSum_toQ]

theorem c5_amended_witness :
    ((c5A.weight_str.getLast? == some '%' || c5A.weight_str.contains '/') = false
      ∧ matchPtsStr c5A.weight_str = true
      ∧ (sibWeightSum [c5A, c5B]).beq (Fraction.ofInt 0) = false)
    ∧ (∃ w, percent_weight false [c5A, c5B] c5A = .ok w ∧
        w.toQ = c5A.weight.toQ / ([c5A, c5B].map (fun x => x.weight.toQ)).sum) :=
  ⟨⟨by decide, by decide, by decide⟩,
    c5_amended.2.2 [c5A, c5B] c5A (by decide) (by decide) (by decide)⟩

/-! ## Claim C9 — plain-number grade texts -/

theorem isDig_ne {c x : Char} (h : isDig c = true) (hx : isDig x = false) :
    (c == x) = false := by
  cases hcx : c == x with
  | false => rfl
  | true =>
    rw [beq_iff_eq] at hcx
    subst hcx
    rw [h] at hx
    cases hx

/-- Every character of a `SCORE_REGEX` match is a digit or the dot. -/
theorem matchDec_mem {gs : Str} (h : matchDec gs = true) :
    ∀ c ∈ gs, isDig c = true ∨ c = '.' := by
  intro c hc
  unfold matchDec at h
  have hsplit := List.takeWhile_append_dropWhile isDig gs
  split at h
  · rename_i heq
    exact Or.inl (List.dropWhile_eq_nil_iff.mp heq c hc)
  · rename_i b heq
    rw [Bool.and_eq_true] at h
    rw [← hsplit, heq] at hc
    rcases List.mem_append.mp hc with hm | hm
    · exact Or.inl (List.mem_takeWhile_imp hm)
    · rcases List.mem_cons.mp hm with hm | hm
      · exact Or.inr hm
      · exact Or.inl (List.all_eq_true.mp h.2 c hm)
  · cases h

theorem matchDec_getLast {gs : Str} (h : matchDec gs = true) {c : Char}
    (hl : gs.getLast? = some c) : isDig c = true := by
  unfold matchDec at h
  have hsplit := List.takeWhile_append_dropWhile isDig gs
  split at h
  · rename_i heq
    have hall : ∀ x ∈ gs, isDig x = true := List.dropWhile_eq_nil_iff.mp heq
    obtain ⟨ys, hys⟩ := List.getLast?_eq_some_iff.mp hl
    exact hall c (by rw [hys]; exact List.mem_append_right ys (by simp))
  · rename_i b heq
    rw [Bool.and_eq_true] at h
    have hb : b ≠ [] := by
      intro h0
      rw [h0] at h
      cases h.1
    have hgl : gs.getLast? = ('.' :: b).getLast? := by
      rw [← hsplit, heq, List.getLast?_append]
      cases hlb : ('.' :: b).getLast? with
      | none => rw [List.getLast?_eq_none_iff] at hlb; cases hlb
      | some x => rfl
    rw [hgl] at hl
    obtain ⟨ys, hys⟩ := List.getLast?_eq_some_iff.mp hl
    cases ys with
    | nil =>
      rw [List.nil_append] at hys
      injection hys with h1 h2
      exact absurd h2 hb
    | cons y ys' =>
      rw [List.cons_append] at hys
      injection hys with h1 h2
      have hcb : c ∈ b := by
        rw [h2]
        exact List.mem_append_right ys' (by simp)
      exact List.all_eq_true.mp h.2 c hcb
  · cases h

theorem matchDec_not_percent {gs : Str} (h : matchDec gs = true) :
    matchPercent gs = false := by
  unfold matchPercent
  cases hl : gs.getLast? with
  | none => rfl
  | some c =>
    have hc : isDig c = true := matchDec_getLast h hl
    split
    · rename_i heq
      cases heq
      cases hc
    · rfl

theorem splitOnChar_of_not_mem {c : Char} {gs : Str} (h : ∀ x ∈ gs, x ≠ c) :
    splitOnChar c gs = [gs] := by
  induction gs with
  | nil => rfl
  | cons x rest ih =>
    unfold splitOnChar
    rw [if_neg (h x (List.mem_cons_self x rest))]
    rw [ih (fun y hy => h y (List.mem_cons_of_mem x hy))]

theorem matchDec_not_frac {gs : Str} (h : matchDec gs = true) : matchFrac gs = false := by
  unfold matchFrac
  have hns : ∀ x ∈ gs, x ≠ '/' := by
    intro x hx h0
    rcases matchDec_mem h x hx with hd | hd
    · rw [h0] at hd; cases hd
    · rw [h0] at hd; cases hd
  rw [splitOnChar_of_not_mem hns]

/-- The score branch of the pattern dispatch: a plain decimal number is
divided by the full-points argument, whatever the weight kind it came from. -/
theorem parse_fraction_core_score (s : Str) (fp : Fraction)
    (scale : Option (Str → Option Fraction)) (n : Fraction)
    (hd : matchDec s = true) (hn : parseDecimal s = some n) (hw : fp.num ≠ 0) :
    parse_fraction_core s (some fp) scale = .ok (n.div fp, .points) := by
  unfold parse_fraction_core
  rw [if_neg (by rw [matchDec_not_percent hd]; exact Bool.false_ne_true),
    if_neg (by rw [matchDec_not_frac hd]; exact Bool.false_ne_true), if_pos hd, hn]
  show (if fp.num = 0 then Res.err PErr.zeroDivision
    else Res.ok (n.div fp, FType.points)) = _
  rw [if_neg hw]

theorem parse_fraction_strip (s0 : Str) (fp : Option Fraction)
    (scale : Option (Str → Option Fraction))
    (hnone : s0.map Char.toLower ≠ "none".toList) :
    parse_fraction s0 fp scale =
      (match parse_fraction_core
          (if ((s0.dropWhile (· == '+')).head? == some '-') = true
            then (s0.dropWhile (· == '+')).drop 1 else s0.dropWhile (· == '+'))
          fp scale with
      | .err e => .err e
      | .ok (v, t) =>
        .ok (some (if ((s0.dropWhile (· == '+')).head? == some '-') = true
          then Fraction.ofInt 1 - v else v), t)) := by
  unfold parse_fraction
  rw [if_neg hnone]

/-- C9 amended: a grade text that, after stripping leading `+` signs and an
optional leading `-`, is a plain decimal number parses to that number
divided by the bound assignment's *parsed weight*, whatever the weight's
kind — no points-kind requirement is enforced; a leading `-` yields the
`1 - value` penalty form. -/
theorem c9_amended (a : AData) (core : Str) (n : Fraction) (neg : Bool)
    (hdec : matchDec core = true) (hn : parseDecimal core = some n)
    (hw : a.weight.num ≠ 0)
    (hnone : ((cond neg ('-' :: core) core).map Char.toLower) ≠ "none".toList) :
    parse_grade_str a (cond neg ('-' :: core) core) =
      .ok (some (cond neg (Fraction.ofInt 1 - n.div a.weight) (n.div a.weight))) ∧
    (n.div a.weight).toQ = n.toQ / a.weight.toQ := by
  have hcore_ne : core ≠ [] := by
    intro h0
    rw [h0] at hn
    cases hn
  obtain ⟨chd, crest, hcore⟩ : ∃ chd crest, core = chd :: crest := by
    cases core with
    | nil => exact absurd rfl hcore_ne
    | cons x l => exact ⟨x, l, rfl⟩
  have hplus : core.dropWhile (· == '+') = core := by
    rw [hcore, List.dropWhile_cons]
    have hhd : ((chd == '+') = true) → False := by
      intro hp
      rw [beq_iff_eq] at hp
      subst hp
      rcases matchDec_mem (hcore ▸ hdec) '+' (List.mem_cons_self _ _) with hx | hx
      · cases hx
      · cases hx
    rw [if_neg hhd]
  have hheadm : (core.head? == some '-') = false := by
    rw [hcore, List.head?_cons]
    show (chd == '-') = false
    rcases matchDec_mem (hcore ▸ hdec) chd (hcore ▸ List.mem_cons_self chd crest) with hx | hx
    · exact isDig_ne hx (by decide)
    · subst hx; decide
  refine ⟨?_, Fraction.toQ_div n hw⟩
  unfold parse_grade_str
  cases neg with
  | false =>
    rw [show cond false ('-' :: core) core = core from rfl] at hnone
    rw [show cond false ('-' :: core) core = core from rfl]
    rw [parse_fraction_strip _ _ _ hnone, hplus, hheadm]
    simp only [if_neg Bool.false_ne_true]
    rw [parse_fraction_core_score core a.weight _ n hdec hn hw]
    rfl
  | true =>
    rw [show cond true ('-' :: core) core = '-' :: core from rfl] at hnone
    rw [show cond true ('-' :: core) core = '-' :: core from rfl]
    rw [parse_fraction_strip _ _ _ hnone]
    have hminus : ('-' :: core).dropWhile (· == '+') = '-' :: core := by
      rw [List.dropWhile_cons]
      rw [if_neg (by decide : (('-' == '+') = true) → False)]
    rw [hminus, List.head?_cons]
    have htrue : ((some '-' == some '-')) = true := by decide
    rw [htrue]
    simp only [if_pos rfl, List.drop_one, List.tail_cons, if_true]
    rw [parse_fraction_core_score core a.weight _ n hdec hn hw]
    rfl

def c9args : AData := ⟨"50%".toList, false, ⟨50, 100, by decide⟩, .percent⟩

/-- C9 counterexample: on an assignment whose weight is the percent-kind
string `50%` (parsed weight 1/2), the grade text `30` parses *successfully*
to 30 / (1/2) = 60; no points-kind requirement is enforced, and the divisor
is the parsed weight value, not a weight in points. -/
theorem c9_counterexample :
    c9args.weight_type = .percent ∧
    parse_grade_str c9args "30".toList = .ok (some ⟨3000, 50, by decide⟩) ∧
    Fraction.toQ ⟨3000, 50, by decide⟩ = 60 := by
  refine ⟨rfl, by decide, ?_⟩
  show ((3000 : ℤ) : ℚ) / ((50 : ℤ) : ℚ) = 60
  norm_num

theorem c9_amended_witness :
    (matchDec "30".toList = true ∧ parseDecimal "30".toList = some (Fraction.ofInt 30) ∧
      c9args.weight.num ≠ 0) ∧
    (parse_grade_str c9args "30".toList =
        .ok (some ((Fraction.ofInt 30).div c9args.weight)) ∧
      ((Fraction.ofInt 30).div c9args.weight).toQ =
        (Fraction.ofInt 30).toQ / c9args.weight.toQ) :=
  ⟨⟨by decide, by decide, by decide⟩,
    (c9_amended c9args "30".toList (Fraction.ofInt 30) false (by decide) (by decide)
      (by decide) (by decide))⟩

/-! ## Claim C8 — ordering of the three aggregates -/

theorem qsum_nonneg {α : Type} (l : List α) (f : α → ℚ) (h : ∀ x ∈ l, 0 ≤ f x) :
    0 ≤ (l.map f).sum := by
  induction l with
  | nil => simp
  | cons a rest ih =>
    simp only [List.map_cons, List.sum_cons]
    have := h a (List.mem_cons_self a rest)
    have := ih (fun x hx => h x (List.mem_cons_of_mem a hx))
    linarith

theorem qsum_le {α : Type} (l : List α) (f g : α → ℚ) (h : ∀ x ∈ l, f x ≤ g x) :
    (l.map f).sum ≤ (l.map g).sum := by
  induction l with
  | nil => simp
  | cons a rest ih =>
    simp only [List.map_cons, List.sum_cons]
    have := h a (List.mem_cons_self a rest)
    have := ih (fun x hx => h x (List.mem_cons_of_mem a hx))
    linarith

theorem qsum_pos {α : Type} (a : α) (rest : List α) (f : α → ℚ)
    (h : ∀ x ∈ a :: rest, 0 < f x) : 0 < ((a :: rest).map f).sum := by
  simp only [List.map_cons, List.sum_cons]
  have h1 := h a (List.mem_cons_self a rest)
  have h2 : 0 ≤ (rest.map f).sum :=
    qsum_nonneg rest f (fun x hx => le_of_lt (h x (List.mem_cons_of_mem a hx)))
  linarith

theorem qsum_add {α : Type} (l : List α) (f g : α → ℚ) :
    (l.map (fun x => f x + g x)).sum = (l.map f).sum + (l.map g).sum := by
  induction l with
  | nil => simp
  | cons a rest ih =>
    simp only [List.map_cons, List.sum_cons]
    rw [ih]
    ring

theorem qsum_congr {α : Type} (l : List α) (f g : α → ℚ) (h : ∀ x ∈ l, f x = g x) :
    (l.map f).sum = (l.map g).sum := by
  induction l with
  | nil => simp
  | cons a rest ih =>
    simp only [List.map_cons, List.sum_cons]
    rw [h a (List.mem_cons_self a rest), ih (fun x hx => h x (List.mem_cons_of_mem a hx))]

theorem qsum_eq_zero {α : Type} (l : List α) (f : α → ℚ) (h : ∀ x ∈ l, 0 ≤ f x)
    (h0 : (l.map f).sum = 0) : ∀ x ∈ l, f x = 0 := by
  induction l with
  | nil => intro x hx; cases hx
  | cons a rest ih =>
    simp only [List.map_cons, List.sum_cons] at h0
    have ha := h a (List.mem_cons_self a rest)
    have hr : 0 ≤ (rest.map f).sum :=
      qsum_nonneg rest f (fun x hx => h x (List.mem_cons_of_mem a hx))
    have hfa : f a = 0 := by linarith
    have hsum : (rest.map f).sum = 0 := by linarith
    intro x hx
    rcases List.mem_cons.mp hx with hx | hx
    · rw [hx]; exact hfa
    · exact ih (fun y hy => h y (List.mem_cons_of_mem a hy)) hsum x hx

/-- Weight positivity for a child: `percent_weight` succeeds with a strictly
positive value. -/
def pwPosOk (sibs : List AData) (x : NamedNode GData) : Bool :=
  match percent_weight false sibs x.data.adata with
  | .ok w => !(w.ble (Fraction.ofInt 0))
  | .err _ => false

mutual
/-- Hypotheses of the amended ordering claim, checked hereditarily: leaf
flags coherent with values in [0,1]; internal `has_grade` flags the
disjunction over children; no extra credit; every percent weight defined and
strictly positive. -/
def goodT : NamedNode GData → Bool
  | .node _ d [] =>
    (d.has_grade == d.percent_grade.isSome) &&
    (match d.percent_grade with
     | none => true
     | some v => (Fraction.ofInt 0).ble v && v.ble (Fraction.ofInt 1))
  | .node _ d (c :: cs) =>
    (d.has_grade == (c :: cs).any (fun x => x.data.has_grade)) &&
    ((c :: cs).all (fun x => !x.data.adata.extra_credit)) &&
    ((c :: cs).all (fun x => pwPosOk ((c :: cs).map (fun y => y.data.adata)) x)) &&
    goodL (c :: cs)
def goodL : List (NamedNode GData) → Bool
  | [] => true
  | c :: rest => goodT c && goodL rest
end

theorem goodT_leaf_eq (nm : Str) (d : GData) :
    goodT (NamedNode.node nm d []) =
      ((d.has_grade == d.percent_grade.isSome) &&
      (match d.percent_grade with
       | none => true
       | some v => (Fraction.ofInt 0).ble v && v.ble (Fraction.ofInt 1))) := rfl

theorem goodT_cons_eq (nm : Str) (d : GData) (c : NamedNode GData)
    (cs : List (NamedNode GData)) :
    goodT (NamedNode.node nm d (c :: cs)) =
      ((d.has_grade == (c :: cs).any (fun x => x.data.has_grade)) &&
      ((c :: cs).all (fun x => !x.data.adata.extra_credit)) &&
      ((c :: cs).all (fun x => pwPosOk ((c :: cs).map (fun y => y.data.adata)) x)) &&
      goodL (c :: cs)) := rfl

theorem goodL_cons_eq (c : NamedNode GData) (rest : List (NamedNode GData)) :
    goodL (c :: rest) = (goodT c && goodL rest) := rfl

theorem goodL_mem {l : List (NamedNode GData)} (h : goodL l = true) :
    ∀ x ∈ l, goodT x = true := by
  induction l with
  | nil => intro x hx; cases hx
  | cons c rest ih =>
    rw [goodL_cons_eq, Bool.and_eq_true] at h
    intro x hx
    rcases List.mem_cons.mp hx with hx | hx
    · rw [hx]; exact h.1
    · exact ih h.2 x hx

theorem wfL_of_parts : ∀ (l : List (NamedNode GData)), (∀ x ∈ l, wfT x = true) →
    wfL l = true := by
  intro l
  induction l with
  | nil => intro _; rfl
  | cons y ys ih =>
    intro h
    rw [wfL_cons_eq, Bool.and_eq_true]
    exact ⟨h y (List.mem_cons_self y ys), ih (fun x hx => h x (List.mem_cons_of_mem y hx))⟩

/-- `goodT` implies the success of every `percent_weight` call (`wfT`). -/
theorem goodT_wfT : ∀ (n : ℕ) (t : NamedNode GData), sizeOf t ≤ n → goodT t = true →
    wfT t = true := by
  intro n
  induction n with
  | zero =>
    intro t ht
    exfalso
    cases t with
    | node nm d cs => simp [NamedNode.node.sizeOf_spec] at ht
  | succ n ih =>
    intro t ht hg
    cases t with
    | node nm d cs =>
      cases cs with
      | nil =>
        rw [goodT_leaf_eq, Bool.and_eq_true, beq_iff_eq] at hg
        rw [wfT_leaf_eq]
        rw [hg.1]
        cases hv : d.percent_grade.isSome with
        | true => simp
        | false => simp
      | cons c cs' =>
        rw [goodT_cons_eq, Bool.and_eq_true, Bool.and_eq_true, Bool.and_eq_true] at hg
        rw [wfT_cons_eq, Bool.and_eq_true]
        constructor
        · rw [List.all_eq_true]
          intro x hx
          have := List.all_eq_true.mp hg.1.2 x hx
          unfold pwPosOk at this
          cases hpw : percent_weight false ((c :: cs').map (fun y => y.data.adata))
              x.data.adata with
          | ok w => rfl
          | err e => rw [hpw] at this; cases this
        · have hmem := goodL_mem hg.2
          have hsz : ∀ x ∈ c :: cs', sizeOf x ≤ n := by
            intro x hx
            have h1 : sizeOf x < sizeOf (c :: cs') := List.sizeOf_lt_of_mem hx
            have h2 : sizeOf (NamedNode.node nm d (c :: cs')) = 1 + sizeOf nm + sizeOf d
                + sizeOf (c :: cs') := by simp [NamedNode.node.sizeOf_spec]
            omega
          exact wfL_of_parts (c :: cs') (fun x hx => ih x (hsz x hx) (hmem x hx))

theorem qsum_sub {α : Type} (l : List α) (f g : α → ℚ) :
    (l.map (fun x => f x - g x)).sum = (l.map f).sum - (l.map g).sum := by
  induction l with
  | nil => simp
  | cons a rest ih =>
    simp only [List.map_cons, List.sum_cons]
    rw [ih]
    ring

theorem qsum_zero {α : Type} (l : List α) : (l.map (fun _ => (0 : ℚ))).sum = 0 := by
  induction l with
  | nil => simp
  | cons a rest ih => simp [ih]

theorem pwPosOk_pos {sibs : List AData} {x : NamedNode GData} (h : pwPosOk sibs x = true) :
    0 < pwQ sibs x.data.adata := by
  unfold pwPosOk at h
  cases hpw : percent_weight false sibs x.data.adata with
  | err e => rw [hpw] at h; cases h
  | ok w =>
    rw [hpw] at h
    have hq := pw_toQ hpw
    rw [← hq]
    rw [Bool.not_eq_true'] at h
    by_contra hle
    push_neg at hle
    have : w.ble (Fraction.ofInt 0) = true := by
      rw [Fraction.ble_iff]
      simpa using hle
    rw [this] at h
    cases h

theorem wgQnum_eq_sum (sibs : List AData) (dflt : Option Fraction) :
    ∀ l : List (NamedNode GData), wgQnum sibs dflt l =
      (l.map (fun x => if dflt.isNone && !x.data.has_grade then 0
        else pwQ sibs x.data.adata * wgQ x dflt)).sum := by
  intro l
  induction l with
  | nil => simp [wgQnum_nil_eq]
  | cons x rest ih =>
    rw [wgQnum_cons_eq, ih]
    simp

/-- The inductive invariant of the ordering proof for a subtree: the chain
`0 ≤ min ≤ partial-policy ≤ max ≤ 1` on the specification aggregates, and
the fully-ungraded case values `0 / 0 / 1`. -/
def ChainInv (t : NamedNode GData) : Prop :=
  (0 ≤ wgQ t (some (Fraction.ofInt 0))
    ∧ wgQ t (some (Fraction.ofInt 0)) ≤ wgQ t none
    ∧ wgQ t none ≤ wgQ t (some (Fraction.ofInt 1))
    ∧ wgQ t (some (Fraction.ofInt 1)) ≤ 1)
  ∧ (t.data.has_grade = false →
      wgQ t (some (Fraction.ofInt 0)) = 0 ∧ wgQ t none = 0 ∧
      wgQ t (some (Fraction.ofInt 1)) = 1)

theorem data_node {α : Type} (nm : Str) (d : α) (cs : List (NamedNode α)) :
    (NamedNode.node nm d cs).data = d := rfl

theorem c8leaf {nm : Str} {d : GData} (h : goodT (NamedNode.node nm d []) = true) :
    ChainInv (NamedNode.node nm d []) := by
  rw [goodT_leaf_eq, Bool.and_eq_true, beq_iff_eq] at h
  unfold ChainInv
  simp only [wgQ_leaf_eq, data_node]
  cases hg : d.has_grade with
  | true =>
    rw [hg] at h
    cases hv : d.percent_grade with
    | none => rw [hv] at h; exact absurd h.1 (by decide)
    | some v =>
      rw [hv] at h
      have hb := h.2
      rw [Bool.and_eq_true, Fraction.ble_iff, Fraction.ble_iff] at hb
      simp only [Fraction.toQ_ofInt, Int.cast_zero, Int.cast_one] at hb
      have hL : ∀ dflt, wgQLeaf d dflt = v.toQ := by
        intro dflt
        unfold wgQLeaf
        rw [hg, hv]
        simp
      simp only [hL]
      exact ⟨⟨hb.1, le_refl _, le_refl _, hb.2⟩, fun hc => absurd hc (by decide)⟩
  | false =>
    have hL0 : wgQLeaf d (some (Fraction.ofInt 0)) = 0 := by
      unfold wgQLeaf
      rw [hg]
      simp
    have hLn : wgQLeaf d none = 0 := by
      unfold wgQLeaf
      rw [hg]
      simp
    have hL1 : wgQLeaf d (some (Fraction.ofInt 1)) = 1 := by
      unfold wgQLeaf
      rw [hg]
      simp
    rw [hL0, hLn, hL1]
    exact ⟨⟨le_refl 0, le_refl 0, zero_le_one, le_refl 1⟩, fun _ => ⟨rfl, rfl, rfl⟩⟩

theorem c8node {nm : Str} {d : GData} {c : NamedNode GData} {cs : List (NamedNode GData)}
    (hch : ∀ x ∈ c :: cs, ChainInv x)
    (hec : ∀ x ∈ c :: cs, x.data.adata.extra_credit = false)
    (hpw : ∀ x ∈ c :: cs, 0 < pwQ ((c :: cs).map (fun y => y.data.adata)) x.data.adata)
    (hhg : d.has_grade = (c :: cs).any (fun x => x.data.has_grade)) :
    ChainInv (NamedNode.node nm d (c :: cs)) := by
  have hWeq : wgQden ((c :: cs).map (fun y => y.data.adata)) (some (Fraction.ofInt 0))
      (c :: cs) = ((c :: cs).map
        (fun x => pwQ ((c :: cs).map (fun y => y.data.adata)) x.data.adata)).sum := by
    unfold wgQden
    exact qsum_congr _ _ _ (fun x hx => by simp [hec x hx])
  have hW1eq : wgQden ((c :: cs).map (fun y => y.data.adata)) (some (Fraction.ofInt 1))
      (c :: cs) = ((c :: cs).map
        (fun x => pwQ ((c :: cs).map (fun y => y.data.adata)) x.data.adata)).sum := by
    unfold wgQden
    exact qsum_congr _ _ _ (fun x hx => by simp [hec x hx])
  have hWpeq : wgQden ((c :: cs).map (fun y => y.data.adata)) none (c :: cs) =
      ((c :: cs).map (fun x => if x.data.has_grade
        then pwQ ((c :: cs).map (fun y => y.data.adata)) x.data.adata else 0)).sum := by
    unfold wgQden
    refine qsum_congr _ _ _ (fun x hx => ?_)
    cases hg : x.data.has_grade <;> simp [hec x hx, hg]
  have hS0eq : wgQnum ((c :: cs).map (fun y => y.data.adata)) (some (Fraction.ofInt 0))
      (c :: cs) = ((c :: cs).map
        (fun x => pwQ ((c :: cs).map (fun y => y.data.adata)) x.data.adata *
          wgQ x (some (Fraction.ofInt 0)))).sum := by
    rw [wgQnum_eq_sum]
    exact qsum_congr _ _ _ (fun x hx => by simp)
  have hS1eq : wgQnum ((c :: cs).map (fun y => y.data.adata)) (some (Fraction.ofInt 1))
      (c :: cs) = ((c :: cs).map
        (fun x => pwQ ((c :: cs).map (fun y => y.data.adata)) x.data.adata *
          wgQ x (some (Fraction.ofInt 1)))).sum := by
    rw [wgQnum_eq_sum]
    exact qsum_congr _ _ _ (fun x hx => by simp)
  have hSpeq : wgQnum ((c :: cs).map (fun y => y.data.adata)) none (c :: cs) =
      ((c :: cs).map (fun x => if x.data.has_grade
        then pwQ ((c :: cs).map (fun y => y.data.adata)) x.data.adata * wgQ x none
        else 0)).sum := by
    rw [wgQnum_eq_sum]
    refine qsum_congr _ _ _ (fun x hx => ?_)
    cases hg : x.data.has_grade <;> simp [hg]
  have hWpos : 0 < ((c :: cs).map
      (fun x => pwQ ((c :: cs).map (fun y => y.data.adata)) x.data.adata)).sum :=
    qsum_pos c cs _ hpw
  have hWne : wgQden ((c :: cs).map (fun y => y.data.adata)) (some (Fraction.ofInt 0))
      (c :: cs) ≠ 0 := by rw [hWeq]; exact ne_of_gt hWpos
  have hW1ne : wgQden ((c :: cs).map (fun y => y.data.adata)) (some (Fraction.ofInt 1))
      (c :: cs) ≠ 0 := by rw [hW1eq]; exact ne_of_gt hWpos
  have hS0nn : 0 ≤ ((c :: cs).map
      (fun x => pwQ ((c :: cs).map (fun y => y.data.adata)) x.data.adata *
        wgQ x (some (Fraction.ofInt 0)))).sum :=
    qsum_nonneg _ _ (fun x hx => mul_nonneg (le_of_lt (hpw x hx)) (hch x hx).1.1)
  have hxd1nn : ∀ x ∈ c :: cs, 0 ≤ wgQ x (some (Fraction.ofInt 1)) := by
    intro x hx
    have h := (hch x hx).1
    linarith [h.1, h.2.1, h.2.2.1]
  have hxprnn : ∀ x ∈ c :: cs, 0 ≤ wgQ x none := by
    intro x hx
    have h := (hch x hx).1
    linarith [h.1, h.2.1]
  have hxpr1 : ∀ x ∈ c :: cs, wgQ x none ≤ 1 := by
    intro x hx
    have h := (hch x hx).1
    linarith [h.2.2.1, h.2.2.2]
  have hS1nn : 0 ≤ ((c :: cs).map
      (fun x => pwQ ((c :: cs).map (fun y => y.data.adata)) x.data.adata *
        wgQ x (some (Fraction.ofInt 1)))).sum :=
    qsum_nonneg _ _ (fun x hx => mul_nonneg (le_of_lt (hpw x hx)) (hxd1nn x hx))
  have hSpnn : 0 ≤ ((c :: cs).map (fun x => if x.data.has_grade
      then pwQ ((c :: cs).map (fun y => y.data.adata)) x.data.adata * wgQ x none
      else 0)).sum := by
    refine qsum_nonneg _ _ (fun x hx => ?_)
    cases hg : x.data.has_grade with
    | true => simpa using mul_nonneg (le_of_lt (hpw x hx)) (hxprnn x hx)
    | false => simp
  have hWpnn : 0 ≤ ((c :: cs).map (fun x => if x.data.has_grade
      then pwQ ((c :: cs).map (fun y => y.data.adata)) x.data.adata else 0)).sum := by
    refine qsum_nonneg _ _ (fun x hx => ?_)
    cases hg : x.data.has_grade with
    | true => simpa using le_of_lt (hpw x hx)
    | false => simp
  have hWple : ((c :: cs).map (fun x => if x.data.has_grade
      then pwQ ((c :: cs).map (fun y => y.data.adata)) x.data.adata else 0)).sum ≤
      ((c :: cs).map
        (fun x => pwQ ((c :: cs).map (fun y => y.data.adata)) x.data.adata)).sum := by
    refine qsum_le _ _ _ (fun x hx => ?_)
    cases hg : x.data.has_grade with
    | true => simp
    | false => simpa using le_of_lt (hpw x hx)
  unfold ChainInv
  simp only [wgQ_cons_eq, data_node]
  rw [hWeq, hW1eq, hS0eq, hS1eq, hSpeq, hWpeq]
  rw [if_neg (ne_of_gt hWpos), if_neg (ne_of_gt hWpos)]
  constructor
  · refine ⟨div_nonneg hS0nn (le_of_lt hWpos), ?_, ?_, ?_⟩
    · -- min ≤ partial
      by_cases hWp : ((c :: cs).map (fun x => if x.data.has_grade
          then pwQ ((c :: cs).map (fun y => y.data.adata)) x.data.adata else 0)).sum = 0
      · rw [if_pos hWp]
        have hall : ∀ x ∈ c :: cs, x.data.has_grade = false := by
          intro x hx
          have := qsum_eq_zero _ _ (fun y hy => by
            cases hg : y.data.has_grade with
            | true => simpa using le_of_lt (hpw y hy)
            | false => simp) hWp x hx
          cases hg : x.data.has_grade with
          | false => rfl
          | true =>
            rw [hg] at this
            simp only [if_pos rfl] at this
            exact absurd this (ne_of_gt (hpw x hx))
        have hS0z : ((c :: cs).map
            (fun x => pwQ ((c :: cs).map (fun y => y.data.adata)) x.data.adata *
              wgQ x (some (Fraction.ofInt 0)))).sum = 0 := by
          rw [qsum_congr _ _ (fun _ => (0 : ℚ)) (fun x hx => by
            rw [((hch x hx).2 (hall x hx)).1, mul_zero]), qsum_zero]
        rw [hS0z, zero_div]
      · rw [if_neg hWp]
        have hWppos : 0 < ((c :: cs).map (fun x => if x.data.has_grade
            then pwQ ((c :: cs).map (fun y => y.data.adata)) x.data.adata else 0)).sum :=
          lt_of_le_of_ne hWpnn (Ne.symm hWp)
        have hle1 : ((c :: cs).map
            (fun x => pwQ ((c :: cs).map (fun y => y.data.adata)) x.data.adata *
              wgQ x (some (Fraction.ofInt 0)))).sum ≤
            ((c :: cs).map (fun x => if x.data.has_grade
              then pwQ ((c :: cs).map (fun y => y.data.adata)) x.data.adata * wgQ x none
              else 0)).sum := by
          refine qsum_le _ _ _ (fun x hx => ?_)
          cases hg : x.data.has_grade with
          | true =>
            simp only [if_pos rfl]
            exact mul_le_mul_of_nonneg_left (hch x hx).1.2.1 (le_of_lt (hpw x hx))
          | false =>
            rw [((hch x hx).2 hg).1, mul_zero]
            simp
        rw [div_le_div_iff₀ hWpos hWppos]
        calc ((c :: cs).map
              (fun x => pwQ ((c :: cs).map (fun y => y.data.adata)) x.data.adata *
                wgQ x (some (Fraction.ofInt 0)))).sum *
              ((c :: cs).map (fun x => if x.data.has_grade
                then pwQ ((c :: cs).map (fun y => y.data.adata)) x.data.adata else 0)).sum
            ≤ ((c :: cs).map (fun x => if x.data.has_grade
                then pwQ ((c :: cs).map (fun y => y.data.adata)) x.data.adata * wgQ x none
                else 0)).sum *
              ((c :: cs).map (fun x => if x.data.has_grade
                then pwQ ((c :: cs).map (fun y => y.data.adata)) x.data.adata else 0)).sum :=
              mul_le_mul_of_nonneg_right hle1 hWpnn
          _ ≤ ((c :: cs).map (fun x => if x.data.has_grade
                then pwQ ((c :: cs).map (fun y => y.data.adata)) x.data.adata * wgQ x none
                else 0)).sum *
              ((c :: cs).map
                (fun x => pwQ ((c :: cs).map (fun y => y.data.adata)) x.data.adata)).sum :=
              mul_le_mul_of_nonneg_left hWple hSpnn
    · -- partial ≤ max
      by_cases hWp : ((c :: cs).map (fun x => if x.data.has_grade
          then pwQ ((c :: cs).map (fun y => y.data.adata)) x.data.adata else 0)).sum = 0
      · rw [if_pos hWp]
        exact div_nonneg hS1nn (le_of_lt hWpos)
      · rw [if_neg hWp]
        have hWppos : 0 < ((c :: cs).map (fun x => if x.data.has_grade
            then pwQ ((c :: cs).map (fun y => y.data.adata)) x.data.adata else 0)).sum :=
          lt_of_le_of_ne hWpnn (Ne.symm hWp)
        have hS1id : ((c :: cs).map
            (fun x => pwQ ((c :: cs).map (fun y => y.data.adata)) x.data.adata *
              wgQ x (some (Fraction.ofInt 1)))).sum =
            ((c :: cs).map (fun x => if x.data.has_grade
              then pwQ ((c :: cs).map (fun y => y.data.adata)) x.data.adata *
                wgQ x (some (Fraction.ofInt 1)) else 0)).sum +
            (((c :: cs).map
              (fun x => pwQ ((c :: cs).map (fun y => y.data.adata)) x.data.adata)).sum -
             ((c :: cs).map (fun x => if x.data.has_grade
              then pwQ ((c :: cs).map (fun y => y.data.adata)) x.data.adata else 0)).sum) := by
          rw [← qsum_sub, ← qsum_add]
          refine qsum_congr _ _ _ (fun x hx => ?_)
          cases hg : x.data.has_grade with
          | true => simp
          | false =>
            rw [((hch x hx).2 hg).2.2]
            simp
        have hb1 : ((c :: cs).map (fun x => if x.data.has_grade
            then pwQ ((c :: cs).map (fun y => y.data.adata)) x.data.adata * wgQ x none
            else 0)).sum ≤
            ((c :: cs).map (fun x => if x.data.has_grade
              then pwQ ((c :: cs).map (fun y => y.data.adata)) x.data.adata *
                wgQ x (some (Fraction.ofInt 1)) else 0)).sum := by
          refine qsum_le _ _ _ (fun x hx => ?_)
          cases hg : x.data.has_grade with
          | true =>
            simp only [if_pos rfl]
            exact mul_le_mul_of_nonneg_left (hch x hx).1.2.2.1 (le_of_lt (hpw x hx))
          | false => simp
        have hb2 : ((c :: cs).map (fun x => if x.data.has_grade
            then pwQ ((c :: cs).map (fun y => y.data.adata)) x.data.adata * wgQ x none
            else 0)).sum ≤
            ((c :: cs).map (fun x => if x.data.has_grade
              then pwQ ((c :: cs).map (fun y => y.data.adata)) x.data.adata else 0)).sum := by
          refine qsum_le _ _ _ (fun x hx => ?_)
          cases hg : x.data.has_grade with
          | true =>
            simp only [if_pos rfl]
            have := mul_le_mul_of_nonneg_left (hxpr1 x hx) (le_of_lt (hpw x hx))
            simpa using this
          | false => simp
        rw [div_le_div_iff₀ hWppos hWpos, hS1id]
        nlinarith [mul_nonneg (sub_nonneg.mpr hb1) (le_of_lt hWppos),
          mul_nonneg (sub_nonneg.mpr hb2) (sub_nonneg.mpr hWple)]
    · -- max ≤ 1
      rw [div_le_one hWpos]
      refine qsum_le _ _ _ (fun x hx => ?_)
      have := mul_le_mul_of_nonneg_left (hch x hx).1.2.2.2 (le_of_lt (hpw x hx))
      simpa using this
  · -- fully ungraded
    intro hfalse
    rw [hfalse] at hhg
    have hall : ∀ x ∈ c :: cs, x.data.has_grade = false := by
      intro x hx
      have h2 := List.any_eq_false.mp hhg.symm x hx
      cases hg : x.data.has_grade with
      | false => rfl
      | true => exact absurd hg h2
    have hS0z : ((c :: cs).map
        (fun x => pwQ ((c :: cs).map (fun y => y.data.adata)) x.data.adata *
          wgQ x (some (Fraction.ofInt 0)))).sum = 0 := by
      rw [qsum_congr _ _ (fun _ => (0 : ℚ)) (fun x hx => by
        rw [((hch x hx).2 (hall x hx)).1, mul_zero]), qsum_zero]
    have hWpz : ((c :: cs).map (fun x => if x.data.has_grade
        then pwQ ((c :: cs).map (fun y => y.data.adata)) x.data.adata else 0)).sum = 0 := by
      rw [qsum_congr _ _ (fun _ => (0 : ℚ)) (fun x hx => by rw [hall x hx]; simp), qsum_zero]
    have hS1W : ((c :: cs).map
        (fun x => pwQ ((c :: cs).map (fun y => y.data.adata)) x.data.adata *
          wgQ x (some (Fraction.ofInt 1)))).sum =
        ((c :: cs).map
          (fun x => pwQ ((c :: cs).map (fun y => y.data.adata)) x.data.adata)).sum := by
      refine qsum_congr _ _ _ (fun x hx => ?_)
      rw [((hch x hx).2 (hall x hx)).2.2, mul_one]
    refine ⟨by rw [hS0z, zero_div], by rw [if_pos hWpz], ?_⟩
    rw [hS1W, div_self (ne_of_gt hWpos)]

theorem c8chain_szd : ∀ (n : ℕ) (t : NamedNode GData), sizeOf t ≤ n → goodT t = true →
    ChainInv t := by
  intro n
  induction n with
  | zero =>
    intro t ht
    exfalso
    cases t with
    | node nm d cs => simp [NamedNode.node.sizeOf_spec] at ht
  | succ n ih =>
    intro t ht hg
    cases t with
    | node nm d cs =>
      cases cs with
      | nil => exact c8leaf hg
      | cons c cs' =>
        rw [goodT_cons_eq, Bool.and_eq_true, Bool.and_eq_true, Bool.and_eq_true] at hg
        have hsz : ∀ x ∈ c :: cs', sizeOf x ≤ n := by
          intro x hx
          have h1 : sizeOf x < sizeOf (c :: cs') := List.sizeOf_lt_of_mem hx
          have h2 : sizeOf (NamedNode.node nm d (c :: cs')) = 1 + sizeOf nm + sizeOf d
              + sizeOf (c :: cs') := by simp [NamedNode.node.sizeOf_spec]
          omega
        have hmem := goodL_mem hg.2
        refine c8node (fun x hx => ih x (hsz x hx) (hmem x hx)) ?_ ?_ ?_
        · intro x hx
          have := List.all_eq_true.mp hg.1.1.2 x hx
          simpa using this
        · intro x hx
          exact pwPosOk_pos (List.all_eq_true.mp hg.1.2 x hx)
        · exact beq_iff_eq.mp hg.1.1.1

mutual
/-- Every node of the subtree carries `has_grade = true`. -/
def allG : NamedNode GData → Bool
  | .node _ d cs => d.has_grade && allGL cs
def allGL : List (NamedNode GData) → Bool
  | [] => true
  | c :: rest => allG c && allGL rest
end

mutual
/-- Every leaf of the subtree carries `has_grade = true`. -/
def lvsG : NamedNode GData → Bool
  | .node _ d [] => d.has_grade
  | .node _ _ (c :: cs) => lvsGL (c :: cs)
def lvsGL : List (NamedNode GData) → Bool
  | [] => true
  | c :: rest => lvsG c && lvsGL rest
end

theorem allG_node_eq (nm : Str) (d : GData) (cs : List (NamedNode GData)) :
    allG (NamedNode.node nm d cs) = (d.has_grade && allGL cs) := rfl

theorem allGL_nil_eq : allGL [] = true := rfl

theorem allGL_cons_eq (c : NamedNode GData) (rest : List (NamedNode GData)) :
    allGL (c :: rest) = (allG c && allGL rest) := rfl

theorem lvsG_leaf_eq (nm : Str) (d : GData) :
    lvsG (NamedNode.node nm d []) = d.has_grade := rfl

theorem lvsG_cons_eq (nm : Str) (d : GData) (c : NamedNode GData)
    (cs : List (NamedNode GData)) :
    lvsG (NamedNode.node nm d (c :: cs)) = lvsGL (c :: cs) := rfl

theorem lvsGL_cons_eq (c : NamedNode GData) (rest : List (NamedNode GData)) :
    lvsGL (c :: rest) = (lvsG c && lvsGL rest) := rfl

theorem allG_has {t : NamedNode GData} (h : allG t = true) : t.data.has_grade = true := by
  cases t with
  | node nm d cs =>
    rw [allG_node_eq, Bool.and_eq_true] at h
    exact h.1

theorem allGL_mem {l : List (NamedNode GData)} (h : allGL l = true) :
    ∀ x ∈ l, allG x = true := by
  induction l with
  | nil => intro x hx; cases hx
  | cons c rest ih =>
    rw [allGL_cons_eq, Bool.and_eq_true] at h
    intro x hx
    cases hx with
    | head => exact h.1
    | tail _ hx' => exact ih h.2 x hx'

theorem allGL_of_mem {l : List (NamedNode GData)} (h : ∀ x ∈ l, allG x = true) :
    allGL l = true := by
  induction l with
  | nil => rfl
  | cons c rest ih =>
    rw [allGL_cons_eq, Bool.and_eq_true]
    exact ⟨h c (List.mem_cons_self c rest), ih (fun x hx => h x (List.mem_cons_of_mem c hx))⟩

theorem lvsGL_mem {l : List (NamedNode GData)} (h : lvsGL l = true) :
    ∀ x ∈ l, lvsG x = true := by
  induction l with
  | nil => intro x hx; cases hx
  | cons c rest ih =>
    rw [lvsGL_cons_eq, Bool.and_eq_true] at h
    intro x hx
    cases hx with
    | head => exact h.1
    | tail _ hx' => exact ih h.2 x hx'

theorem lvsG_allG : ∀ (n : ℕ) (t : NamedNode GData), sizeOf t ≤ n → goodT t = true →
    lvsG t = true → allG t = true := by
  intro n
  induction n with
  | zero =>
    intro t ht
    exfalso
    cases t with
    | node nm d cs => simp [NamedNode.node.sizeOf_spec] at ht
  | succ n ih =>
    intro t ht hg hlv
    cases t with
    | node nm d cs =>
      cases cs with
      | nil =>
        rw [lvsG_leaf_eq] at hlv
        rw [allG_node_eq, hlv, allGL_nil_eq]
        rfl
      | cons c cs' =>
        rw [goodT_cons_eq, Bool.and_eq_true, Bool.and_eq_true, Bool.and_eq_true] at hg
        rw [lvsG_cons_eq] at hlv
        have hsz : ∀ x ∈ c :: cs', sizeOf x ≤ n := by
          intro x hx
          have h1 : sizeOf x < sizeOf (c :: cs') := List.sizeOf_lt_of_mem hx
          have h2 : sizeOf (NamedNode.node nm d (c :: cs')) = 1 + sizeOf nm + sizeOf d
              + sizeOf (c :: cs') := by simp [NamedNode.node.sizeOf_spec]
          omega
        have hgood := goodL_mem hg.2
        have hlvm := lvsGL_mem hlv
        have hallg : ∀ x ∈ c :: cs', allG x = true :=
          fun x hx => ih x (hsz x hx) (hgood x hx) (hlvm x hx)
        have hchas : c.data.has_grade = true :=
          allG_has (hallg c (List.mem_cons_self c cs'))
        have hany : (c :: cs').any (fun x => x.data.has_grade) = true :=
          List.any_eq_true.mpr ⟨c, List.mem_cons_self c cs', hchas⟩
        rw [allG_node_eq, beq_iff_eq.mp hg.1.1.1, hany, allGL_of_mem hallg]
        rfl

theorem wgFold_dflt_irrel (sibs : List AData) (d1 d2 : Option Fraction) :
    ∀ (l : List (NamedNode GData)) (tg tw : Fraction),
      (∀ x ∈ l, allG x = true ∧ wg x d1 = wg x d2) →
      wgFold sibs d1 l tg tw = wgFold sibs d2 l tg tw := by
  intro l
  induction l with
  | nil => intro tg tw h; rfl
  | cons c rest ih =>
    intro tg tw h
    have hc := h c (List.mem_cons_self c rest)
    have hhas : c.data.has_grade = true := allG_has hc.1
    rw [wgFold_cons_eq, wgFold_cons_eq]
    have hcond1 : (d1.isNone && !c.data.has_grade) ≠ true := by rw [hhas]; simp
    have hcond2 : (d2.isNone && !c.data.has_grade) ≠ true := by rw [hhas]; simp
    rw [if_neg hcond1, if_neg hcond2, hc.2]
    cases percent_weight false sibs c.data.adata with
    | err e => rfl
    | ok w =>
      cases wg c d2 with
      | err e => rfl
      | ok g => exact ih _ _ (fun x hx => h x (List.mem_cons_of_mem c hx))

theorem wg_dflt_irrel : ∀ (n : ℕ) (t : NamedNode GData), sizeOf t ≤ n → allG t = true →
    ∀ (d1 d2 : Option Fraction), wg t d1 = wg t d2 := by
  intro n
  induction n with
  | zero =>
    intro t ht
    exfalso
    cases t with
    | node nm d cs => simp [NamedNode.node.sizeOf_spec] at ht
  | succ n ih =>
    intro t ht hall d1 d2
    cases t with
    | node nm d cs =>
      cases cs with
      | nil =>
        rw [wg_leaf_eq, wg_leaf_eq]
        unfold wgLeaf
        have hhas : d.has_grade = true := allG_has hall
        rw [hhas]
        rw [if_pos rfl, if_pos rfl]
      | cons c cs' =>
        rw [allG_node_eq, Bool.and_eq_true] at hall
        have hsz : ∀ x ∈ c :: cs', sizeOf x ≤ n := by
          intro x hx
          have h1 : sizeOf x < sizeOf (c :: cs') := List.sizeOf_lt_of_mem hx
          have h2 : sizeOf (NamedNode.node nm d (c :: cs')) = 1 + sizeOf nm + sizeOf d
              + sizeOf (c :: cs') := by simp [NamedNode.node.sizeOf_spec]
          omega
        have hmem := allGL_mem hall.2
        rw [wg_cons_eq, wg_cons_eq,
          wgFold_dflt_irrel _ d1 d2 (c :: cs') (Fraction.ofInt 0) (Fraction.ofInt 0)
            (fun x hx => ⟨hmem x hx, ih x (hsz x hx) (hmem x hx) d1 d2⟩)]

/-! ## Claim C8 — ordering of the three aggregates -/

def c8bad1 : NamedNode GData :=
  .node "a".toList ⟨⟨"1".toList, false, ⟨1, 1, by decide⟩, .points⟩, "150%".toList,
    some ⟨150, 100, by decide⟩, true, Memo.empty⟩ []

def c8bad2 : NamedNode GData :=
  .node "b".toList ⟨⟨"1".toList, false, ⟨1, 1, by decide⟩, .points⟩, "None".toList,
    none, false, Memo.empty⟩ []

def c8badRoot : NamedNode GData :=
  .node "r".toList ⟨⟨"100%".toList, false, ⟨1, 1, by decide⟩, .percent⟩, "None".toList,
    none, true, Memo.empty⟩ [c8bad1, c8bad2]

/-- C8, counterexample: the claimed ordering `partial ≤ maximum` fails as
soon as a stored grade exceeds 100%, which nothing in the code prevents.
Two equally weighted point-siblings, one graded `150%`, one ungraded, give
`partial_grade = 3/2` but `maximum_grade = 5/4`. -/
theorem c8_counterexample :
    c8bad2.data.has_grade = false ∧
    mid_grade c8badRoot = .ok ⟨300, 200, by decide⟩ ∧
    maximum_grade c8badRoot = .ok ⟨2000, 1600, by decide⟩ ∧
    ¬ (Fraction.toQ ⟨300, 200, by decide⟩ ≤ Fraction.toQ ⟨2000, 1600, by decide⟩) := by
  refine ⟨rfl, by decide, by decide, fun hle => ?_⟩
  exact absurd ((Fraction.ble_iff _ _).mpr hle) (by decide)

/-- C8 (amended): on a well-formed tree — every leaf grade within `[0, 1]`,
no extra-credit children, strictly positive percent weights, and coherent
`has_grade` flags (`goodT`) — the three aggregates succeed and satisfy
`0 ≤ minimum ≤ partial ≤ maximum ≤ 1`; and whenever additionally every
leaf is graded, the three aggregates are equal (the default grade is never
consulted). -/
theorem c8_amended :
    (∀ t : NamedNode GData, goodT t = true →
      ∃ a b c, minimum_grade t = .ok a ∧ mid_grade t = .ok b ∧ maximum_grade t = .ok c ∧
        0 ≤ a.toQ ∧ a.toQ ≤ b.toQ ∧ b.toQ ≤ c.toQ ∧ c.toQ ≤ 1) ∧
    (∀ t : NamedNode GData, goodT t = true → lvsG t = true →
      minimum_grade t = mid_grade t ∧ mid_grade t = maximum_grade t) := by
  constructor
  · intro t hg
    have hwf : wfT t = true := goodT_wfT (sizeOf t) t (le_refl _) hg
    have hch := c8chain_szd (sizeOf t) t (le_refl _) hg
    obtain ⟨a, ha, haq⟩ := wg_toQ t (some (Fraction.ofInt 0)) hwf
    obtain ⟨b, hb, hbq⟩ := wg_toQ t none hwf
    obtain ⟨c, hc, hcq⟩ := wg_toQ t (some (Fraction.ofInt 1)) hwf
    refine ⟨a, b, c, ha, hb, hc, ?_, ?_, ?_, ?_⟩
    · rw [haq]; exact hch.1.1
    · rw [haq, hbq]; exact hch.1.2.1
    · rw [hbq, hcq]; exact hch.1.2.2.1
    · rw [hcq]; exact hch.1.2.2.2
  · intro t hg hlv
    have hall : allG t = true := lvsG_allG (sizeOf t) t (le_refl _) hg hlv
    exact ⟨wg_dflt_irrel (sizeOf t) t (le_refl _) hall _ _,
      wg_dflt_irrel (sizeOf t) t (le_refl _) hall _ _⟩

def c8ex1 : NamedNode GData :=
  .node "a".toList ⟨⟨"40%".toList, false, ⟨40, 100, by decide⟩, .percent⟩, "100%".toList,
    some ⟨100, 100, by decide⟩, true, Memo.empty⟩ []

def c8ex2 : NamedNode GData :=
  .node "b".toList ⟨⟨"60%".toList, false, ⟨60, 100, by decide⟩, .percent⟩, "50%".toList,
    some ⟨50, 100, by decide⟩, true, Memo.empty⟩ []

def c8root : NamedNode GData :=
  .node "r".toList ⟨⟨"100%".toList, false, ⟨1, 1, by decide⟩, .percent⟩, "None".toList,
    none, true, Memo.empty⟩ [c8ex1, c8ex2]

theorem c8_amended_witness :
    (goodT c8root = true ∧ lvsG c8root = true) ∧
    (∃ a b c, minimum_grade c8root = .ok a ∧ mid_grade c8root = .ok b ∧
      maximum_grade c8root = .ok c ∧
      0 ≤ a.toQ ∧ a.toQ ≤ b.toQ ∧ b.toQ ≤ c.toQ ∧ c.toQ ≤ 1) ∧
    (minimum_grade c8root = mid_grade c8root ∧ mid_grade c8root = maximum_grade c8root) :=
  ⟨⟨by decide, by decide⟩, c8_amended.1 c8root (by decide),
    c8_amended.2 c8root (by decide) (by decide)⟩

/-! ## Claim C10 — sibling moves -/

theorem Fraction.add_num (a b : Fraction) : (a + b).num = a.num * b.den + b.num * a.den := rfl

theorem Fraction.add_den (a b : Fraction) : (a + b).den = a.den * b.den := rfl

theorem Fraction.add_swap (s a b : Fraction) : s + a + b = s + b + a := by
  refine Fraction.ext ?_ ?_
  · simp only [Fraction.add_num, Fraction.add_den]
    ring
  · simp only [Fraction.add_den]
    ring

theorem sibWeightSum_swap (l1 l2 : List AData) (x y : AData) :
    sibWeightSum (l1 ++ x :: y :: l2) = sibWeightSum (l1 ++ y :: x :: l2) := by
  unfold sibWeightSum
  rw [List.foldl_append, List.foldl_append]
  simp only [List.foldl_cons]
  rw [Fraction.add_swap]

theorem pw_sibs_congr {s1 s2 : List AData} (h : sibWeightSum s1 = sibWeightSum s2)
    (r : Bool) (a : AData) : percent_weight r s1 a = percent_weight r s2 a := by
  unfold percent_weight
  rw [h]

theorem wgFold_sibs_congr {s1 s2 : List AData} (h : sibWeightSum s1 = sibWeightSum s2)
    (dflt : Option Fraction) :
    ∀ (l : List (NamedNode GData)) (tg tw : Fraction),
      wgFold s1 dflt l tg tw = wgFold s2 dflt l tg tw := by
  intro l
  induction l with
  | nil => intro tg tw; rfl
  | cons c rest ih =>
    intro tg tw
    rw [wgFold_cons_eq, wgFold_cons_eq, pw_sibs_congr h false c.data.adata]
    by_cases hskip : (dflt.isNone && !c.data.has_grade) = true
    · rw [if_pos hskip, if_pos hskip, ih]
    · rw [if_neg hskip, if_neg hskip]
      cases percent_weight false s2 c.data.adata with
      | err e => rfl
      | ok w =>
        cases wg c dflt with
        | err e => rfl
        | ok g => exact ih _ _

theorem wfL_mem : ∀ {l : List (NamedNode GData)}, wfL l = true → ∀ x ∈ l, wfT x = true := by
  intro l
  induction l with
  | nil => intro _ x hx; cases hx
  | cons c rest ih =>
    intro h x hx
    rw [wfL_cons_eq, Bool.and_eq_true] at h
    cases hx with
    | head => exact h.1
    | tail _ hx' => exact ih h.2 x hx'

theorem wg_node_eq_of_ne (nm : Str) (d : GData) (dflt : Option Fraction) :
    ∀ (l : List (NamedNode GData)), l ≠ [] →
    wg (NamedNode.node nm d l) dflt =
      match wgFold (l.map (fun x => x.data.adata)) dflt l (Fraction.ofInt 0)
          (Fraction.ofInt 0) with
      | .err e => .err e
      | .ok (tg, tw) =>
        .ok (if tw.beq (Fraction.ofInt 0) then Fraction.ofInt 0 else tg.div tw)
  | [], h => absurd rfl h
  | c :: cs, _ => rfl

theorem wfT_node_eq_of_ne (nm : Str) (d : GData) :
    ∀ (l : List (NamedNode GData)), l ≠ [] →
    wfT (NamedNode.node nm d l) =
      ((l.all (fun x =>
        (percent_weight false (l.map (fun y => y.data.adata)) x.data.adata).isOk))
        && wfL l)
  | [], h => absurd rfl h
  | c :: cs, _ => rfl

/-- `NamedNode.index_of` followed by child access (src/overunder.py:97-103):
the first child with the given name. -/
def findChild : List (NamedNode α) → Str → Option (NamedNode α)
  | [], _ => none
  | c :: rest, n => if c.name = n then some c else findChild rest n

/-- Replace the first child with the given name (the in-place recursion of
the mutating tree walks). -/
def setChild : List (NamedNode α) → Str → NamedNode α → List (NamedNode α)
  | [], _, _ => []
  | c :: rest, n, c' => if c.name = n then c' :: rest else c :: setChild rest n c'

/-- `NamedNode.move_node_up` on a child list (src/overunder.py:150-161): find
the first child with the given name (`index_of`, `KeyError` when absent) and
swap it with its elder neighbour when it has one. -/
def swapUpNamed : List (NamedNode α) → Str → Option (List (NamedNode α))
  | [], _ => none
  | [x], n => if x.name = n then some [x] else none
  | x :: y :: rest, n =>
    if x.name = n then some (x :: y :: rest)
    else if y.name = n then some (y :: x :: rest)
    else (swapUpNamed (y :: rest) n).map (fun l => x :: l)

/-- `NamedNode.move_node_down` on a child list (src/overunder.py:163-174). -/
def swapDownNamed : List (NamedNode α) → Str → Option (List (NamedNode α))
  | [], _ => none
  | [x], n => if x.name = n then some [x] else none
  | x :: y :: rest, n =>
    if x.name = n then some (y :: x :: rest)
    else (swapDownNamed (y :: rest) n).map (fun l => x :: l)

/-- The shared walk of `move_node_up`/`move_node_down`: resolve the path as
`_get` does (first matching child at each level), then apply the swap at the
parent of the target. -/
def moveAuxWith (swapper : List (NamedNode α) → Str → Option (List (NamedNode α))) :
    NamedNode α → List Str → Option (NamedNode α)
  | .node nm d cs, [last] => (swapper cs last).map (fun cs' => .node nm d cs')
  | .node nm d cs, n :: m :: rest =>
    match findChild cs n with
    | none => none
    | some c =>
      match moveAuxWith swapper c (m :: rest) with
      | none => none
      | some c' => some (.node nm d (setChild cs n c'))
  | _, [] => none

/-- `NamedNode.move_node_up` (src/overunder.py:150-161): the qualified name
must start with the root's name and have at least two components. -/
def move_node_up (t : NamedNode α) (qn : List Str) : Option (NamedNode α) :=
  match qn with
  | n0 :: n1 :: rest => if n0 = t.name then moveAuxWith swapUpNamed t (n1 :: rest) else none
  | _ => none

/-- `NamedNode.move_node_down` (src/overunder.py:163-174). -/
def move_node_down (t : NamedNode α) (qn : List Str) : Option (NamedNode α) :=
  match qn with
  | n0 :: n1 :: rest => if n0 = t.name then moveAuxWith swapDownNamed t (n1 :: rest) else none
  | _ => none

theorem swapUpNamed_cases : ∀ (cs : List (NamedNode α)) (n : Str)
    (cs' : List (NamedNode α)), swapUpNamed cs n = some cs' →
    cs' = cs ∨ ∃ l1 x y l2, cs = l1 ++ x :: y :: l2 ∧ cs' = l1 ++ y :: x :: l2 := by
  intro cs
  induction cs with
  | nil => intro n cs' h; cases h
  | cons x rest ih =>
    intro n cs' h
    cases rest with
    | nil =>
      unfold swapUpNamed at h
      by_cases hn : x.name = n
      · rw [if_pos hn] at h
        cases h
        exact Or.inl rfl
      · rw [if_neg hn] at h
        cases h
    | cons y rest' =>
      unfold swapUpNamed at h
      by_cases hx : x.name = n
      · rw [if_pos hx] at h
        cases h
        exact Or.inl rfl
      · rw [if_neg hx] at h
        by_cases hy : y.name = n
        · rw [if_pos hy] at h
          cases h
          exact Or.inr ⟨[], x, y, rest', rfl, rfl⟩
        · rw [if_neg hy] at h
          cases hs : swapUpNamed (y :: rest') n with
          | none => rw [hs] at h; cases h
          | some m =>
            rw [hs] at h
            cases h
            cases ih n m hs with
            | inl he => exact Or.inl (by rw [he])
            | inr hd =>
              obtain ⟨l1, a, b, l2, h1, h2⟩ := hd
              exact Or.inr ⟨x :: l1, a, b, l2, by rw [h1]; rfl, by rw [h2]; rfl⟩

theorem swapDownNamed_cases : ∀ (cs : List (NamedNode α)) (n : Str)
    (cs' : List (NamedNode α)), swapDownNamed cs n = some cs' →
    cs' = cs ∨ ∃ l1 x y l2, cs = l1 ++ x :: y :: l2 ∧ cs' = l1 ++ y :: x :: l2 := by
  intro cs
  induction cs with
  | nil => intro n cs' h; cases h
  | cons x rest ih =>
    intro n cs' h
    cases rest with
    | nil =>
      unfold swapDownNamed at h
      by_cases hn : x.name = n
      · rw [if_pos hn] at h
        cases h
        exact Or.inl rfl
      · rw [if_neg hn] at h
        cases h
    | cons y rest' =>
      unfold swapDownNamed at h
      by_cases hx : x.name = n
      · rw [if_pos hx] at h
        cases h
        exact Or.inr ⟨[], x, y, rest', rfl, rfl⟩
      · rw [if_neg hx] at h
        cases hs : swapDownNamed (y :: rest') n with
        | none => rw [hs] at h; cases h
        | some m =>
          rw [hs] at h
          cases h
          cases ih n m hs with
          | inl he => exact Or.inl (by rw [he])
          | inr hd =>
            obtain ⟨l1, a, b, l2, h1, h2⟩ := hd
            exact Or.inr ⟨x :: l1, a, b, l2, by rw [h1]; rfl, by rw [h2]; rfl⟩

theorem findChild_mem : ∀ {cs : List (NamedNode α)} {n : Str} {c : NamedNode α},
    findChild cs n = some c → c ∈ cs := by
  intro cs
  induction cs with
  | nil => intro n c h; cases h
  | cons z rest ih =>
    intro n c h
    unfold findChild at h
    by_cases hz : z.name = n
    · rw [if_pos hz] at h
      cases h
      exact List.mem_cons_self z rest
    · rw [if_neg hz] at h
      exact List.mem_cons_of_mem z (ih h)

theorem setChild_mem : ∀ {cs : List (NamedNode α)} {n : Str} {c' z : NamedNode α},
    z ∈ setChild cs n c' → z ∈ cs ∨ z = c' := by
  intro cs
  induction cs with
  | nil => intro n c' z h; cases h
  | cons w rest ih =>
    intro n c' z h
    unfold setChild at h
    by_cases hw : w.name = n
    · rw [if_pos hw] at h
      cases h with
      | head => exact Or.inr rfl
      | tail _ h' => exact Or.inl (List.mem_cons_of_mem w h')
    · rw [if_neg hw] at h
      cases h with
      | head => exact Or.inl (List.mem_cons_self w rest)
      | tail _ h' =>
        cases ih h' with
        | inl hm => exact Or.inl (List.mem_cons_of_mem w hm)
        | inr he => exact Or.inr he

theorem setChild_map_adata : ∀ (cs : List (NamedNode GData)) (n : Str)
    {c c' : NamedNode GData}, findChild cs n = some c → c'.data = c.data →
    (setChild cs n c').map (fun x => x.data.adata) = cs.map (fun x => x.data.adata) := by
  intro cs
  induction cs with
  | nil => intro n c c' h _; cases h
  | cons w rest ih =>
    intro n c c' h hd
    unfold findChild at h
    unfold setChild
    by_cases hw : w.name = n
    · rw [if_pos hw] at h
      cases h
      rw [if_pos hw]
      simp only [List.map_cons, hd]
    · rw [if_neg hw] at h
      rw [if_neg hw]
      simp only [List.map_cons, ih n h hd]

theorem setChild_wgFold : ∀ (cs : List (NamedNode GData)) (sibs : List AData)
    (dflt : Option Fraction) (n : Str) {c c' : NamedNode GData},
    findChild cs n = some c → c'.data = c.data → (∀ d', wg c' d' = wg c d') →
    ∀ (tg tw : Fraction),
      wgFold sibs dflt (setChild cs n c') tg tw = wgFold sibs dflt cs tg tw := by
  intro cs
  induction cs with
  | nil => intro sibs dflt n c c' h _ _ tg tw; cases h
  | cons w rest ih =>
    intro sibs dflt n c c' h hd hw tg tw
    unfold findChild at h
    unfold setChild
    by_cases hwn : w.name = n
    · rw [if_pos hwn] at h
      cases h
      rw [if_pos hwn, wgFold_cons_eq, wgFold_cons_eq, hd, hw]
    · rw [if_neg hwn] at h
      rw [if_neg hwn, wgFold_cons_eq, wgFold_cons_eq]
      by_cases hskip : (dflt.isNone && !w.data.has_grade) = true
      · rw [if_pos hskip, if_pos hskip, ih sibs dflt n h hd hw]
      · rw [if_neg hskip, if_neg hskip]
        cases percent_weight false sibs w.data.adata with
        | err e => rfl
        | ok wt =>
          cases wg w dflt with
          | err e => rfl
          | ok g => exact ih sibs dflt n h hd hw _ _

theorem wgFold_cons_skip (sibs : List AData) (dflt : Option Fraction) (c : NamedNode GData)
    (rest : List (NamedNode GData)) (tg tw : Fraction)
    (hsk : (dflt.isNone && !c.data.has_grade) = true) :
    wgFold sibs dflt (c :: rest) tg tw = wgFold sibs dflt rest tg tw := by
  rw [wgFold_cons_eq, if_pos hsk]

theorem wgFold_cons_ok (sibs : List AData) (dflt : Option Fraction) (c : NamedNode GData)
    (rest : List (NamedNode GData)) (tg tw : Fraction) {w g : Fraction}
    (hsk : (dflt.isNone && !c.data.has_grade) ≠ true)
    (hp : percent_weight false sibs c.data.adata = .ok w)
    (hg : wg c dflt = .ok g) :
    wgFold sibs dflt (c :: rest) tg tw =
      wgFold sibs dflt rest (tg + w * g)
        (if c.data.adata.extra_credit then tw else tw + w) := by
  rw [wgFold_cons_eq, if_neg hsk, hp, hg]

theorem wgFold_swap_mid {sibs : List AData} {dflt : Option Fraction}
    {x y : NamedNode GData} {wx wy gx gy : Fraction}
    (hpx : percent_weight false sibs x.data.adata = .ok wx)
    (hpy : percent_weight false sibs y.data.adata = .ok wy)
    (hgx : wg x dflt = .ok gx) (hgy : wg y dflt = .ok gy) :
    ∀ (m l2 : List (NamedNode GData)) (tg tw : Fraction),
      wgFold sibs dflt (m ++ y :: x :: l2) tg tw = wgFold sibs dflt (m ++ x :: y :: l2) tg tw := by
  intro m
  induction m with
  | nil =>
    intro l2 tg tw
    simp only [List.nil_append]
    by_cases hskx : (dflt.isNone && !x.data.has_grade) = true <;>
      by_cases hsky : (dflt.isNone && !y.data.has_grade) = true
    · rw [wgFold_cons_skip sibs dflt y (x :: l2) tg tw hsky,
        wgFold_cons_skip sibs dflt x l2 tg tw hskx,
        wgFold_cons_skip sibs dflt x (y :: l2) tg tw hskx,
        wgFold_cons_skip sibs dflt y l2 tg tw hsky]
    · rw [wgFold_cons_ok sibs dflt y (x :: l2) tg tw hsky hpy hgy,
        wgFold_cons_skip sibs dflt x l2 _ _ hskx,
        wgFold_cons_skip sibs dflt x (y :: l2) tg tw hskx,
        wgFold_cons_ok sibs dflt y l2 tg tw hsky hpy hgy]
    · rw [wgFold_cons_skip sibs dflt y (x :: l2) tg tw hsky,
        wgFold_cons_ok sibs dflt x l2 tg tw hskx hpx hgx,
        wgFold_cons_ok sibs dflt x (y :: l2) tg tw hskx hpx hgx,
        wgFold_cons_skip sibs dflt y l2 _ _ hsky]
    · rw [wgFold_cons_ok sibs dflt y (x :: l2) tg tw hsky hpy hgy,
        wgFold_cons_ok sibs dflt x l2 _ _ hskx hpx hgx,
        wgFold_cons_ok sibs dflt x (y :: l2) tg tw hskx hpx hgx,
        wgFold_cons_ok sibs dflt y l2 _ _ hsky hpy hgy,
        Fraction.add_swap tg (wy * gy) (wx * gx)]
      by_cases hecx : x.data.adata.extra_credit = true <;>
        by_cases hecy : y.data.adata.extra_credit = true
      · rw [if_pos hecx, if_pos hecy, if_pos hecy, if_pos hecx]
      · rw [if_pos hecx, if_neg hecy, if_neg hecy, if_pos hecx]
      · rw [if_neg hecx, if_pos hecy, if_pos hecy, if_neg hecx]
      · rw [if_neg hecx, if_neg hecy, if_neg hecy, if_neg hecx,
          Fraction.add_swap tw wy wx]
  | cons z m' ih =>
    intro l2 tg tw
    simp only [List.cons_append]
    rw [wgFold_cons_eq sibs dflt z (m' ++ y :: x :: l2) tg tw,
      wgFold_cons_eq sibs dflt z (m' ++ x :: y :: l2) tg tw]
    by_cases hskip : (dflt.isNone && !z.data.has_grade) = true
    · rw [if_pos hskip, if_pos hskip]
      exact ih l2 tg tw
    · rw [if_neg hskip, if_neg hskip]
      cases percent_weight false sibs z.data.adata with
      | err e => rfl
      | ok w =>
        cases wg z dflt with
        | err e => rfl
        | ok g => exact ih l2 _ _

theorem wg_swap_node {nm : Str} {d : GData} (l1 l2 : List (NamedNode GData))
    (x y : NamedNode GData) (hwf : wfT (NamedNode.node nm d (l1 ++ x :: y :: l2)) = true)
    (dflt : Option Fraction) :
    wg (NamedNode.node nm d (l1 ++ y :: x :: l2)) dflt =
      wg (NamedNode.node nm d (l1 ++ x :: y :: l2)) dflt := by
  have hne1 : (l1 ++ y :: x :: l2) ≠ ([] : List (NamedNode GData)) := by simp
  have hne2 : (l1 ++ x :: y :: l2) ≠ ([] : List (NamedNode GData)) := by simp
  have hs : sibWeightSum ((l1 ++ y :: x :: l2).map (fun z => z.data.adata)) =
      sibWeightSum ((l1 ++ x :: y :: l2).map (fun z => z.data.adata)) := by
    simp only [List.map_append, List.map_cons]
    exact sibWeightSum_swap _ _ _ _
  rw [wfT_node_eq_of_ne nm d _ hne2, Bool.and_eq_true] at hwf
  have hx_mem : x ∈ l1 ++ x :: y :: l2 := by simp
  have hy_mem : y ∈ l1 ++ x :: y :: l2 := by simp
  have hpwx := List.all_eq_true.mp hwf.1 x hx_mem
  have hpwy := List.all_eq_true.mp hwf.1 y hy_mem
  obtain ⟨gx, hgx, -⟩ := wg_toQ x dflt (wfL_mem hwf.2 x hx_mem)
  obtain ⟨gy, hgy, -⟩ := wg_toQ y dflt (wfL_mem hwf.2 y hy_mem)
  rw [wg_node_eq_of_ne nm d dflt _ hne1, wg_node_eq_of_ne nm d dflt _ hne2]
  cases hpx : percent_weight false ((l1 ++ x :: y :: l2).map (fun z => z.data.adata))
      x.data.adata with
  | err e => rw [hpx] at hpwx; cases hpwx
  | ok wx =>
    cases hpy : percent_weight false ((l1 ++ x :: y :: l2).map (fun z => z.data.adata))
        y.data.adata with
    | err e => rw [hpy] at hpwy; cases hpwy
    | ok wy =>
      rw [wgFold_sibs_congr hs dflt, wgFold_swap_mid hpx hpy hgx hgy l1 l2]

theorem wfT_swap {nm : Str} {d : GData} (l1 l2 : List (NamedNode GData))
    (x y : NamedNode GData) (hwf : wfT (NamedNode.node nm d (l1 ++ x :: y :: l2)) = true) :
    wfT (NamedNode.node nm d (l1 ++ y :: x :: l2)) = true := by
  have hne1 : (l1 ++ y :: x :: l2) ≠ ([] : List (NamedNode GData)) := by simp
  have hne2 : (l1 ++ x :: y :: l2) ≠ ([] : List (NamedNode GData)) := by simp
  have hs : sibWeightSum ((l1 ++ y :: x :: l2).map (fun z => z.data.adata)) =
      sibWeightSum ((l1 ++ x :: y :: l2).map (fun z => z.data.adata)) := by
    simp only [List.map_append, List.map_cons]
    exact sibWeightSum_swap _ _ _ _
  rw [wfT_node_eq_of_ne nm d _ hne2, Bool.and_eq_true] at hwf
  rw [wfT_node_eq_of_ne nm d _ hne1, Bool.and_eq_true]
  constructor
  · rw [List.all_eq_true]
    intro z hz
    have hz' : z ∈ l1 ++ x :: y :: l2 := by
      simp only [List.mem_append, List.mem_cons] at hz ⊢
      tauto
    rw [pw_sibs_congr hs false z.data.adata]
    exact List.all_eq_true.mp hwf.1 z hz'
  · refine wfL_of_parts _ (fun z hz => wfL_mem hwf.2 z ?_)
    simp only [List.mem_append, List.mem_cons] at hz ⊢
    tauto

mutual
/-- The full observable record of a subtree: for every node its qualified
name (path from the root), raw grade text, `has_grade` flag, and the three
aggregates `minimum` / `partial` / `maximum`. -/
def recs (pfx : List Str) : NamedNode GData →
    List (List Str × Str × Bool × Res Fraction × Res Fraction × Res Fraction)
  | .node nm d cs =>
    (pfx ++ [nm], d.grade_str, d.has_grade,
      wg (.node nm d cs) (some (Fraction.ofInt 0)),
      wg (.node nm d cs) none,
      wg (.node nm d cs) (some (Fraction.ofInt 1))) :: recsL (pfx ++ [nm]) cs
def recsL (pfx : List Str) : List (NamedNode GData) →
    List (List Str × Str × Bool × Res Fraction × Res Fraction × Res Fraction)
  | [] => []
  | c :: rest => recs pfx c ++ recsL pfx rest
end

theorem recs_node_eq (pfx : List Str) (nm : Str) (d : GData)
    (cs : List (NamedNode GData)) :
    recs pfx (NamedNode.node nm d cs) =
      (pfx ++ [nm], d.grade_str, d.has_grade,
        wg (NamedNode.node nm d cs) (some (Fraction.ofInt 0)),
        wg (NamedNode.node nm d cs) none,
        wg (NamedNode.node nm d cs) (some (Fraction.ofInt 1))) :: recsL (pfx ++ [nm]) cs := rfl

theorem recsL_nil_eq (pfx : List Str) : recsL pfx [] = [] := rfl

theorem recsL_cons_eq (pfx : List Str) (c : NamedNode GData)
    (rest : List (NamedNode GData)) :
    recsL pfx (c :: rest) = recs pfx c ++ recsL pfx rest := rfl

theorem recsL_append (pfx : List Str) :
    ∀ (a b : List (NamedNode GData)), recsL pfx (a ++ b) = recsL pfx a ++ recsL pfx b := by
  intro a
  induction a with
  | nil => intro b; simp [recsL_nil_eq]
  | cons c rest ih =>
    intro b
    simp only [List.cons_append, recsL_cons_eq, ih, List.append_assoc]

theorem recsL_swap (pfx : List Str) (l1 l2 : List (NamedNode GData))
    (x y : NamedNode GData) :
    (recsL pfx (l1 ++ y :: x :: l2)).Perm (recsL pfx (l1 ++ x :: y :: l2)) := by
  rw [recsL_append, recsL_append, recsL_cons_eq, recsL_cons_eq, recsL_cons_eq, recsL_cons_eq]
  refine List.Perm.append_left _ ?_
  rw [← List.append_assoc, ← List.append_assoc]
  exact List.Perm.append_right _ List.perm_append_comm

theorem recsL_set (pfx : List Str) :
    ∀ (cs : List (NamedNode GData)) (n : Str) {c c' : NamedNode GData},
      findChild cs n = some c → (recs pfx c').Perm (recs pfx c) →
      (recsL pfx (setChild cs n c')).Perm (recsL pfx cs) := by
  intro cs
  induction cs with
  | nil => intro n c c' h _; cases h
  | cons w rest ih =>
    intro n c c' h hperm
    unfold findChild at h
    unfold setChild
    by_cases hw : w.name = n
    · rw [if_pos hw] at h
      cases h
      rw [if_pos hw, recsL_cons_eq, recsL_cons_eq]
      exact List.Perm.append_right _ hperm
    · rw [if_neg hw] at h
      rw [if_neg hw, recsL_cons_eq, recsL_cons_eq]
      exact List.Perm.append_left _ (ih n h hperm)

theorem moveAux_nil_eq (swapper : List (NamedNode GData) → Str → Option (List (NamedNode GData)))
    (nm : Str) (d : GData) (cs : List (NamedNode GData)) :
    moveAuxWith swapper (NamedNode.node nm d cs) [] = none := rfl

theorem moveAux_one_eq (swapper : List (NamedNode GData) → Str → Option (List (NamedNode GData)))
    (nm : Str) (d : GData) (cs : List (NamedNode GData)) (last : Str) :
    moveAuxWith swapper (NamedNode.node nm d cs) [last] =
      (swapper cs last).map (fun cs' => NamedNode.node nm d cs') := rfl

theorem moveAux_frame
    (swapper : List (NamedNode GData) → Str → Option (List (NamedNode GData)))
    (hswap : ∀ (cs : List (NamedNode GData)) (n : Str) (cs' : List (NamedNode GData)),
      swapper cs n = some cs' →
      cs' = cs ∨ ∃ l1 x y l2, cs = l1 ++ x :: y :: l2 ∧ cs' = l1 ++ y :: x :: l2) :
    ∀ (names : List Str) (t t' : NamedNode GData), wfT t = true →
      moveAuxWith swapper t names = some t' →
      t'.name = t.name ∧ t'.data = t.data ∧ wfT t' = true ∧
      (∀ dflt, wg t' dflt = wg t dflt) ∧
      (∀ pfx, (recs pfx t').Perm (recs pfx t)) := by
  intro names
  induction names with
  | nil =>
    intro t t' _ h
    cases t with
    | node nm d cs => rw [moveAux_nil_eq] at h; cases h
  | cons n rest ih =>
    intro t t' hwf h
    cases t with
    | node nm d cs =>
      cases rest with
      | nil =>
        rw [moveAux_one_eq] at h
        cases hs : swapper cs n with
        | none => rw [hs] at h; cases h
        | some cs2 =>
          rw [hs] at h
          cases h
          cases hswap cs n cs2 hs with
          | inl he =>
            subst he
            exact ⟨rfl, rfl, hwf, fun _ => rfl, fun _ => List.Perm.refl _⟩
          | inr hd =>
            obtain ⟨l1, x, y, l2, hcs, hcs2⟩ := hd
            subst hcs
            subst hcs2
            refine ⟨rfl, rfl, wfT_swap l1 l2 x y hwf,
              fun dflt => wg_swap_node l1 l2 x y hwf dflt, ?_⟩
            intro pfx
            rw [recs_node_eq, recs_node_eq,
              wg_swap_node l1 l2 x y hwf (some (Fraction.ofInt 0)),
              wg_swap_node l1 l2 x y hwf none,
              wg_swap_node l1 l2 x y hwf (some (Fraction.ofInt 1))]
            exact List.Perm.cons _ (recsL_swap (pfx ++ [nm]) l1 l2 x y)
      | cons m rest' =>
        simp only [moveAuxWith] at h
        split at h
        next => exact Option.noConfusion h
        next c hf =>
          split at h
          next => exact Option.noConfusion h
          next c' hm =>
            cases h
            have hcmem := findChild_mem hf
            have hcs_ne : cs ≠ [] := by
              intro hx
              rw [hx] at hcmem
              cases hcmem
            rw [wfT_node_eq_of_ne nm d cs hcs_ne, Bool.and_eq_true] at hwf
            have hwfc : wfT c = true := wfL_mem hwf.2 c hcmem
            obtain ⟨hname, hdata, hwfc', hwgc, hrecs⟩ := ih c c' hwfc hm
            have hmapeq := setChild_map_adata cs n hf hdata
            have hset_ne : setChild cs n c' ≠ [] := by
              cases cs with
              | nil => exact absurd rfl hcs_ne
              | cons w ws =>
                unfold setChild
                by_cases hw : w.name = n
                · rw [if_pos hw]; simp
                · rw [if_neg hw]; simp
            have hwg_all : ∀ dflt, wg (NamedNode.node nm d (setChild cs n c')) dflt =
                wg (NamedNode.node nm d cs) dflt := by
              intro dflt
              rw [wg_node_eq_of_ne nm d dflt _ hset_ne, wg_node_eq_of_ne nm d dflt cs hcs_ne,
                hmapeq, setChild_wgFold cs _ dflt n hf hdata hwgc]
            refine ⟨rfl, rfl, ?_, hwg_all, ?_⟩
            · rw [wfT_node_eq_of_ne nm d _ hset_ne, Bool.and_eq_true]
              constructor
              · rw [List.all_eq_true]
                intro z hz
                rw [hmapeq]
                cases setChild_mem hz with
                | inl hmem => exact List.all_eq_true.mp hwf.1 z hmem
                | inr heq =>
                  subst heq
                  have hpwc := List.all_eq_true.mp hwf.1 c hcmem
                  rw [hdata]
                  exact hpwc
              · refine wfL_of_parts _ (fun z hz => ?_)
                cases setChild_mem hz with
                | inl hmem => exact wfL_mem hwf.2 z hmem
                | inr heq =>
                  subst heq
                  exact hwfc'
            · intro pfx
              rw [recs_node_eq, recs_node_eq,
                hwg_all (some (Fraction.ofInt 0)), hwg_all none,
                hwg_all (some (Fraction.ofInt 1))]
              exact List.Perm.cons _ (recsL_set (pfx ++ [nm]) cs n hf (hrecs _))

/-- C10: `move_node_up` and `move_node_down` only reorder one sibling pair:
on a well-formed tree, the multiset of per-node records — qualified name,
raw grade text, `has_grade` flag, and the three aggregates — is unchanged,
and in particular the root's minimum / partial / maximum grades are
identical before and after the move. -/
theorem c10_move_frame :
    ∀ (t : NamedNode GData) (qn : List Str) (t' : NamedNode GData),
      wfT t = true →
      (move_node_up t qn = some t' ∨ move_node_down t qn = some t') →
      ((recs [] t' : Multiset (List Str × Str × Bool × Res Fraction × Res Fraction ×
        Res Fraction)) = (recs [] t : Multiset (List Str × Str × Bool × Res Fraction ×
        Res Fraction × Res Fraction))) ∧
      minimum_grade t' = minimum_grade t ∧ mid_grade t' = mid_grade t ∧
      maximum_grade t' = maximum_grade t := by
  intro t qn t' hwf h
  have key : t'.name = t.name ∧ t'.data = t.data ∧ wfT t' = true ∧
      (∀ dflt, wg t' dflt = wg t dflt) ∧ (∀ pfx, (recs pfx t').Perm (recs pfx t)) := by
    cases h with
    | inl hu =>
      cases qn with
      | nil =>
        simp only [move_node_up] at hu
        exact Option.noConfusion hu
      | cons n0 qrest =>
        cases qrest with
        | nil =>
          simp only [move_node_up] at hu
          exact Option.noConfusion hu
        | cons n1 qrest' =>
          simp only [move_node_up] at hu
          by_cases h0 : n0 = t.name
          · rw [if_pos h0] at hu
            exact moveAux_frame swapUpNamed swapUpNamed_cases (n1 :: qrest') t t' hwf hu
          · rw [if_neg h0] at hu
            exact Option.noConfusion hu
    | inr hd =>
      cases qn with
      | nil =>
        simp only [move_node_down] at hd
        exact Option.noConfusion hd
      | cons n0 qrest =>
        cases qrest with
        | nil =>
          simp only [move_node_down] at hd
          exact Option.noConfusion hd
        | cons n1 qrest' =>
          simp only [move_node_down] at hd
          by_cases h0 : n0 = t.name
          · rw [if_pos h0] at hd
            exact moveAux_frame swapDownNamed swapDownNamed_cases (n1 :: qrest') t t' hwf hd
          · rw [if_neg h0] at hd
            exact Option.noConfusion hd
  exact ⟨Multiset.coe_eq_coe.mpr (key.2.2.2.2 []), key.2.2.2.1 _, key.2.2.2.1 _,
    key.2.2.2.1 _⟩

def c10a : NamedNode GData :=
  .node "a".toList ⟨⟨"40%".toList, false, ⟨40, 100, by decide⟩, .percent⟩, "100%".toList,
    some ⟨100, 100, by decide⟩, true, Memo.empty⟩ []

def c10b : NamedNode GData :=
  .node "b".toList ⟨⟨"60%".toList, false, ⟨60, 100, by decide⟩, .percent⟩, "50%".toList,
    some ⟨50, 100, by decide⟩, true, Memo.empty⟩ []

def c10root : NamedNode GData :=
  .node "r".toList ⟨⟨"100%".toList, false, ⟨1, 1, by decide⟩, .percent⟩, "None".toList,
    none, true, Memo.empty⟩ [c10a, c10b]

def c10rootUp : NamedNode GData :=
  .node "r".toList ⟨⟨"100%".toList, false, ⟨1, 1, by decide⟩, .percent⟩, "None".toList,
    none, true, Memo.empty⟩ [c10b, c10a]

theorem c10_move_frame_witness :
    (wfT c10root = true ∧
      move_node_up c10root ["r".toList, "b".toList] = some c10rootUp) ∧
    ((recs [] c10rootUp : Multiset (List Str × Str × Bool × Res Fraction × Res Fraction ×
      Res Fraction)) = (recs [] c10root : Multiset (List Str × Str × Bool × Res Fraction ×
      Res Fraction × Res Fraction))) ∧
    minimum_grade c10rootUp = minimum_grade c10root ∧
    mid_grade c10rootUp = mid_grade c10root ∧
    maximum_grade c10rootUp = maximum_grade c10root :=
  ⟨⟨by decide, by decide⟩,
    c10_move_frame c10root ["r".toList, "b".toList] c10rootUp (by decide)
      (Or.inl (by decide))⟩

/-! ## Claims C6 and C7 — mutation, caching, and propagation -/

def isSpaceChar (c : Char) : Bool := c == ' ' || c == '\t' || c == '\n' || c == '\r'

/-- Python `str.strip()` on the grade text (src/overunder.py:549). -/
def strip (s : Str) : Str := ((s.dropWhile isSpaceChar).reverse.dropWhile isSpaceChar).reverse

/-- Outcome of a `set_grade` call: early return on unchanged text, normal
completion, or an exception escaping from `_parse_grade_str`. -/
inductive SetStatus where
  | noop
  | ok
  | raised
deriving DecidableEq

/-- `AssignmentGrade.set_grade` (src/overunder.py:546-553) with the
`_propagate` walk (src 448-458), resolved along a path of names below the
current node.  The text is stripped and compared against the stored text
(early return); otherwise the stored text is overwritten *first*, then
`_propagate` clears the node's cache and re-parses; a parse failure
escapes at that point, before any ancestor is touched.  On success each
ancestor in turn has its cache cleared and its `has_grade` flag recomputed
from its children. -/
def setGradeAt : NamedNode GData → List Str → Str → Option (NamedNode GData × SetStatus)
  | .node nm d cs, [], gs =>
    if d.grade_str = strip gs then some (.node nm d cs, SetStatus.noop)
    else
      match cs with
      | [] =>
        match parse_grade_str d.adata (strip gs) with
        | .err _ => some (.node nm
            { d with
              grade_str := strip gs
              percent_grade := none
              has_grade := false
              memo := Memo.empty } [], SetStatus.raised)
        | .ok v => some (.node nm
            { d with
              grade_str := strip gs
              percent_grade := v
              has_grade := v.isSome
              memo := Memo.empty } [], SetStatus.ok)
      | c :: cs' =>
        some (.node nm
          { d with
            grade_str := strip gs
            percent_grade := none
            has_grade := (c :: cs').any (fun x => x.data.has_grade)
            memo := Memo.empty } (c :: cs'), SetStatus.ok)
  | .node nm d cs, n :: rest, gs =>
    match findChild cs n with
    | none => none
    | some c =>
      match setGradeAt c rest gs with
      | none => none
      | some (c', st) =>
        match st with
        | .noop => some (.node nm d cs, SetStatus.noop)
        | .raised => some (.node nm d (setChild cs n c'), SetStatus.raised)
        | .ok => some (.node nm
            { d with
              percent_grade := none
              has_grade := (setChild cs n c').any (fun x => x.data.has_grade)
              memo := Memo.empty } (setChild cs n c'), SetStatus.ok)

/-- `GradeBook.set_grade` (src/overunder.py:688-691) on one student's grade
tree: `self.grades[alias][qualified_name].set_grade(grade_str)`. -/
def set_grade (t : NamedNode GData) (qn : List Str) (gs : Str) :
    Option (NamedNode GData × SetStatus) :=
  match qn with
  | n0 :: rest => if n0 = t.name then setGradeAt t rest gs else none
  | [] => none

def Memo.get : Memo → Pol → Option Fraction
  | m, .mn => m.mn
  | m, .pr => m.pr
  | m, .mx => m.mx

mutual
/-- `AssignmentGrade._weighted_grade` (src/overunder.py:460-486) *with* the
memoisation of lines 462-463: a read returns the cached entry when present
and otherwise recomputes, consulting each child's cache the same way. -/
def wgC : NamedNode GData → Pol → Res Fraction
  | .node _ d [], pol =>
    match d.memo.get pol with
    | some v => .ok v
    | none => wgLeaf d pol.dflt
  | .node _ d (c :: cs), pol =>
    match d.memo.get pol with
    | some v => .ok v
    | none =>
      match wgCFold ((c :: cs).map (fun x => x.data.adata)) pol (c :: cs)
          (Fraction.ofInt 0) (Fraction.ofInt 0) with
      | .err e => .err e
      | .ok (tg, tw) =>
        .ok (if tw.beq (Fraction.ofInt 0) then Fraction.ofInt 0 else tg.div tw)
def wgCFold (sibs : List AData) (pol : Pol) :
    List (NamedNode GData) → Fraction → Fraction → Res (Fraction × Fraction)
  | [], tg, tw => .ok (tg, tw)
  | c :: rest, tg, tw =>
    if pol.dflt.isNone && !c.data.has_grade then wgCFold sibs pol rest tg tw
    else
      match percent_weight false sibs c.data.adata with
      | .err e => .err e
      | .ok w =>
        match wgC c pol with
        | .err e => .err e
        | .ok g =>
          wgCFold sibs pol rest (tg + w * g)
            (if c.data.adata.extra_credit then tw else tw + w)
end

/-- `list.pop(index)` at the first child with the given name
(`NamedNode.remove_node`, src/overunder.py:176-184). -/
def removeChild : List (NamedNode α) → Str → Option (List (NamedNode α))
  | [], _ => none
  | c :: rest, n => if c.name = n then some rest else (removeChild rest n).map (c :: ·)

/-- `NamedNode.remove_node` (src/overunder.py:176-184): resolve the path,
pop the target from its parent's child list, and return — *no* call to
`_propagate`, so no ancestor cache or flag is touched. -/
def removeAt : NamedNode α → List Str → Option (NamedNode α)
  | .node nm d cs, [last] => (removeChild cs last).map (fun cs' => .node nm d cs')
  | .node nm d cs, n :: m :: rest =>
    match findChild cs n with
    | none => none
    | some c => (removeAt c (m :: rest)).map (fun c' => .node nm d (setChild cs n c'))
  | _, [] => none

def remove_node (t : NamedNode α) (qn : List Str) : Option (NamedNode α) :=
  match qn with
  | n0 :: n1 :: rest => if n0 = t.name then removeAt t (n1 :: rest) else none
  | _ => none

/-- `NamedNode.add_descendant` / `add_child` (src/overunder.py:125-146) for
grade trees: append the new node at the parent resolved along the path, then
`_propagate` from it — every ancestor's cache is cleared and its `has_grade`
recomputed. -/
def addDescAt : NamedNode GData → List Str → NamedNode GData → Option (NamedNode GData)
  | .node nm d cs, [_], newc =>
    some (.node nm
      { d with
        percent_grade := none
        has_grade := (cs ++ [newc]).any (fun x => x.data.has_grade)
        memo := Memo.empty } (cs ++ [newc]))
  | .node nm d cs, n :: m :: rest, newc =>
    match findChild cs n with
    | none => none
    | some c =>
      match addDescAt c (m :: rest) newc with
      | none => none
      | some c' => some (.node nm
          { d with
            percent_grade := none
            has_grade := (setChild cs n c').any (fun x => x.data.has_grade)
            memo := Memo.empty } (setChild cs n c'))
  | _, [], _ => none

def add_descendant (t : NamedNode GData) (qn : List Str) (newc : NamedNode GData) :
    Option (NamedNode GData) :=
  match qn with
  | n0 :: n1 :: rest => if n0 = t.name then addDescAt t (n1 :: rest) newc else none
  | _ => none

def c6ldata : GData :=
  ⟨⟨"1".toList, false, ⟨1, 1, by decide⟩, .points⟩, "50%".toList,
    some ⟨50, 100, by decide⟩, true, Memo.empty⟩

def c6root : NamedNode GData :=
  .node "r".toList ⟨⟨"100%".toList, false, ⟨1, 1, by decide⟩, .percent⟩, "None".toList,
    none, true, Memo.empty⟩ [.node "a".toList c6ldata []]

def c6rootAfter : NamedNode GData :=
  .node "r".toList ⟨⟨"100%".toList, false, ⟨1, 1, by decide⟩, .percent⟩, "None".toList,
    none, true, Memo.empty⟩
    [.node "a".toList ⟨⟨"1".toList, false, ⟨1, 1, by decide⟩, .points⟩, "abc".toList,
      none, false, Memo.empty⟩ []]

/-- C6, counterexample: `set_grade` with malformed text raises, but it is
not atomic — the target leaf's stored raw text has already been replaced by
the malformed text, its parsed value has been dropped and its `has_grade`
flag cleared; only the ancestors keep their previous (now stale) state. -/
theorem c6_counterexample :
    set_grade c6root ["r".toList, "a".toList] "abc".toList =
      some (c6rootAfter, SetStatus.raised) ∧
    c6rootAfter.data = c6root.data ∧
    (findChild c6rootAfter.children "a".toList).map
      (fun c => (c.data.grade_str, c.data.has_grade, c.data.percent_grade)) =
      some ("abc".toList, false, none) ∧
    (findChild c6root.children "a".toList).map
      (fun c => (c.data.grade_str, c.data.has_grade, c.data.percent_grade)) =
      some ("50%".toList, true, some ⟨50, 100, by decide⟩) := by
  refine ⟨by decide, by decide, by decide, by decide⟩

/-- C6 (amended): a failing `set_grade` raises the parse error before any
ancestor is touched — every node above the target keeps its exact previous
state — but the call is *not* atomic at the target itself: the target's raw
text has already been overwritten with the stripped new text, and
`_propagate` has cleared its parsed value, `has_grade` flag and cache
before the parse failure escapes. -/
theorem c6_amended :
    (∀ (nm : Str) (d : GData) (cs : List (NamedNode GData)) (n : Str) (rest : List Str)
        (gs : Str) (t' : NamedNode GData),
      setGradeAt (NamedNode.node nm d cs) (n :: rest) gs = some (t', SetStatus.raised) →
      t'.name = nm ∧ t'.data = d) ∧
    (∀ (nm : Str) (d : GData) (gs : Str) (e : PErr),
      d.grade_str ≠ strip gs →
      parse_grade_str d.adata (strip gs) = .err e →
      setGradeAt (NamedNode.node nm d []) [] gs =
        some (NamedNode.node nm
          { d with
            grade_str := strip gs
            percent_grade := none
            has_grade := false
            memo := Memo.empty } [], SetStatus.raised)) := by
  constructor
  · intro nm d cs n rest gs t' h
    simp only [setGradeAt] at h
    split at h
    · exact Option.noConfusion h
    · split at h
      · exact Option.noConfusion h
      · split at h
        · cases h
        · cases h
          exact ⟨rfl, rfl⟩
        · cases h
  · intro nm d gs e hne hp
    simp only [setGradeAt, if_neg hne, hp]

theorem c6_amended_witness :
    (c6ldata.grade_str ≠ strip "abc".toList ∧
      parse_grade_str c6ldata.adata (strip "abc".toList) = .err PErr.valueError) ∧
    setGradeAt (NamedNode.node "a".toList c6ldata []) [] "abc".toList =
      some (NamedNode.node "a".toList
        { c6ldata with
          grade_str := strip "abc".toList
          percent_grade := none
          has_grade := false
          memo := Memo.empty } [], SetStatus.raised) :=
  ⟨⟨by decide, by decide⟩,
    c6_amended.2 "a".toList c6ldata "abc".toList PErr.valueError (by decide) (by decide)⟩

def c7a : NamedNode GData :=
  .node "a".toList ⟨⟨"1".toList, false, ⟨1, 1, by decide⟩, .points⟩, "100%".toList,
    some ⟨100, 100, by decide⟩, true, Memo.empty⟩ []

def c7b : NamedNode GData :=
  .node "b".toList ⟨⟨"1".toList, false, ⟨1, 1, by decide⟩, .points⟩, "0%".toList,
    some ⟨0, 100, by decide⟩, true, Memo.empty⟩ []

def c7rdata : GData :=
  ⟨⟨"100%".toList, false, ⟨1, 1, by decide⟩, .percent⟩, "None".toList,
    none, true, ⟨some ⟨80000, 160000, by decide⟩, none, none⟩⟩

def c7root : NamedNode GData := .node "r".toList c7rdata [c7a, c7b]

def c7rootRemoved : NamedNode GData :=
  .node "r".toList ⟨⟨"100%".toList, false, ⟨1, 1, by decide⟩, .percent⟩, "None".toList,
    none, true, ⟨some ⟨80000, 160000, by decide⟩, none, none⟩⟩ [c7a]

/-- C7, counterexample: `remove_node` never calls `_propagate`, so the
parent's cached minimum aggregate survives the removal.  Before the removal
the cache is exact; afterwards the cached read still returns `1/2` while a
fresh recomputation over the remaining children gives `1`. -/
theorem c7_counterexample :
    wgC c7root Pol.mn = wg c7root (some (Fraction.ofInt 0)) ∧
    remove_node c7root ["r".toList, "b".toList] = some c7rootRemoved ∧
    wgC c7rootRemoved Pol.mn = .ok ⟨80000, 160000, by decide⟩ ∧
    wg c7rootRemoved (some (Fraction.ofInt 0)) = .ok ⟨100, 100, by decide⟩ ∧
    ¬ (Fraction.toQ ⟨80000, 160000, by decide⟩ = Fraction.toQ ⟨100, 100, by decide⟩) := by
  refine ⟨by decide, by decide, by decide, by decide, fun h => ?_⟩
  exact absurd ((Fraction.beq_iff _ _).mpr h) (by decide)

/-- C7 (amended): `set_grade` (on a completed call) and `add_descendant` do
clear every cache on the ancestor chain of the mutation point — the
returned parent node carries an empty memo — but `remove_node` performs no
invalidation at all: every ancestor keeps its exact previous data, cached
aggregates included, so a later cached read can return a stale value. -/
theorem c7_amended :
    (∀ (nm : Str) (d : GData) (cs : List (NamedNode GData)) (n : Str) (rest : List Str)
        (gs : Str) (t' : NamedNode GData),
      setGradeAt (NamedNode.node nm d cs) (n :: rest) gs = some (t', SetStatus.ok) →
      t'.name = nm ∧ t'.data.memo = Memo.empty) ∧
    (∀ (nm : Str) (d : GData) (cs : List (NamedNode GData)) (n : Str) (rest : List Str)
        (newc t' : NamedNode GData),
      addDescAt (NamedNode.node nm d cs) (n :: rest) newc = some t' →
      t'.name = nm ∧ t'.data.memo = Memo.empty) ∧
    (∀ (nm : Str) (d : GData) (cs : List (NamedNode GData)) (names : List Str)
        (t' : NamedNode GData),
      removeAt (NamedNode.node nm d cs) names = some t' →
      t'.name = nm ∧ t'.data = d) := by
  refine ⟨?_, ?_, ?_⟩
  · intro nm d cs n rest gs t' h
    simp only [setGradeAt] at h
    split at h
    · exact Option.noConfusion h
    · split at h
      · exact Option.noConfusion h
      · split at h
        · cases h
        · cases h
        · cases h
          exact ⟨rfl, rfl⟩
  · intro nm d cs n rest newc t' h
    cases rest with
    | nil =>
      simp only [addDescAt] at h
      cases h
      exact ⟨rfl, rfl⟩
    | cons m rest' =>
      simp only [addDescAt] at h
      split at h
      · exact Option.noConfusion h
      · split at h
        · exact Option.noConfusion h
        · cases h
          exact ⟨rfl, rfl⟩
  · intro nm d cs names t' h
    cases names with
    | nil =>
      simp only [removeAt] at h
      exact Option.noConfusion h
    | cons n rest =>
      cases rest with
      | nil =>
        simp only [removeAt] at h
        cases hr : removeChild cs n with
        | none => rw [hr] at h; cases h
        | some cs2 =>
          rw [hr] at h
          simp only [Option.map_some'] at h
          cases h
          exact ⟨rfl, rfl⟩
      | cons m rest' =>
        simp only [removeAt] at h
        split at h
        next => exact Option.noConfusion h
        next c hf =>
          cases hm : removeAt c (m :: rest') with
          | none => rw [hm] at h; cases h
          | some c' =>
            rw [hm] at h
            simp only [Option.map_some'] at h
            cases h
            exact ⟨rfl, rfl⟩

def c7newc : NamedNode GData :=
  .node "c".toList ⟨⟨"1".toList, false, ⟨1, 1, by decide⟩, .points⟩, "None".toList,
    none, false, Memo.empty⟩ []

theorem c7_amended_witness :
    (setGradeAt c7root ["a".toList] "75%".toList =
        some (.node "r".toList
          ⟨⟨"100%".toList, false, ⟨1, 1, by decide⟩, .percent⟩, "None".toList,
            none, true, Memo.empty⟩
          [.node "a".toList ⟨⟨"1".toList, false, ⟨1, 1, by decide⟩, .points⟩, "75%".toList,
            some ⟨75, 100, by decide⟩, true, Memo.empty⟩ [], c7b], SetStatus.ok) ∧
      addDescAt c7root ["c".toList] c7newc =
        some (.node "r".toList
          ⟨⟨"100%".toList, false, ⟨1, 1, by decide⟩, .percent⟩, "None".toList,
            none, true, Memo.empty⟩ [c7a, c7b, c7newc]) ∧
      removeAt c7root ["b".toList] = some c7rootRemoved) ∧
    ((.node "r".toList
        ⟨⟨"100%".toList, false, ⟨1, 1, by decide⟩, .percent⟩, "None".toList,
          none, true, Memo.empty⟩
        [.node "a".toList ⟨⟨"1".toList, false, ⟨1, 1, by decide⟩, .points⟩, "75%".toList,
          some ⟨75, 100, by decide⟩, true, Memo.empty⟩ [], c7b] :
        NamedNode GData).data.memo = Memo.empty) ∧
    ((.node "r".toList
        ⟨⟨"100%".toList, false, ⟨1, 1, by decide⟩, .percent⟩, "None".toList,
          none, true, Memo.empty⟩ [c7a, c7b, c7newc] : NamedNode GData).data.memo =
        Memo.empty) ∧
    c7rootRemoved.data = c7root.data :=
  ⟨⟨by decide, by decide, by decide⟩,
    (c7_amended.1 "r".toList c7rdata [c7a, c7b] "a".toList [] "75%".toList _ (by decide)).2,
    (c7_amended.2.1 "r".toList c7rdata [c7a, c7b] "c".toList [] c7newc _ (by decide)).2,
    (c7_amended.2.2 "r".toList c7rdata [c7a, c7b] ["b".toList] _ (by decide)).2⟩

/-! ## Claims C1, C3, C4 — persistence: parsing, loading, writing -/

/-- All decompositions `s = pre ++ [c1, c2] ++ post`, left to right. -/
def splitsPair (c1 c2 : Char) : Str → List (Str × Str)
  | a :: b :: rest =>
    (if a = c1 ∧ b = c2 then [(([] : Str), b :: rest |>.drop 1)] else []) ++
      (splitsPair c1 c2 (b :: rest)).map (fun p => (a :: p.1, p.2))
  | _ => []

theorem splitsPair_mem {c1 c2 : Char} :
    ∀ {s pre post : Str}, (pre, post) ∈ splitsPair c1 c2 s →
      s = pre ++ c1 :: c2 :: post := by
  intro s
  induction s with
  | nil => intro pre post h; cases h
  | cons a rest ih =>
    intro pre post h
    cases rest with
    | nil => cases h
    | cons b rest' =>
      unfold splitsPair at h
      rw [List.mem_append] at h
      cases h with
      | inl h1 =>
        by_cases hc : a = c1 ∧ b = c2
        · rw [if_pos hc] at h1
          simp only [List.drop_one, List.tail_cons, List.mem_singleton] at h1
          cases h1
          rw [hc.1, hc.2]
          rfl
        · rw [if_neg hc] at h1
          cases h1
      | inr h2 =>
        rw [List.mem_map] at h2
        obtain ⟨p, hp, he⟩ := h2
        have := ih hp
        cases he
        rw [List.cons_append, ← this]

/-- The name/star/indent part of the heading regex
(`(?P<indent>(__)*)(?P<name>[^*]*)(?P<extra_credit>\*?)`,
src/overunder.py:615): the trailing `*` if present, then the maximal run of
`__` pairs as the indent, the rest as the name (which must be `*`-free). -/
def headParse (pre : Str) : Option (ℕ × Str × Bool) :=
  let ec := pre.getLast? == some '*'
  let n0 := if ec then pre.dropLast else pre
  if n0.contains '*' then none
  else
    let k := (n0.takeWhile (· == '_')).length
    some (k / 2, n0.drop (2 * (k / 2)), ec)

/-- `re.fullmatch` of the heading regex (src/overunder.py:615-618): the
string must end in `)`, the weight is the segment after the last viable
` (`, with no `)` inside; the greedy name takes the latest boundary whose
head part is valid. -/
def parseHeading (s : Str) : Option (ℕ × Str × Bool × Str) :=
  match s.getLast? with
  | some ')' =>
    match ((splitsPair ' ' '(' s.dropLast).filter
        (fun p => !p.2.contains ')' && (headParse p.1).isSome)).getLast? with
    | some (pre, w) =>
      match headParse pre with
      | some (dep, nm, ec) => some (dep, nm, ec, w)
      | none => none
    | none => none
  | _ => none

/-- `Assignment.to_heading` / `__str__` (src/overunder.py:186-189, 281-283):
`depth * '__' + name + ('*' if extra credit) + ' (' + weight_str + ')'`. -/
def mkHeading (dep : ℕ) (nm : Str) (ec : Bool) (ws : Str) : Str :=
  List.replicate (2 * dep) '_' ++ nm ++ (if ec then ['*'] else []) ++ ' ' :: '(' :: ws ++ [')']

theorem takeWhile_take_replicate :
    ∀ (l : Str) (j : ℕ), j ≤ (l.takeWhile (· == '_')).length →
      l.take j = List.replicate j '_' := by
  intro l
  induction l with
  | nil =>
    intro j hj
    simp only [List.takeWhile_nil, List.length_nil, Nat.le_zero] at hj
    rw [hj]
    rfl
  | cons c rest ih =>
    intro j hj
    rw [List.takeWhile_cons] at hj
    by_cases hc : (c == '_') = true
    · rw [if_pos hc] at hj
      cases j with
      | zero => rfl
      | succ j' =>
        rw [List.length_cons] at hj
        rw [List.take_succ_cons, ih j' (Nat.le_of_succ_le_succ hj), beq_iff_eq.mp hc]
        rfl
    · rw [if_neg hc] at hj
      simp only [List.length_nil, Nat.le_zero] at hj
      rw [hj]
      rfl

theorem split_by_takeWhile (l : Str) (j : ℕ)
    (hj : j ≤ (l.takeWhile (· == '_')).length) :
    l = List.replicate j '_' ++ l.drop j := by
  rw [← takeWhile_take_replicate l j hj, List.take_append_drop]

theorem headParse_reassemble {pre : Str} {dep : ℕ} {nm : Str} {ec : Bool}
    (h : headParse pre = some (dep, nm, ec)) :
    pre = List.replicate (2 * dep) '_' ++ nm ++ (if ec then ['*'] else []) := by
  unfold headParse at h
  cases hstar : (pre.getLast? == some '*') with
  | false =>
    rw [hstar] at h
    simp only [Bool.false_eq_true, if_false] at h
    by_cases hcon : pre.contains '*' = true
    · rw [if_pos hcon] at h
      cases h
    · rw [if_neg hcon] at h
      cases h
      rw [if_neg (by exact Bool.false_ne_true)]
      rw [List.append_nil]
      exact split_by_takeWhile pre _ (by
        have := Nat.div_mul_le_self ((pre.takeWhile (· == '_')).length) 2
        omega)
  | true =>
    rw [hstar] at h
    simp only [if_pos] at h
    by_cases hcon : pre.dropLast.contains '*' = true
    · rw [if_pos hcon] at h
      cases h
    · rw [if_neg hcon] at h
      cases h
      rw [beq_iff_eq] at hstar
      have hsplit : pre = pre.dropLast ++ ['*'] := by
        obtain ⟨ys, hys⟩ := List.getLast?_eq_some_iff.mp hstar
        rw [hys, List.dropLast_concat]
      rw [if_pos rfl]
      have hbase := split_by_takeWhile pre.dropLast
        (2 * ((pre.dropLast.takeWhile (· == '_')).length / 2)) (by
          have := Nat.div_mul_le_self ((pre.dropLast.takeWhile (· == '_')).length) 2
          omega)
      conv_lhs => rw [hsplit, hbase]

theorem getLast?_mem {α : Type} {l : List α} {a : α} (h : l.getLast? = some a) : a ∈ l := by
  obtain ⟨ys, hys⟩ := List.getLast?_eq_some_iff.mp h
  rw [hys]
  simp

theorem parseHeading_reassemble {s : Str} {dep : ℕ} {nm : Str} {ec : Bool} {w : Str}
    (h : parseHeading s = some (dep, nm, ec, w)) :
    s = mkHeading dep nm ec w := by
  unfold parseHeading at h
  split at h
  next hlast =>
    split at h
    next pre w2 hcands =>
      split at h
      next dep2 nm2 ec2 hhp =>
        cases h
        have hmem := getLast?_mem hcands
        rw [List.mem_filter] at hmem
        have hdec := splitsPair_mem hmem.1
        have hpre := headParse_reassemble hhp
        have hs : s = s.dropLast ++ [')'] := by
          obtain ⟨ys, hys⟩ := List.getLast?_eq_some_iff.mp hlast
          rw [hys, List.dropLast_concat]
        rw [hs, hdec, hpre]
        unfold mkHeading
        simp only [List.append_assoc, List.cons_append, List.nil_append]
      next => cases h
    next => cases h
  next => cases h

/-- `re.fullmatch` of the student regex
`(?P<last_name>[^,]*), (?P<first_name>.*) <(?P<email>[^>]*)>`
(src/overunder.py:635): the email is the segment after the last ` <` with
no `>` inside, the last name is the comma-free prefix before the first
`, `, the first name the rest.  Returns `(first, last, email)`. -/
def parseStudent (s : Str) : Option (Str × Str × Str) :=
  match s.getLast? with
  | some '>' =>
    match ((splitsPair ' ' '<' s.dropLast).filter
        (fun p => !p.2.contains '>')).getLast? with
    | some (pre, em) =>
      match pre.drop (pre.takeWhile (· ≠ ',')).length with
      | ',' :: ' ' :: firstN => some (firstN, pre.takeWhile (· ≠ ','), em)
      | _ => none
    | none => none
  | _ => none

/-- `Student.__str__` (src/overunder.py:577-579):
`f'{last_name}, {first_name} <{email}>'`. -/
def mkStudentStr (first lastN em : Str) : Str :=
  lastN ++ ',' :: ' ' :: first ++ ' ' :: '<' :: em ++ ['>']

theorem parseStudent_reassemble {s : Str} {first lastN em : Str}
    (h : parseStudent s = some (first, lastN, em)) :
    s = mkStudentStr first lastN em := by
  unfold parseStudent at h
  split at h
  next hlast =>
    split at h
    next pre em2 hcands =>
      split at h
      next firstN hdrop =>
        cases h
        have hmem := getLast?_mem hcands
        rw [List.mem_filter] at hmem
        have hdec := splitsPair_mem hmem.1
        have hs : s = s.dropLast ++ ['>'] := by
          obtain ⟨ys, hys⟩ := List.getLast?_eq_some_iff.mp hlast
          rw [hys, List.dropLast_concat]
        have htake : pre.takeWhile (· ≠ ',') = pre.take (pre.takeWhile (· ≠ ',')).length :=
          List.prefix_iff_eq_take.mp (List.takeWhile_prefix _)
        have hpre : pre = (pre.takeWhile (· ≠ ',')) ++ ',' :: ' ' :: first := by
          conv_lhs => rw [← List.take_append_drop ((pre.takeWhile (· ≠ ',')).length) pre]
          rw [← htake, hdrop]
        rw [hs, hdec]
        conv_lhs => rw [hpre]
        unfold mkStudentStr
        simp only [List.append_assoc, List.cons_append, List.nil_append]
      next => cases h
    next => cases h
  next => cases h

theorem preorderDL_append {α : Type} (d : ℕ) :
    ∀ (a b : List (NamedNode α)),
      preorderDL d (a ++ b) = preorderDL d a ++ preorderDL d b := by
  intro a
  induction a with
  | nil => intro b; rfl
  | cons c rest ih =>
    intro b
    show preorderD d c ++ preorderDL d (rest ++ b) = _
    rw [ih, ← List.append_assoc]
    rfl

/-- One frame of the `_create_assignments` / `_create_grades` stack
(src/overunder.py:613-649): a node under construction together with its
completed children so far. -/
def BFrame (α : Type) : Type := Str × α × List (NamedNode α)

/-- Collapse the top stack frame into its parent (the truncation
`stack = stack[:depth]`; the attachment itself happened at creation time in
the source, which is observationally the same).  A popped bottom frame has
no parent and is dropped, matching the re-rooting behaviour of the loop. -/
def popOne {α : Type} : List (BFrame α) → List (BFrame α)
  | (n, a, ch) :: (n', a', ch') :: rest =>
    (n', a', ch' ++ [NamedNode.node n a ch]) :: rest
  | _ => []

theorem popOne_length_lt {α : Type} (st : List (BFrame α)) (h : st ≠ []) :
    (popOne st).length < st.length := by
  cases st with
  | nil => exact absurd rfl h
  | cons f rest =>
    cases rest with
    | nil => simp [popOne]
    | cons f' rest' =>
      obtain ⟨n, a, ch⟩ := f
      obtain ⟨n', a', ch'⟩ := f'
      simp [popOne]

def popToF {α : Type} : ℕ → ℕ → List (BFrame α) → List (BFrame α)
  | 0, _, st => st
  | f + 1, k, st => if st.length ≤ k then st else popToF f k (popOne st)

def popTo {α : Type} (k : ℕ) (st : List (BFrame α)) : List (BFrame α) :=
  popToF st.length k st

def buildStep {α : Type} (st : List (BFrame α)) : (ℕ × Str × α) → List (BFrame α)
  | (d, n, a) => (n, a, []) :: popTo d st

/-- The stack-based tree construction of `_create_assignments` and
`_create_grades` (src/overunder.py:613-630, 639-649): `stack = stack[:depth]`,
attach to the new top, push; the final value is `stack[0]` (an error when
the stack is empty). -/
def buildTree {α : Type} (items : List (ℕ × Str × α)) : Option (NamedNode α) :=
  match popTo 1 (items.foldl buildStep []) with
  | [(n, a, ch)] => some (.node n a ch)
  | _ => none

def frameItems {α : Type} (d : ℕ) : BFrame α → List (ℕ × Str × α)
  | (n, a, ch) => (d, n, a) :: preorderDL (d + 1) ch

/-- The pre-order contents of the stack, bottom frame (depth `0`) first. -/
def stackItemsT {α : Type} : List (BFrame α) → List (ℕ × Str × α)
  | [] => []
  | f :: rest => stackItemsT rest ++ frameItems rest.length f

theorem popOne_stackItems {α : Type} (st : List (BFrame α)) (h : 2 ≤ st.length) :
    stackItemsT (popOne st) = stackItemsT st := by
  cases st with
  | nil => cases h
  | cons f rest =>
    cases rest with
    | nil => simp at h
    | cons f' rest' =>
      obtain ⟨n, a, ch⟩ := f
      obtain ⟨n', a', ch'⟩ := f'
      show stackItemsT rest' ++ frameItems rest'.length (n', a', ch' ++ [.node n a ch]) =
        (stackItemsT rest' ++ frameItems rest'.length (n', a', ch')) ++
          frameItems (rest'.length + 1) (n, a, ch)
      rw [List.append_assoc]
      congr 1
      show (rest'.length, n', a') :: preorderDL (rest'.length + 1) (ch' ++ [.node n a ch]) = _
      rw [preorderDL_append]
      show (rest'.length, n', a') ::
          (preorderDL (rest'.length + 1) ch' ++
            (preorderD (rest'.length + 1) (.node n a ch) ++ [])) = _
      rw [List.append_nil]
      rfl

theorem popToF_stackItems {α : Type} (k : ℕ) (hk : 1 ≤ k) :
    ∀ (f : ℕ) (st : List (BFrame α)), stackItemsT (popToF f k st) = stackItemsT st := by
  intro f
  induction f with
  | zero => intro st; rfl
  | succ f ih =>
    intro st
    show stackItemsT (if st.length ≤ k then st else popToF f k (popOne st)) = stackItemsT st
    by_cases hle : st.length ≤ k
    · rw [if_pos hle]
    · rw [if_neg hle]
      have h2 : 2 ≤ st.length := by omega
      rw [ih (popOne st), popOne_stackItems st h2]

theorem popTo_stackItems {α : Type} (k : ℕ) (hk : 1 ≤ k) :
    ∀ (n : ℕ) (st : List (BFrame α)), st.length ≤ n →
      stackItemsT (popTo k st) = stackItemsT st := by
  intro n st _
  exact popToF_stackItems k hk st.length st

theorem popOne_length_pred {α : Type} (st : List (BFrame α)) (h : 2 ≤ st.length) :
    (popOne st).length = st.length - 1 := by
  cases st with
  | nil => simp at h
  | cons f rest =>
    cases rest with
    | nil => simp at h
    | cons f2 rest2 =>
      obtain ⟨n1, a1, ch1⟩ := f
      obtain ⟨n2, a2, ch2⟩ := f2
      simp [popOne]

theorem popToF_length {α : Type} (k : ℕ) (hk : 1 ≤ k) :
    ∀ (f : ℕ) (st : List (BFrame α)), k ≤ st.length → st.length ≤ f + k →
      (popToF f k st).length = k := by
  intro f
  induction f with
  | zero =>
    intro st hks hf
    show st.length = k
    omega
  | succ f ih =>
    intro st hks hf
    show (if st.length ≤ k then st else popToF f k (popOne st)).length = k
    by_cases hle : st.length ≤ k
    · rw [if_pos hle]
      omega
    · rw [if_neg hle]
      have h2 : 2 ≤ st.length := by omega
      have hpl := popOne_length_pred st h2
      exact ih (popOne st) (by omega) (by omega)

theorem popTo_length {α : Type} (k : ℕ) (hk : 1 ≤ k) :
    ∀ (n : ℕ) (st : List (BFrame α)), st.length ≤ n → k ≤ st.length →
      (popTo k st).length = k := by
  intro n st _ hks
  exact popToF_length k hk st.length st hks (by omega)

/-- Wellformedness of a depth sequence after an item of depth `prev`: each
entry is at least `1` and at most one deeper than its predecessor. -/
def wfDepthsFrom {α : Type} : ℕ → List (ℕ × Str × α) → Bool
  | _, [] => true
  | prev, (d, _, _) :: rest => (1 ≤ d && d ≤ prev + 1) && wfDepthsFrom d rest

/-- A wellformed heading depth sequence: depth `0` first, then increments
of at most one and never back to `0` (no re-rooting). -/
def wfDepths {α : Type} : List (ℕ × Str × α) → Bool
  | [] => false
  | (d, _, _) :: rest => (d == 0) && wfDepthsFrom 0 rest

theorem build_loop {α : Type} :
    ∀ (rest : List (ℕ × Str × α)) (st : List (BFrame α)) (prev : ℕ),
      st.length = prev + 1 → wfDepthsFrom prev rest = true →
      stackItemsT (rest.foldl buildStep st) = stackItemsT st ++ rest ∧
      ∃ p, (rest.foldl buildStep st).length = p + 1 := by
  intro rest
  induction rest with
  | nil =>
    intro st prev hlen _
    exact ⟨(List.append_nil _).symm, prev, hlen⟩
  | cons item rest' ih =>
    intro st prev hlen hwf
    obtain ⟨d, n, a⟩ := item
    unfold wfDepthsFrom at hwf
    rw [Bool.and_eq_true, Bool.and_eq_true] at hwf
    have hd1 : 1 ≤ d := by
      have := hwf.1.1
      rw [decide_eq_true_eq] at this
      exact this
    have hd2 : d ≤ prev + 1 := by
      have := hwf.1.2
      rw [decide_eq_true_eq] at this
      exact this
    have hdlen : d ≤ st.length := by omega
    have hplen : (popTo d st).length = d := popTo_length d hd1 st.length st (le_refl _) hdlen
    have hpitems : stackItemsT (popTo d st) = stackItemsT st :=
      popTo_stackItems d hd1 st.length st (le_refl _)
    have hstep : buildStep st (d, n, a) = (n, a, []) :: popTo d st := rfl
    have hnew : stackItemsT ((n, a, []) :: popTo d st) = stackItemsT st ++ [(d, n, a)] := by
      show stackItemsT (popTo d st) ++ frameItems (popTo d st).length (n, a, []) = _
      rw [hpitems, hplen]
      rfl
    rw [List.foldl_cons, hstep]
    obtain ⟨hitems, hex⟩ := ih ((n, a, []) :: popTo d st) d (by simp [hplen]) hwf.2
    rw [hitems, hnew, List.append_assoc]
    exact ⟨rfl, hex⟩

/-- Core correctness of the stack construction: on a wellformed depth
sequence it succeeds and its pre-order traversal, with depths, is exactly
the input sequence. -/
theorem buildTree_preorder {α : Type} (items : List (ℕ × Str × α))
    (hwf : wfDepths items = true) :
    ∃ t, buildTree items = some t ∧ preorderD 0 t = items := by
  cases items with
  | nil => cases hwf
  | cons item rest =>
    obtain ⟨d, n, a⟩ := item
    unfold wfDepths at hwf
    rw [Bool.and_eq_true, beq_iff_eq] at hwf
    have hd0 : d = 0 := hwf.1
    subst hd0
    have hstep : buildStep ([] : List (BFrame α)) (0, n, a) = [(n, a, [])] := by
      show (n, a, []) :: popTo 0 [] = [(n, a, [])]
      rfl
    obtain ⟨hitems, p, hplen⟩ := build_loop rest [(n, a, [])] 0 (by simp) hwf.2
    unfold buildTree
    rw [List.foldl_cons, hstep]
    have hfin_items : stackItemsT (popTo 1 (rest.foldl buildStep [(n, a, [])])) =
        stackItemsT [(n, a, [])] ++ rest := by
      rw [popTo_stackItems 1 (le_refl 1) _ _ (le_refl _), hitems]
    have hfin_len : (popTo 1 (rest.foldl buildStep [(n, a, [])])).length = 1 :=
      popTo_length 1 (le_refl 1) _ _ (le_refl _) (by omega)
    cases hfl : popTo 1 (rest.foldl buildStep [(n, a, [])]) with
    | nil => rw [hfl] at hfin_len; cases hfin_len
    | cons f frest =>
      cases frest with
      | cons f2 frest2 => rw [hfl] at hfin_len; simp at hfin_len
      | nil =>
        obtain ⟨n', a', ch⟩ := f
        refine ⟨.node n' a' ch, rfl, ?_⟩
        rw [hfl] at hfin_items
        exact hfin_items

theorem wfDepthsFrom_mono {α : Type} :
    ∀ (l : List (ℕ × Str × α)) {q q' : ℕ}, q ≤ q' →
      wfDepthsFrom q l = true → wfDepthsFrom q' l = true := by
  intro l
  cases l with
  | nil => intro q q' _ _; rfl
  | cons item rest =>
    intro q q' hq h
    obtain ⟨d, n, a⟩ := item
    unfold wfDepthsFrom at h ⊢
    rw [Bool.and_eq_true, Bool.and_eq_true] at h ⊢
    have h2 : d ≤ q + 1 := by
      have := h.1.2
      rw [decide_eq_true_eq] at this
      exact this
    exact ⟨⟨h.1.1, by rw [decide_eq_true_eq]; omega⟩, h.2⟩

theorem wfDepthsFrom_append_left {α : Type} :
    ∀ (l1 l2 : List (ℕ × Str × α)) (prev : ℕ),
      wfDepthsFrom prev (l1 ++ l2) = true → wfDepthsFrom prev l1 = true := by
  intro l1
  induction l1 with
  | nil => intro l2 prev _; rfl
  | cons item rest ih =>
    intro l2 prev h
    obtain ⟨d, n, a⟩ := item
    have h2 : (decide (1 ≤ d) && decide (d ≤ prev + 1) && wfDepthsFrom d (rest ++ l2)) =
        true := h
    show (decide (1 ≤ d) && decide (d ≤ prev + 1) && wfDepthsFrom d rest) = true
    rw [Bool.and_eq_true] at h2 ⊢
    exact ⟨h2.1, ih l2 d h2.2⟩

theorem wf_preD :
    ∀ (sz : ℕ) (t : NamedNode α), sizeOf t ≤ sz →
      ∀ (d prev : ℕ) (rest : List (ℕ × Str × α)), 1 ≤ d → d ≤ prev + 1 →
        wfDepthsFrom d rest = true →
        wfDepthsFrom prev (preorderD d t ++ rest) = true := by
  intro sz
  induction sz with
  | zero =>
    intro t ht
    exfalso
    cases t with
    | node nm dd cs => simp [NamedNode.node.sizeOf_spec] at ht
  | succ n ih =>
    intro t ht d prev rest hd1 hd2 hrest
    cases t with
    | node nm a cs =>
      show wfDepthsFrom prev ((d, nm, a) :: (preorderDL (d + 1) cs ++ rest)) = true
      unfold wfDepthsFrom
      rw [Bool.and_eq_true, Bool.and_eq_true]
      refine ⟨⟨by rw [decide_eq_true_eq]; omega, by rw [decide_eq_true_eq]; omega⟩, ?_⟩
      have hsz : ∀ x ∈ cs, sizeOf x ≤ n := by
        intro x hx
        have h1 : sizeOf x < sizeOf cs := List.sizeOf_lt_of_mem hx
        have h2 : sizeOf (NamedNode.node nm a cs) = 1 + sizeOf nm + sizeOf a + sizeOf cs := by
          simp [NamedNode.node.sizeOf_spec]
        omega
      have hlist : ∀ (cs2 : List (NamedNode α)), (∀ x ∈ cs2, sizeOf x ≤ n) →
          ∀ (r : List (ℕ × Str × α)), wfDepthsFrom d r = true →
          wfDepthsFrom d (preorderDL (d + 1) cs2 ++ r) = true := by
        intro cs2
        induction cs2 with
        | nil => intro _ r hr; exact hr
        | cons c cs' ihl =>
          intro hsz2 r hr
          show wfDepthsFrom d ((preorderD (d + 1) c ++ preorderDL (d + 1) cs') ++ r) = true
          rw [List.append_assoc]
          refine ih c (hsz2 c (List.mem_cons_self c cs')) (d + 1) d _ (by omega) (by omega) ?_
          exact wfDepthsFrom_mono _ (by omega)
            (ihl (fun x hx => hsz2 x (List.mem_cons_of_mem c hx)) r hr)
      exact hlist cs hsz rest hrest

/-- The depth sequence of a pre-order traversal is wellformed. -/
theorem preorder_wfDepths {α : Type} (nm : Str) (a : α) (cs : List (NamedNode α)) :
    wfDepths (preorderD 0 (NamedNode.node nm a cs)) = true := by
  show ((0 == 0) && wfDepthsFrom 0 (preorderDL 1 cs)) = true
  rw [Bool.and_eq_true]
  refine ⟨rfl, ?_⟩
  have := wf_preD (sizeOf (NamedNode.node nm a cs)) (NamedNode.node nm a cs) (le_refl _)
  -- reuse the list part: fold over children with empty rest
  have hlist : ∀ (cs2 : List (NamedNode α)) (r : List (ℕ × Str × α)),
      wfDepthsFrom 0 r = true → wfDepthsFrom 0 (preorderDL 1 cs2 ++ r) = true := by
    intro cs2
    induction cs2 with
    | nil => intro r hr; exact hr
    | cons c cs' ihl =>
      intro r hr
      show wfDepthsFrom 0 ((preorderD 1 c ++ preorderDL 1 cs') ++ r) = true
      rw [List.append_assoc]
      exact wf_preD (sizeOf c) c (le_refl _) 1 0 _ (by omega) (by omega)
        (wfDepthsFrom_mono _ (by omega) (ihl r hr))
  have h2 := hlist cs [] rfl
  rw [List.append_nil] at h2
  exact h2

theorem map_fst_zip_take {α β : Type} :
    ∀ (l : List α) (m : List β),
      (l.zip m).map Prod.fst = l.take m.length := by
  intro l
  induction l with
  | nil => intro m; simp
  | cons x rest ih =>
    intro m
    cases m with
    | nil => simp
    | cons y mrest =>
      simp only [List.zip_cons_cons, List.map_cons, List.length_cons, List.take_succ_cons]
      rw [ih]

/-- `re.sub('  +', '\t', line)` (src/overunder.py:604, 607): every maximal
run of two or more spaces becomes a single tab; the fuel is the string
length, which one step always exceeds. -/
def subDSF : ℕ → Str → Str
  | 0, s => s
  | _ + 1, [] => []
  | f + 1, c :: rest =>
    if c = ' ' ∧ rest.head? = some ' ' then
      '\t' :: subDSF f (rest.dropWhile (· == ' '))
    else c :: subDSF f rest

def subDS (s : Str) : Str := subDSF s.length s

def joinTabs (cells : List Str) : Str := List.intercalate ['\t'] cells

def splitLine (line : Str) : List Str := splitOnChar '\t' (subDS (strip line))

/-- One heading cell of the first line: regex match (`assert match is not
None`) rebuilt into an `Assignment` (src/overunder.py:617-628). -/
def headingItem (cell : Str) : Res (ℕ × Str × AData) :=
  match parseHeading cell with
  | none => .err .valueError
  | some (dep, nm, ec, ws) =>
    match mkAData ws ec with
    | .err e => .err e
    | .ok a => .ok (dep, nm, a)

def headingItems : List Str → Res (List (ℕ × Str × AData))
  | [] => .ok []
  | c :: rest =>
    match headingItem c with
    | .err e => .err e
    | .ok it =>
      match headingItems rest with
      | .err e => .err e
      | .ok its => .ok (it :: its)

/-- `GradeBook._create_assignments` (src/overunder.py:613-630). -/
def _create_assignments (headings : List Str) : Res (NamedNode AData) :=
  match headingItems headings with
  | .err e => .err e
  | .ok items =>
    match buildTree items with
    | some t => .ok t
    | none => .err .keyError

/-- The net state of a fresh `AssignmentGrade` after construction and
attachment (src/overunder.py:394-415, 546-553, 448-458): the raw text is
stripped and parsed — except that a root node whose text is already
stripped takes the `set_grade` early return and is never parsed, keeping
`has_grade = False` and no parsed value. -/
def initG (a : AData) (cell : Str) (isRoot : Bool) : Res GData :=
  if isRoot ∧ cell = strip cell then .ok ⟨a, cell, none, false, Memo.empty⟩
  else
    match parse_grade_str a (strip cell) with
    | .err e => .err e
    | .ok v => .ok ⟨a, strip cell, v, v.isSome, Memo.empty⟩

def gradeItems : Bool → List ((ℕ × Str × AData) × Str) → Res (List (ℕ × Str × GData))
  | _, [] => .ok []
  | isRoot, ((d, n, a), cell) :: rest =>
    match initG a cell isRoot with
    | .err e => .err e
    | .ok g =>
      match gradeItems false rest with
      | .err e => .err e
      | .ok gs => .ok ((d, n, g) :: gs)

mutual
/-- The accumulated effect of the `_propagate` calls during construction:
every internal node ends with no parsed value, an empty cache, and
`has_grade` equal to "any child has a grade". -/
def annotateUp : NamedNode GData → NamedNode GData
  | .node n d [] => .node n d []
  | .node n d (c :: cs) =>
    .node n
      { d with
        percent_grade := none
        has_grade := (annotateUpL (c :: cs)).any (fun x => x.data.has_grade)
        memo := Memo.empty } (annotateUpL (c :: cs))
def annotateUpL : List (NamedNode GData) → List (NamedNode GData)
  | [] => []
  | c :: rest => annotateUp c :: annotateUpL rest
end

/-- `GradeBook._create_grades` (src/overunder.py:639-649): `zip` silently
truncates to the shorter of the traversal and the cell list. -/
def _create_grades (items : List (ℕ × Str × AData)) (cells : List Str) :
    Res (NamedNode GData) :=
  match gradeItems true (items.zip cells) with
  | .err e => .err e
  | .ok gitems =>
    match buildTree gitems with
    | some t => .ok (annotateUp t)
    | none => .err .keyError

def loadRow (items : List (ℕ × Str × AData)) (line : Str) :
    Res ((Str × Str × Str) × NamedNode GData) :=
  match splitLine line with
  | [] => .err .valueError
  | sstr :: gcells =>
    match parseStudent sstr with
    | none => .err .valueError
    | some stu =>
      match _create_grades items gcells with
      | .err e => .err e
      | .ok g => .ok (stu, g)

def loadRows (items : List (ℕ × Str × AData)) :
    List Str → Res (List ((Str × Str × Str) × NamedNode GData))
  | [] => .ok []
  | line :: rest =>
    match loadRow items line with
    | .err e => .err e
    | .ok row =>
      match loadRows items rest with
      | .err e => .err e
      | .ok rows => .ok (row :: rows)

/-- `GradeBook._read_csv` (src/overunder.py:601-611) at the line level: the
first line yields the assignment tree (its first cell is dropped,
unchecked), every further line a student and a grade tree. -/
def load (fileLines : List Str) :
    Res (NamedNode AData × List ((Str × Str × Str) × NamedNode GData)) :=
  match fileLines with
  | [] => .err .keyError
  | hd :: rows =>
    match _create_assignments ((splitLine hd).drop 1) with
    | .err e => .err e
    | .ok asg =>
      match loadRows (preorderD 0 asg) rows with
      | .err e => .err e
      | .ok gs => .ok (asg, gs)

mutual
/-- The export cells of a grade subtree, in traversal order
(`AssignmentGrade.export_str`, src/overunder.py:516-523; `write_csv`,
src 693-712): a leaf exports its raw text, an internal node its formatted
minimum aggregate.  The number formatting `f'{float(x):.2%}'` is kept
abstract as `fmt`. -/
def exportT (fmt : Fraction → Str) : NamedNode GData → Res (List Str)
  | .node _ d [] => .ok [d.grade_str]
  | .node n d (c :: cs) =>
    match wgC (.node n d (c :: cs)) Pol.mn with
    | .err e => .err e
    | .ok v =>
      match exportL fmt (c :: cs) with
      | .err e => .err e
      | .ok cells => .ok (fmt v :: cells)
def exportL (fmt : Fraction → Str) : List (NamedNode GData) → Res (List Str)
  | [] => .ok []
  | c :: rest =>
    match exportT fmt c with
    | .err e => .err e
    | .ok cells =>
      match exportL fmt rest with
      | .err e => .err e
      | .ok cells' => .ok (cells ++ cells')
end

def headerLine (asg : NamedNode AData) : Str :=
  joinTabs ("Student".toList ::
    (preorderD 0 asg).map (fun it => mkHeading it.1 it.2.1 it.2.2.extra_credit
      it.2.2.weight_str))

def writeRows (fmt : Fraction → Str) :
    List ((Str × Str × Str) × NamedNode GData) → Res (List Str)
  | [] => .ok []
  | ((f, l, e), g) :: rest =>
    match exportT fmt g with
    | .err er => .err er
    | .ok cells =>
      match writeRows fmt rest with
      | .err er => .err er
      | .ok lines => .ok (joinTabs (mkStudentStr f l e :: cells) :: lines)

/-- `GradeBook.write_csv` (src/overunder.py:693-712) at the line level. -/
def writeLines (fmt : Fraction → Str) (asg : NamedNode AData)
    (rows : List ((Str × Str × Str) × NamedNode GData)) : Res (List Str) :=
  match writeRows fmt rows with
  | .err e => .err e
  | .ok lines => .ok (headerLine asg :: lines)

theorem gradeItems_shape :
    ∀ (b : Bool) (z : List ((ℕ × Str × AData) × Str)) (gs : List (ℕ × Str × GData)),
      gradeItems b z = .ok gs → gs.map Prod.fst = z.map (fun p => p.1.1) := by
  intro b z
  induction z generalizing b with
  | nil =>
    intro gs h
    cases h
    rfl
  | cons p rest ih =>
    intro gs h
    obtain ⟨⟨d, n, a⟩, cell⟩ := p
    unfold gradeItems at h
    cases hI : initG a cell b with
    | err e => rw [hI] at h; cases h
    | ok g =>
      rw [hI] at h
      cases hR : gradeItems false rest with
      | err e => rw [hR] at h; cases h
      | ok gs2 =>
        rw [hR] at h
        cases h
        simp only [List.map_cons]
        rw [ih false gs2 hR]

theorem wfDepthsFrom_of_map {α β : Type} :
    ∀ (l : List (ℕ × Str × α)) (l2 : List (ℕ × Str × β)),
      l.map Prod.fst = l2.map Prod.fst →
      ∀ prev, wfDepthsFrom prev l = wfDepthsFrom prev l2 := by
  intro l
  induction l with
  | nil =>
    intro l2 h prev
    cases l2 with
    | nil => rfl
    | cons q r => cases h
  | cons p rest ih =>
    intro l2 h prev
    cases l2 with
    | nil => cases h
    | cons q r =>
      obtain ⟨d, n, a⟩ := p
      obtain ⟨d2, n2, a2⟩ := q
      simp only [List.map_cons, List.cons.injEq] at h
      have hd : d = d2 := h.1
      subst hd
      show (decide (1 ≤ d) && decide (d ≤ prev + 1) && wfDepthsFrom d rest) =
        (decide (1 ≤ d) && decide (d ≤ prev + 1) && wfDepthsFrom d r)
      rw [ih r h.2 d]

theorem wfDepths_of_map {α β : Type} :
    ∀ (l : List (ℕ × Str × α)) (l2 : List (ℕ × Str × β)),
      l.map Prod.fst = l2.map Prod.fst → wfDepths l = wfDepths l2 := by
  intro l l2 h
  cases l with
  | nil =>
    cases l2 with
    | nil => rfl
    | cons q r => cases h
  | cons p rest =>
    cases l2 with
    | nil => cases h
    | cons q r =>
      obtain ⟨d, n, a⟩ := p
      obtain ⟨d2, n2, a2⟩ := q
      simp only [List.map_cons, List.cons.injEq] at h
      have hd : d = d2 := h.1
      subst hd
      show ((d == 0) && wfDepthsFrom 0 rest) = ((d == 0) && wfDepthsFrom 0 r)
      rw [wfDepthsFrom_of_map rest r h.2 0]

theorem wfDepths_take {α : Type} (l : List (ℕ × Str × α)) (k : ℕ) (hk : 1 ≤ k)
    (h : wfDepths l = true) : wfDepths (l.take k) = true := by
  cases l with
  | nil => cases h
  | cons p rest =>
    obtain ⟨d, n, a⟩ := p
    cases k with
    | zero => omega
    | succ k2 =>
      rw [List.take_succ_cons]
      show ((d == 0) && wfDepthsFrom 0 (rest.take k2)) = true
      have h2 : ((d == 0) && wfDepthsFrom 0 rest) = true := h
      rw [Bool.and_eq_true] at h2 ⊢
      refine ⟨h2.1, ?_⟩
      have hsplit : rest = rest.take k2 ++ rest.drop k2 := (List.take_append_drop k2 rest).symm
      rw [hsplit] at h2
      exact wfDepthsFrom_append_left _ _ _ h2.2

theorem annotateUp_length :
    ∀ (n : ℕ) (t : NamedNode GData), sizeOf t ≤ n →
      ∀ d, (preorderD d (annotateUp t)).length = (preorderD d t).length := by
  intro n
  induction n with
  | zero =>
    intro t ht
    exfalso
    cases t with
    | node nm dd cs => simp [NamedNode.node.sizeOf_spec] at ht
  | succ n ih =>
    intro t ht d
    cases t with
    | node nm dd cs =>
      have hsz : ∀ x ∈ cs, sizeOf x ≤ n := by
        intro x hx
        have h1 : sizeOf x < sizeOf cs := List.sizeOf_lt_of_mem hx
        have h2 : sizeOf (NamedNode.node nm dd cs) = 1 + sizeOf nm + sizeOf dd + sizeOf cs := by
          simp [NamedNode.node.sizeOf_spec]
        omega
      cases cs with
      | nil => rfl
      | cons c cs2 =>
        show ((d, nm, _) :: preorderDL (d + 1) (annotateUpL (c :: cs2))).length =
          ((d, nm, dd) :: preorderDL (d + 1) (c :: cs2)).length
        simp only [List.length_cons]
        have hl : ∀ (l : List (NamedNode GData)), (∀ x ∈ l, sizeOf x ≤ n) →
            ∀ d2, (preorderDL d2 (annotateUpL l)).length = (preorderDL d2 l).length := by
          intro l
          induction l with
          | nil => intro _ _; rfl
          | cons y ys ihl =>
            intro hsz2 d2
            show (preorderD d2 (annotateUp y) ++ preorderDL d2 (annotateUpL ys)).length =
              (preorderD d2 y ++ preorderDL d2 ys).length
            rw [List.length_append, List.length_append,
              ih y (hsz2 y (List.mem_cons_self y ys)) d2,
              ihl (fun x hx => hsz2 x (List.mem_cons_of_mem y hx)) d2]
        rw [hl (c :: cs2) hsz (d + 1)]

instance : DecidableEq (List ((Str × Str × Str) × NamedNode GData)) := inferInstance

def c4lines : List Str :=
  ["Student\tr (100%)\t__a (1)".toList, "Doe, J <d@x>\t50%".toList]

def c4rootA : AData := ⟨"100%".toList, false, ⟨100, 100, by decide⟩, .percent⟩

def c4asg : NamedNode AData :=
  .node "r".toList c4rootA [.node "a".toList ⟨"1".toList, false, ⟨1, 1, by decide⟩, .points⟩ []]

def c4gtree : NamedNode GData :=
  .node "r".toList ⟨c4rootA, "50%".toList, none, false, Memo.empty⟩ []

/-- C4, counterexample: a data row with fewer cells than the assignment
tree has nodes loads without any error — `zip` silently truncates, so the
student's grade tree ends up with one node against two assignments. -/
theorem c4_counterexample :
    load c4lines = .ok (c4asg, [(("J".toList, "Doe".toList, "d@x".toList), c4gtree)]) ∧
    (preorderD 0 c4asg).length = 2 ∧ (preorderD 0 c4gtree).length = 1 := by
  refine ⟨by decide, by decide, by decide⟩

/-- C4 (amended): `load` validates cell *syntax* but never cell *counts*.
A malformed heading cell or grade cell (with the first row of zipped pairs)
fails the load with the corresponding parse error; but a row whose cell
count differs from the node count is accepted, `zip` truncating the pairs,
and the grade tree silently gets `min(nodes, cells)` nodes. -/
theorem c4_amended :
    (∀ (asg : NamedNode AData) (cells : List Str) (gitems : List (ℕ × Str × GData)),
      gradeItems true ((preorderD 0 asg).zip cells) = .ok gitems → cells ≠ [] →
      ∃ g, _create_grades (preorderD 0 asg) cells = .ok g ∧
        (preorderD 0 g).length = min (preorderD 0 asg).length cells.length) ∧
    (∀ (items : List (ℕ × Str × AData)) (cells : List Str) (e : PErr),
      gradeItems true (items.zip cells) = .err e → _create_grades items cells = .err e) ∧
    (∀ (hs : List Str) (e : PErr),
      headingItems hs = .err e → _create_assignments hs = .err e) := by
  refine ⟨?_, ?_, ?_⟩
  · intro asg cells gitems hgi hcne
    cases asg with
    | node nm a cs =>
      have hmap : gitems.map Prod.fst =
          ((preorderD 0 (NamedNode.node nm a cs)).take cells.length).map Prod.fst := by
        rw [gradeItems_shape true _ gitems hgi, ← map_fst_zip_take]
        rw [List.map_map]
        rfl
      have hck : 1 ≤ cells.length := by
        cases cells with
        | nil => exact absurd rfl hcne
        | cons c cr => simp
      have hwftake : wfDepths ((preorderD 0 (NamedNode.node nm a cs)).take cells.length) =
          true := wfDepths_take _ _ hck (preorder_wfDepths nm a cs)
      have hwfg : wfDepths gitems = true := by
        rw [wfDepths_of_map gitems _ hmap]
        exact hwftake
      obtain ⟨t, hbt, hpre⟩ := buildTree_preorder gitems hwfg
      refine ⟨annotateUp t, ?_, ?_⟩
      · unfold _create_grades
        rw [hgi]
        show (match buildTree gitems with
          | some t => Res.ok (annotateUp t)
          | none => Res.err PErr.keyError) = Res.ok (annotateUp t)
        rw [hbt]
      · rw [annotateUp_length (sizeOf t) t (le_refl _) 0, hpre]
        have hlz : gitems.length = ((preorderD 0 (NamedNode.node nm a cs)).zip cells).length := by
          have := congrArg List.length (gradeItems_shape true _ gitems hgi)
          simpa using this
        rw [hlz, List.length_zip]
  · intro items cells e h
    unfold _create_grades
    rw [h]
  · intro hs e h
    unfold _create_assignments
    rw [h]

theorem c4_amended_witness :
    (gradeItems true ((preorderD 0 c4asg).zip ["50%".toList]) =
        .ok [(0, "r".toList, (⟨c4rootA, "50%".toList, none, false, Memo.empty⟩ : GData))] ∧
      (["50%".toList] : List Str) ≠ [] ∧
      gradeItems true ((preorderD 0 c4asg).zip ["50%".toList, "bogus!".toList]) = .err .valueError ∧
      headingItems ["oops".toList] = .err .valueError) ∧
    (∃ g, _create_grades (preorderD 0 c4asg) ["50%".toList] = .ok g ∧
      (preorderD 0 g).length = min (preorderD 0 c4asg).length 1) ∧
    _create_grades (preorderD 0 c4asg) ["50%".toList, "bogus!".toList] = .err .valueError ∧
    _create_assignments ["oops".toList] = .err .valueError :=
  ⟨⟨by decide, by decide, by decide, by decide⟩,
    c4_amended.1 c4asg ["50%".toList]
      [(0, "r".toList, ⟨c4rootA, "50%".toList, none, false, Memo.empty⟩)]
      (by decide) (by decide),
    c4_amended.2.1 (preorderD 0 c4asg) ["50%".toList, "bogus!".toList] .valueError (by decide),
    c4_amended.2.2 ["oops".toList] .valueError (by decide)⟩

theorem preorderD_head_depth {α : Type} (d : ℕ) (t : NamedNode α) :
    ∃ n a rest, preorderD d t = (d, n, a) :: rest := by
  cases t with
  | node nm a cs => exact ⟨nm, a, preorderDL (d + 1) cs, rfl⟩

theorem preorderD_tail_deep {α : Type} :
    ∀ (sz : ℕ) (t : NamedNode α), sizeOf t ≤ sz → ∀ (d : ℕ),
      ∀ it ∈ (preorderD d t).tail, d + 1 ≤ it.1 := by
  intro sz
  induction sz with
  | zero =>
    intro t ht
    exfalso
    cases t with
    | node nm a cs => simp [NamedNode.node.sizeOf_spec] at ht
  | succ n ih =>
    intro t ht d it hit
    cases t with
    | node nm a cs =>
      have hsz : ∀ x ∈ cs, sizeOf x ≤ n := by
        intro x hx
        have h1 : sizeOf x < sizeOf cs := List.sizeOf_lt_of_mem hx
        have h2 : sizeOf (NamedNode.node nm a cs) = 1 + sizeOf nm + sizeOf a + sizeOf cs := by
          simp [NamedNode.node.sizeOf_spec]
        omega
      have hit2 : it ∈ preorderDL (d + 1) cs := hit
      have hlist : ∀ (l : List (NamedNode α)), (∀ x ∈ l, sizeOf x ≤ n) →
          ∀ it2 ∈ preorderDL (d + 1) l, d + 1 ≤ it2.1 := by
        intro l
        induction l with
        | nil => intro _ it2 hit3; cases hit3
        | cons c cs2 ihl =>
          intro hsz2 it2 hit3
          have hit4 : it2 ∈ preorderD (d + 1) c ++ preorderDL (d + 1) cs2 := hit3
          rw [List.mem_append] at hit4
          cases hit4 with
          | inl hin =>
            obtain ⟨n2, a2, rest2, hpre⟩ := preorderD_head_depth (d + 1) c
            rw [hpre] at hin
            cases hin with
            | head => exact le_refl _
            | tail _ hin2 =>
              have := ih c (hsz2 c (List.mem_cons_self c cs2)) (d + 1) it2 (by
                rw [hpre]
                exact hin2)
              omega
          | inr hin => exact ihl (fun x hx => hsz2 x (List.mem_cons_of_mem c hx)) it2 hin
      exact hlist cs hsz it hit2

theorem append_split_unique {α : Type} (d : ℕ) :
    ∀ (A1 A2 B1 B2 : List (ℕ × Str × α)),
      (∀ it ∈ A1, d + 1 ≤ it.1) → (∀ it ∈ A2, d + 1 ≤ it.1) →
      (∀ it ∈ B1.head?, it.1 = d) → (∀ it ∈ B2.head?, it.1 = d) →
      A1 ++ B1 = A2 ++ B2 → A1 = A2 ∧ B1 = B2 := by
  intro A1
  induction A1 with
  | nil =>
    intro A2 B1 B2 _ hA2 hB1 _ h
    cases A2 with
    | nil => exact ⟨rfl, h⟩
    | cons y A2' =>
      exfalso
      rw [List.nil_append, List.cons_append] at h
      have hy := hA2 y (List.mem_cons_self y A2')
      have : B1.head? = some y := by rw [h]; rfl
      have := hB1 y (by rw [this]; rfl)
      omega
  | cons x A1' ih =>
    intro A2 B1 B2 hA1 hA2 hB1 hB2 h
    cases A2 with
    | nil =>
      exfalso
      rw [List.nil_append, List.cons_append] at h
      have hx := hA1 x (List.mem_cons_self x A1')
      have : B2.head? = some x := by rw [← h]; rfl
      have := hB2 x (by rw [this]; rfl)
      omega
    | cons y A2' =>
      rw [List.cons_append, List.cons_append] at h
      injection h with h1 h2
      subst h1
      obtain ⟨hA, hB⟩ := ih A2' B1 B2
        (fun it hit => hA1 it (List.mem_cons_of_mem x hit))
        (fun it hit => hA2 it (List.mem_cons_of_mem x hit)) hB1 hB2 h2
      exact ⟨by rw [hA], hB⟩

theorem preorderDL_head_depth {α : Type} (d : ℕ) (l : List (NamedNode α)) :
    ∀ it ∈ (preorderDL d l).head?, it.1 = d := by
  cases l with
  | nil => intro it hit; cases hit
  | cons c rest =>
    intro it hit
    obtain ⟨n, a, r, hpre⟩ := preorderD_head_depth d c
    have : preorderDL d (c :: rest) = (d, n, a) :: (r ++ preorderDL d rest) := by
      show preorderD d c ++ preorderDL d rest = _
      rw [hpre]
      rfl
    rw [this] at hit
    cases hit
    rfl

theorem preorderD_inj {α : Type} :
    ∀ (sz : ℕ) (t1 : NamedNode α), sizeOf t1 ≤ sz →
      ∀ (t2 : NamedNode α) (d : ℕ), preorderD d t1 = preorderD d t2 → t1 = t2 := by
  intro sz
  induction sz with
  | zero =>
    intro t1 ht
    exfalso
    cases t1 with
    | node nm a cs => simp [NamedNode.node.sizeOf_spec] at ht
  | succ n ih =>
    intro t1 ht t2 d h
    cases t1 with
    | node nm1 a1 cs1 =>
      cases t2 with
      | node nm2 a2 cs2 =>
        have h2 : (d, nm1, a1) :: preorderDL (d + 1) cs1 =
            (d, nm2, a2) :: preorderDL (d + 1) cs2 := h
        injection h2 with hh ht2
        injection hh with _ hh2
        injection hh2 with hnm ha
        subst hnm
        subst ha
        have hsz : ∀ x ∈ cs1, sizeOf x ≤ n := by
          intro x hx
          have h1 : sizeOf x < sizeOf cs1 := List.sizeOf_lt_of_mem hx
          have h3 : sizeOf (NamedNode.node nm1 a1 cs1) = 1 + sizeOf nm1 + sizeOf a1
              + sizeOf cs1 := by simp [NamedNode.node.sizeOf_spec]
          omega
        have hlist : ∀ (l1 : List (NamedNode α)), (∀ x ∈ l1, sizeOf x ≤ n) →
            ∀ (l2 : List (NamedNode α)) (d2 : ℕ),
              preorderDL d2 l1 = preorderDL d2 l2 → l1 = l2 := by
          intro l1
          induction l1 with
          | nil =>
            intro _ l2 d2 hh
            cases l2 with
            | nil => rfl
            | cons c2 r2 =>
              exfalso
              obtain ⟨n2, a2', rr, hpre⟩ := preorderD_head_depth d2 c2
              have e2 : preorderDL d2 (c2 :: r2) = (d2, n2, a2') :: (rr ++ preorderDL d2 r2) := by
                show preorderD d2 c2 ++ preorderDL d2 r2 = _
                rw [hpre]
                rfl
              have hx : ([] : List (ℕ × Str × α)) = (d2, n2, a2') :: (rr ++ preorderDL d2 r2) := by
                rw [← e2]
                exact hh
              cases hx
          | cons c1 r1 ihl =>
            intro hsz1 l2 d2 hh
            cases l2 with
            | nil =>
              exfalso
              obtain ⟨n2, a2', rr, hpre⟩ := preorderD_head_depth d2 c1
              have e1 : preorderDL d2 (c1 :: r1) = (d2, n2, a2') :: (rr ++ preorderDL d2 r1) := by
                show preorderD d2 c1 ++ preorderDL d2 r1 = _
                rw [hpre]
                rfl
              have hx : (d2, n2, a2') :: (rr ++ preorderDL d2 r1) = ([] : List (ℕ × Str × α)) := by
                rw [← e1]
                exact hh
              cases hx
            | cons c2 r2 =>
              obtain ⟨n1', a1', t1', hpre1⟩ := preorderD_head_depth d2 c1
              obtain ⟨n2', a2', t2', hpre2⟩ := preorderD_head_depth d2 c2
              have hh2 : (d2, n1', a1') :: (t1' ++ preorderDL d2 r1) =
                  (d2, n2', a2') :: (t2' ++ preorderDL d2 r2) := by
                have e1 : preorderDL d2 (c1 :: r1) = (d2, n1', a1') ::
                    (t1' ++ preorderDL d2 r1) := by
                  show preorderD d2 c1 ++ preorderDL d2 r1 = _
                  rw [hpre1]
                  rfl
                have e2 : preorderDL d2 (c2 :: r2) = (d2, n2', a2') ::
                    (t2' ++ preorderDL d2 r2) := by
                  show preorderD d2 c2 ++ preorderDL d2 r2 = _
                  rw [hpre2]
                  rfl
                rw [← e1, ← e2]
                exact hh
              injection hh2 with hhh httt
              injection hhh with _ hhh2
              injection hhh2 with hn ha2
              have hd1 : ∀ it ∈ t1', d2 + 1 ≤ it.1 := by
                intro it hit
                exact preorderD_tail_deep (sizeOf c1) c1 (le_refl _) d2 it (by
                  rw [hpre1]
                  exact hit)
              have hd2 : ∀ it ∈ t2', d2 + 1 ≤ it.1 := by
                intro it hit
                exact preorderD_tail_deep (sizeOf c2) c2 (le_refl _) d2 it (by
                  rw [hpre2]
                  exact hit)
              obtain ⟨hts, hbs⟩ := append_split_unique d2 t1' t2' (preorderDL d2 r1)
                (preorderDL d2 r2) hd1 hd2 (preorderDL_head_depth d2 r1)
                (preorderDL_head_depth d2 r2) httt
              have hc : c1 = c2 := by
                refine ih c1 (hsz1 c1 (List.mem_cons_self c1 r1)) c2 d2 ?_
                rw [hpre1, hpre2, hn, ha2, hts]
              have hr : r1 = r2 :=
                ihl (fun x hx => hsz1 x (List.mem_cons_of_mem c1 hx)) r2 d2 (by
                  rw [hbs])
              rw [hc, hr]
        have := hlist cs1 hsz cs2 (d + 1) ht2
        rw [this]

/-- No two consecutive spaces, so the `re.sub('  +', '\t', ·)` substitution
(src/overunder.py:604, 607) is the identity. -/
def noDS : Str → Bool
  | a :: b :: rest => !(a == ' ' && b == ' ') && noDS (b :: rest)
  | _ => true

theorem noDS_cons2 (a b : Char) (rest : Str) :
    noDS (a :: b :: rest) = (!(a == ' ' && b == ' ') && noDS (b :: rest)) := rfl

theorem noDS_tail {a : Char} {s : Str} (h : noDS (a :: s) = true) : noDS s = true := by
  cases s with
  | nil => rfl
  | cons b rest =>
    rw [noDS_cons2, Bool.and_eq_true] at h
    exact h.2

theorem subDSF_noDS : ∀ (f : ℕ) (s : Str), noDS s = true → subDSF f s = s := by
  intro f
  induction f with
  | zero => intro s _; rfl
  | succ f ih =>
    intro s h
    cases s with
    | nil => rfl
    | cons c rest =>
      have hcond : ¬(c = ' ' ∧ rest.head? = some ' ') := by
        rintro ⟨hc, hr⟩
        cases rest with
        | nil => cases hr
        | cons b r2 =>
          rw [List.head?_cons] at hr
          injection hr with hb
          rw [noDS_cons2, Bool.and_eq_true] at h
          rw [hc, hb] at h
          simp at h
      show (if c = ' ' ∧ rest.head? = some ' ' then _ else c :: subDSF f rest) = _
      rw [if_neg hcond, ih rest (noDS_tail h)]

theorem subDS_noDS {s : Str} (h : noDS s = true) : subDS s = s :=
  subDSF_noDS s.length s h

theorem dropWhile_head_neg {p : Char → Bool} {s : Str}
    (h : ∀ c ∈ s.head?, p c = false) : s.dropWhile p = s := by
  cases s with
  | nil => rfl
  | cons a rest =>
    have ha := h a (by rw [List.head?_cons]; rfl)
    simp [List.dropWhile_cons, ha]

theorem strip_of_clean {s : Str} (h1 : ∀ c ∈ s.head?, isSpaceChar c = false)
    (h2 : ∀ c ∈ s.getLast?, isSpaceChar c = false) : strip s = s := by
  unfold strip
  rw [dropWhile_head_neg h1]
  rw [dropWhile_head_neg (by
    intro c hc
    rw [List.head?_reverse] at hc
    exact h2 c hc)]
  exact List.reverse_reverse s

theorem clean_of_strip : ∀ {s : Str}, strip s = s →
    (∀ c ∈ s.head?, isSpaceChar c = false) ∧ (∀ c ∈ s.getLast?, isSpaceChar c = false) := by
  intro s h
  cases s with
  | nil =>
    constructor
    · intro c hc
      cases hc
    · intro c hc
      cases hc
  | cons a rest =>
    have hlen := congrArg List.length h
    have hstriplen : ∀ (t : Str), (strip t).length ≤ t.length := by
      intro t
      unfold strip
      have h1 : (t.dropWhile isSpaceChar).length ≤ t.length :=
        (List.dropWhile_suffix isSpaceChar).length_le
      have h2 : ((t.dropWhile isSpaceChar).reverse.dropWhile isSpaceChar).length ≤
          (t.dropWhile isSpaceChar).reverse.length :=
        (List.dropWhile_suffix isSpaceChar).length_le
      rw [List.length_reverse] at h2 ⊢
      omega
    have hhead : isSpaceChar a = false := by
      by_cases ha : isSpaceChar a = true
      · exfalso
        have : strip (a :: rest) = strip rest := by
          unfold strip
          rw [List.dropWhile_cons, if_pos ha]
        rw [this] at hlen
        have := hstriplen rest
        rw [List.length_cons] at hlen
        omega
      · exact Bool.eq_false_iff.mpr ha
    have hdrop : (a :: rest).dropWhile isSpaceChar = a :: rest := by
      simp [List.dropWhile_cons, hhead]
    have hlast : ∀ c ∈ (a :: rest).getLast?, isSpaceChar c = false := by
      intro c hc
      by_cases hcs : isSpaceChar c = true
      · exfalso
        have hrev : (a :: rest).reverse.head? = some c := by
          rw [List.head?_reverse]
          exact hc
        have : strip (a :: rest) = ((a :: rest).reverse.dropWhile isSpaceChar).reverse := by
          unfold strip
          rw [hdrop]
        rw [this] at hlen
        obtain ⟨r2, hr2⟩ : ∃ r2, (a :: rest).reverse = c :: r2 := by
          cases hx : (a :: rest).reverse with
          | nil => rw [hx] at hrev; cases hrev
          | cons z zs =>
            rw [hx, List.head?_cons] at hrev
            injection hrev with hz
            exact ⟨zs, by rw [hz]⟩
        rw [hr2, List.dropWhile_cons, if_pos hcs] at hlen
        have h3 : (r2.dropWhile isSpaceChar).length ≤ r2.length :=
          (List.dropWhile_suffix isSpaceChar).length_le
        have h4 : (a :: rest).reverse.length = (a :: rest).length := List.length_reverse _
        rw [hr2, List.length_cons] at h4
        rw [List.length_reverse] at hlen
        omega
      · exact Bool.eq_false_iff.mpr hcs
    refine ⟨?_, hlast⟩
    intro c hc
    rw [List.head?_cons] at hc
    injection hc with hc2
    rw [← hc2]
    exact hhead

theorem joinTabs_nil : joinTabs [] = [] := rfl

theorem joinTabs_single (c : Str) : joinTabs [c] = c := by
  simp [joinTabs, List.intercalate]

theorem joinTabs_cons2 (a b : Str) (l : List Str) :
    joinTabs (a :: b :: l) = a ++ '\t' :: joinTabs (b :: l) := by
  simp [joinTabs, List.intercalate, List.intersperse]

theorem splitOnChar_ne_nil (c : Char) : ∀ (s : Str), splitOnChar c s ≠ [] := by
  intro s
  cases s with
  | nil => exact fun h => List.noConfusion h
  | cons x xs =>
    unfold splitOnChar
    by_cases hx : x = c
    · rw [if_pos hx]
      exact fun h => List.noConfusion h
    · rw [if_neg hx]
      cases splitOnChar c xs with
      | nil => exact fun h => List.noConfusion h
      | cons y ys => exact fun h => List.noConfusion h

theorem joinTabs_cons_cons (x : Char) (y : Str) (ys : List Str) :
    joinTabs ((x :: y) :: ys) = x :: joinTabs (y :: ys) := by
  cases ys with
  | nil => rw [joinTabs_single, joinTabs_single]
  | cons z zs =>
    rw [joinTabs_cons2, joinTabs_cons2]
    rfl

theorem joinTabs_splitOnChar : ∀ (s : Str), joinTabs (splitOnChar '\t' s) = s := by
  intro s
  induction s with
  | nil => rfl
  | cons x xs ih =>
    unfold splitOnChar
    by_cases hx : x = '\t'
    · rw [if_pos hx]
      obtain ⟨y, ys, hys⟩ : ∃ y ys, splitOnChar '\t' xs = y :: ys := by
        cases hsp : splitOnChar '\t' xs with
        | nil => exact absurd hsp (splitOnChar_ne_nil '\t' xs)
        | cons y ys => exact ⟨y, ys, rfl⟩
      rw [hys]
      have : joinTabs ([] :: y :: ys) = '\t' :: joinTabs (y :: ys) := by
        rw [joinTabs_cons2]
        rfl
      rw [this, ← hys, ih, hx]
    · rw [if_neg hx]
      cases hsp : splitOnChar '\t' xs with
      | nil => exact absurd hsp (splitOnChar_ne_nil '\t' xs)
      | cons y ys =>
        rw [joinTabs_cons_cons, ← hsp, ih]

theorem splitOnChar_no_tab : ∀ (y : Str), (∀ ch ∈ y, ch ≠ '\t') →
    splitOnChar '\t' y = [y] := by
  intro y
  induction y with
  | nil => intro _; rfl
  | cons a y' ih =>
    intro h
    unfold splitOnChar
    rw [if_neg (h a (List.mem_cons_self a y'))]
    rw [ih (fun ch hch => h ch (List.mem_cons_of_mem a hch))]

theorem splitOnChar_append_cons : ∀ (y : Str), (∀ ch ∈ y, ch ≠ '\t') → ∀ (rest : Str),
    splitOnChar '\t' (y ++ '\t' :: rest) = y :: splitOnChar '\t' rest := by
  intro y
  induction y with
  | nil =>
    intro _ rest
    show splitOnChar '\t' ('\t' :: rest) = _
    conv_lhs => unfold splitOnChar
    rw [if_pos rfl]
  | cons a y' ih =>
    intro h rest
    show splitOnChar '\t' (a :: (y' ++ '\t' :: rest)) = _
    conv_lhs => unfold splitOnChar
    rw [if_neg (h a (List.mem_cons_self a y'))]
    rw [ih (fun ch hch => h ch (List.mem_cons_of_mem a hch)) rest]

theorem splitOnChar_joinTabs : ∀ (cells : List Str), cells ≠ [] →
    (∀ cell ∈ cells, ∀ ch ∈ cell, ch ≠ '\t') →
    splitOnChar '\t' (joinTabs cells) = cells := by
  intro cells
  induction cells with
  | nil => intro h _; exact absurd rfl h
  | cons c rest ih =>
    intro _ hok
    cases rest with
    | nil =>
      rw [joinTabs_single]
      exact splitOnChar_no_tab c (hok c (List.mem_cons_self c []))
    | cons c2 l =>
      rw [joinTabs_cons2]
      rw [splitOnChar_append_cons c (hok c (List.mem_cons_self c (c2 :: l)))]
      rw [ih (fun h => List.noConfusion h) (fun cell hcell ch hch =>
        hok cell (List.mem_cons_of_mem c hcell) ch hch)]

theorem noDS_append_tab : ∀ (x : Str) (y : Str), noDS x = true → noDS y = true →
    noDS (x ++ '\t' :: y) = true := by
  intro x
  induction x with
  | nil =>
    intro y _ hy
    cases y with
    | nil => rfl
    | cons b r =>
      rw [List.nil_append, noDS_cons2, Bool.and_eq_true]
      refine ⟨?_, hy⟩
      rw [show ('\t' == ' ') = false from rfl, Bool.false_and]
      rfl
  | cons a x' ih =>
    intro y hx hy
    have hrec := ih y (noDS_tail hx) hy
    cases x' with
    | nil =>
      rw [List.cons_append, List.nil_append, noDS_cons2, Bool.and_eq_true]
      rw [List.nil_append] at hrec
      refine ⟨?_, hrec⟩
      rw [show ('\t' == ' ') = false from rfl, Bool.and_false]
      rfl
    | cons b x2 =>
      rw [List.cons_append, List.cons_append, noDS_cons2, Bool.and_eq_true]
      constructor
      · rw [noDS_cons2, Bool.and_eq_true] at hx
        exact hx.1
      · rw [List.cons_append] at hrec
        exact hrec

theorem noDS_joinTabs : ∀ (cells : List Str), (∀ cell ∈ cells, noDS cell = true) →
    noDS (joinTabs cells) = true := by
  intro cells
  induction cells with
  | nil => intro _; rfl
  | cons c rest ih =>
    intro hok
    cases rest with
    | nil =>
      rw [joinTabs_single]
      exact hok c (List.mem_cons_self c [])
    | cons c2 l =>
      rw [joinTabs_cons2]
      exact noDS_append_tab c _ (hok c (List.mem_cons_self c (c2 :: l)))
        (ih (fun cell hcell => hok cell (List.mem_cons_of_mem c hcell)))

/-- A cell that survives the write/read cycle verbatim: nonempty, tab-free,
no double space, and stripped of boundary whitespace. -/
def cellOK (s : Str) : Bool :=
  !s.isEmpty && s.all (fun ch => decide (ch ≠ '\t')) && noDS s && decide (strip s = s)

theorem cellOK_parts {s : Str} (h : cellOK s = true) :
    s ≠ [] ∧ (∀ ch ∈ s, ch ≠ '\t') ∧ noDS s = true ∧ strip s = s := by
  unfold cellOK at h
  rw [Bool.and_eq_true, Bool.and_eq_true, Bool.and_eq_true] at h
  refine ⟨?_, ?_, h.1.2, of_decide_eq_true h.2⟩
  · intro he
    rw [he] at h
    exact Bool.noConfusion h.1.1.1
  · intro ch hch
    have := List.all_eq_true.mp h.1.1.2 ch hch
    exact of_decide_eq_true this

theorem joinTabs_head? (c : Str) (l : List Str) (hc : c ≠ []) :
    (joinTabs (c :: l)).head? = c.head? := by
  cases l with
  | nil => rw [joinTabs_single]
  | cons b l' =>
    rw [joinTabs_cons2]
    cases c with
    | nil => exact absurd rfl hc
    | cons x xs => rfl

theorem joinTabs_getLast? : ∀ (l : List Str) (c : Str), c ≠ [] →
    (joinTabs (l ++ [c])).getLast? = c.getLast? := by
  intro l
  induction l with
  | nil =>
    intro c _
    rw [List.nil_append, joinTabs_single]
  | cons a l' ih =>
    intro c hc
    have hx : ∃ z zs, l' ++ [c] = z :: zs := by
      cases l' with
      | nil => exact ⟨c, [], rfl⟩
      | cons z zs => exact ⟨z, zs ++ [c], rfl⟩
    obtain ⟨z, zs, hzzs⟩ := hx
    rw [List.cons_append, hzzs, joinTabs_cons2, ← hzzs]
    have hne : joinTabs (l' ++ [c]) ≠ [] := by
      intro hemp
      have := ih c hc
      rw [hemp] at this
      have h2 : c.getLast? = none := this.symm
      obtain ⟨y, ys, hys⟩ : ∃ y ys, c = y :: ys := by
        cases c with
        | nil => exact absurd rfl hc
        | cons y ys => exact ⟨y, ys, rfl⟩
      rw [hys] at h2
      rw [List.getLast?_eq_getLast _ (fun hh => List.noConfusion hh)] at h2
      exact Option.noConfusion h2
    rw [List.getLast?_append_cons]
    obtain ⟨y0, ys0, hys0⟩ : ∃ y0 ys0, joinTabs (l' ++ [c]) = y0 :: ys0 := by
      cases hj : joinTabs (l' ++ [c]) with
      | nil => exact absurd hj hne
      | cons y0 ys0 => exact ⟨y0, ys0, rfl⟩
    rw [hys0, List.getLast?_cons_cons, ← hys0]
    exact ih c hc

theorem splitLine_joinTabs (cells : List Str) (hne : cells ≠ [])
    (hok : ∀ cell ∈ cells, cellOK cell = true) :
    splitLine (joinTabs cells) = cells := by
  obtain ⟨c0, rest, hc0⟩ : ∃ c0 rest, cells = c0 :: rest := by
    cases cells with
    | nil => exact absurd rfl hne
    | cons c0 rest => exact ⟨c0, rest, rfl⟩
  obtain ⟨lpre, clast, hlast⟩ : ∃ lpre clast, cells = lpre ++ [clast] := by
    rcases List.eq_nil_or_concat cells with h | ⟨lpre, clast, h⟩
    · exact absurd h hne
    · exact ⟨lpre, clast, by rw [h, List.concat_eq_append]⟩
  have hc0ok := cellOK_parts (hok c0 (by rw [hc0]; exact List.mem_cons_self c0 rest))
  have hclastok := cellOK_parts (hok clast (by rw [hlast]; simp))
  have hhead : ∀ ch ∈ (joinTabs cells).head?, isSpaceChar ch = false := by
    intro ch hch
    rw [hc0, joinTabs_head? c0 rest hc0ok.1] at hch
    exact (clean_of_strip hc0ok.2.2.2).1 ch hch
  have hlastc : ∀ ch ∈ (joinTabs cells).getLast?, isSpaceChar ch = false := by
    intro ch hch
    rw [hlast, joinTabs_getLast? lpre clast hclastok.1] at hch
    exact (clean_of_strip hclastok.2.2.2).2 ch hch
  have hstrip : strip (joinTabs cells) = joinTabs cells := strip_of_clean hhead hlastc
  have hds : noDS (joinTabs cells) = true :=
    noDS_joinTabs cells (fun cell hcell => (cellOK_parts (hok cell hcell)).2.2.1)
  unfold splitLine
  rw [hstrip, subDS_noDS hds]
  exact splitOnChar_joinTabs cells hne (fun cell hcell => (cellOK_parts (hok cell hcell)).2.1)

theorem joinTabs_splitLine {line : Str} (h : subDS (strip line) = line) :
    joinTabs (splitLine line) = line := by
  unfold splitLine
  rw [joinTabs_splitOnChar, h]

mutual
/-- Data-only functorial map over a `NamedNode` tree: names and shape are
kept, the payload is transformed. -/
def mapND {α β : Type} (f : α → β) : NamedNode α → NamedNode β
  | .node n d cs => .node n (f d) (mapNDL f cs)
def mapNDL {α β : Type} (f : α → β) : List (NamedNode α) → List (NamedNode β)
  | [] => []
  | c :: rest => mapND f c :: mapNDL f rest
end

theorem mapND_node {α β : Type} (f : α → β) (n : Str) (d : α) (cs : List (NamedNode α)) :
    mapND f (.node n d cs) = .node n (f d) (mapNDL f cs) := rfl

theorem mapNDL_cons {α β : Type} (f : α → β) (c : NamedNode α) (rest : List (NamedNode α)) :
    mapNDL f (c :: rest) = mapND f c :: mapNDL f rest := rfl

theorem mapND_comp {α β γ : Type} (f : α → β) (g : β → γ) :
    ∀ (n : ℕ) (t : NamedNode α), sizeOf t ≤ n →
      mapND g (mapND f t) = mapND (fun x => g (f x)) t := by
  intro n
  induction n with
  | zero =>
    intro t ht
    exfalso
    cases t with
    | node nm a cs => simp [NamedNode.node.sizeOf_spec] at ht
  | succ n ih =>
    intro t ht
    cases t with
    | node nm a cs =>
      rw [mapND_node, mapND_node, mapND_node]
      have hsz : ∀ x ∈ cs, sizeOf x ≤ n := by
        intro x hx
        have h1 : sizeOf x < sizeOf cs := List.sizeOf_lt_of_mem hx
        have h3 : sizeOf (NamedNode.node nm a cs) = 1 + sizeOf nm + sizeOf a
            + sizeOf cs := by simp [NamedNode.node.sizeOf_spec]
        omega
      have hl : ∀ (l : List (NamedNode α)), (∀ x ∈ l, sizeOf x ≤ n) →
          mapNDL g (mapNDL f l) = mapNDL (fun x => g (f x)) l := by
        intro l
        induction l with
        | nil => intro _; rfl
        | cons c rest ihl =>
          intro hszl
          rw [mapNDL_cons, mapNDL_cons, mapNDL_cons]
          rw [ih c (hszl c (List.mem_cons_self c rest))]
          rw [ihl (fun x hx => hszl x (List.mem_cons_of_mem c hx))]
      rw [hl cs hsz]

theorem preorderD_mapND {α β : Type} (f : α → β) :
    ∀ (n : ℕ) (t : NamedNode α), sizeOf t ≤ n → ∀ (d : ℕ),
      preorderD d (mapND f t) = (preorderD d t).map (fun it => (it.1, it.2.1, f it.2.2)) := by
  intro n
  induction n with
  | zero =>
    intro t ht
    exfalso
    cases t with
    | node nm a cs => simp [NamedNode.node.sizeOf_spec] at ht
  | succ n ih =>
    intro t ht d
    cases t with
    | node nm a cs =>
      have hsz : ∀ x ∈ cs, sizeOf x ≤ n := by
        intro x hx
        have h1 : sizeOf x < sizeOf cs := List.sizeOf_lt_of_mem hx
        have h3 : sizeOf (NamedNode.node nm a cs) = 1 + sizeOf nm + sizeOf a
            + sizeOf cs := by simp [NamedNode.node.sizeOf_spec]
        omega
      have hl : ∀ (l : List (NamedNode α)), (∀ x ∈ l, sizeOf x ≤ n) → ∀ (d2 : ℕ),
          preorderDL d2 (mapNDL f l) =
            (preorderDL d2 l).map (fun it => (it.1, it.2.1, f it.2.2)) := by
        intro l
        induction l with
        | nil => intro _ d2; rfl
        | cons c rest ihl =>
          intro hszl d2
          rw [mapNDL_cons]
          show preorderD d2 (mapND f c) ++ preorderDL d2 (mapNDL f rest) = _
          rw [ih c (hszl c (List.mem_cons_self c rest)) d2]
          rw [ihl (fun x hx => hszl x (List.mem_cons_of_mem c hx)) d2]
          show _ = (preorderD d2 c ++ preorderDL d2 rest).map _
          rw [List.map_append]
      show (d, nm, f a) :: preorderDL (d + 1) (mapNDL f cs) = _
      rw [hl cs hsz (d + 1)]
      rfl

theorem annotateUp_mapND {β : Type} (f : GData → β)
    (hf : ∀ (d : GData) (b : Bool),
      f { d with percent_grade := none, has_grade := b, memo := Memo.empty } = f d) :
    ∀ (n : ℕ) (t : NamedNode GData), sizeOf t ≤ n →
      mapND f (annotateUp t) = mapND f t := by
  intro n
  induction n with
  | zero =>
    intro t ht
    exfalso
    cases t with
    | node nm a cs => simp [NamedNode.node.sizeOf_spec] at ht
  | succ n ih =>
    intro t ht
    cases t with
    | node nm a cs =>
      have hsz : ∀ x ∈ cs, sizeOf x ≤ n := by
        intro x hx
        have h1 : sizeOf x < sizeOf cs := List.sizeOf_lt_of_mem hx
        have h3 : sizeOf (NamedNode.node nm a cs) = 1 + sizeOf nm + sizeOf a
            + sizeOf cs := by simp [NamedNode.node.sizeOf_spec]
        omega
      have hl : ∀ (l : List (NamedNode GData)), (∀ x ∈ l, sizeOf x ≤ n) →
          mapNDL f (annotateUpL l) = mapNDL f l := by
        intro l
        induction l with
        | nil => intro _; rfl
        | cons c rest ihl =>
          intro hszl
          show mapND f (annotateUp c) :: mapNDL f (annotateUpL rest) = _
          rw [ih c (hszl c (List.mem_cons_self c rest))]
          rw [ihl (fun x hx => hszl x (List.mem_cons_of_mem c hx))]
          rfl
      cases cs with
      | nil => rfl
      | cons c crest =>
        show NamedNode.node nm (f _) (mapNDL f (annotateUpL (c :: crest))) = _
        rw [hl (c :: crest) hsz, hf, mapND_node]

mutual
/-- Pre-order mask marking the positions of the leaves. -/
def leafMaskT {α : Type} : NamedNode α → List Bool
  | .node _ _ [] => [true]
  | .node _ _ (c :: cs) => false :: leafMaskL (c :: cs)
def leafMaskL {α : Type} : List (NamedNode α) → List Bool
  | [] => []
  | c :: rest => leafMaskT c ++ leafMaskL rest
end

/-- Keep the entries of `xs` at the `true` positions of the mask. -/
def maskSelect {α : Type} : List Bool → List α → List α
  | b :: bs, x :: xs => (if b then [x] else []) ++ maskSelect bs xs
  | _, _ => []

mutual
/-- The leaves' payloads under `f`, in traversal order
(`NamedNode.leaves`, src/overunder.py:98-105). -/
def leafVals {α β : Type} (f : α → β) : NamedNode α → List β
  | .node _ d [] => [f d]
  | .node _ _ (c :: cs) => leafValsL f (c :: cs)
def leafValsL {α β : Type} (f : α → β) : List (NamedNode α) → List β
  | [] => []
  | c :: rest => leafVals f c ++ leafValsL f rest
end

theorem maskSelect_append {α : Type} :
    ∀ (m1 : List Bool) (x1 : List α) (m2 : List Bool) (x2 : List α),
      m1.length = x1.length →
      maskSelect (m1 ++ m2) (x1 ++ x2) = maskSelect m1 x1 ++ maskSelect m2 x2 := by
  intro m1
  induction m1 with
  | nil =>
    intro x1 m2 x2 hlen
    have : x1 = [] := by
      cases x1 with
      | nil => rfl
      | cons y ys => cases hlen
    rw [this]
    rfl
  | cons b bs ih =>
    intro x1 m2 x2 hlen
    cases x1 with
    | nil => cases hlen
    | cons y ys =>
      rw [List.cons_append, List.cons_append]
      show (if b then [y] else []) ++ maskSelect (bs ++ m2) (ys ++ x2) = _
      rw [ih ys m2 x2 (by
        rw [List.length_cons, List.length_cons] at hlen
        omega)]
      show _ = ((if b then [y] else []) ++ maskSelect bs ys) ++ maskSelect m2 x2
      rw [List.append_assoc]

theorem leafMaskT_length {α : Type} :
    ∀ (n : ℕ) (t : NamedNode α), sizeOf t ≤ n → ∀ (d : ℕ),
      (leafMaskT t).length = (preorderD d t).length := by
  intro n
  induction n with
  | zero =>
    intro t ht
    exfalso
    cases t with
    | node nm a cs => simp [NamedNode.node.sizeOf_spec] at ht
  | succ n ih =>
    intro t ht d
    cases t with
    | node nm a cs =>
      have hsz : ∀ x ∈ cs, sizeOf x ≤ n := by
        intro x hx
        have h1 : sizeOf x < sizeOf cs := List.sizeOf_lt_of_mem hx
        have h3 : sizeOf (NamedNode.node nm a cs) = 1 + sizeOf nm + sizeOf a
            + sizeOf cs := by simp [NamedNode.node.sizeOf_spec]
        omega
      have hl : ∀ (l : List (NamedNode α)), (∀ x ∈ l, sizeOf x ≤ n) → ∀ (d2 : ℕ),
          (leafMaskL l).length = (preorderDL d2 l).length := by
        intro l
        induction l with
        | nil => intro _ d2; rfl
        | cons c rest ihl =>
          intro hszl d2
          show (leafMaskT c ++ leafMaskL rest).length =
            (preorderD d2 c ++ preorderDL d2 rest).length
          rw [List.length_append, List.length_append]
          rw [ih c (hszl c (List.mem_cons_self c rest)) d2]
          rw [ihl (fun x hx => hszl x (List.mem_cons_of_mem c hx)) d2]
      cases cs with
      | nil => rfl
      | cons c crest =>
        show (false :: leafMaskL (c :: crest)).length =
          ((d, nm, a) :: preorderDL (d + 1) (c :: crest)).length
        rw [List.length_cons, List.length_cons, hl (c :: crest) hsz (d + 1)]

theorem maskSelect_preorder {α β : Type} (f : α → β) :
    ∀ (n : ℕ) (t : NamedNode α), sizeOf t ≤ n → ∀ (d : ℕ),
      maskSelect (leafMaskT t) ((preorderD d t).map (fun it => f it.2.2)) =
        leafVals f t := by
  intro n
  induction n with
  | zero =>
    intro t ht
    exfalso
    cases t with
    | node nm a cs => simp [NamedNode.node.sizeOf_spec] at ht
  | succ n ih =>
    intro t ht d
    cases t with
    | node nm a cs =>
      have hsz : ∀ x ∈ cs, sizeOf x ≤ n := by
        intro x hx
        have h1 : sizeOf x < sizeOf cs := List.sizeOf_lt_of_mem hx
        have h3 : sizeOf (NamedNode.node nm a cs) = 1 + sizeOf nm + sizeOf a
            + sizeOf cs := by simp [NamedNode.node.sizeOf_spec]
        omega
      have hl : ∀ (l : List (NamedNode α)), (∀ x ∈ l, sizeOf x ≤ n) → ∀ (d2 : ℕ),
          maskSelect (leafMaskL l) ((preorderDL d2 l).map (fun it => f it.2.2)) =
            leafValsL f l := by
        intro l
        induction l with
        | nil => intro _ d2; rfl
        | cons c rest ihl =>
          intro hszl d2
          show maskSelect (leafMaskT c ++ leafMaskL rest)
            ((preorderD d2 c ++ preorderDL d2 rest).map (fun it => f it.2.2)) =
            leafVals f c ++ leafValsL f rest
          rw [List.map_append]
          rw [maskSelect_append _ _ _ _ (by
            rw [List.length_map]
            exact leafMaskT_length (sizeOf c) c (le_refl _) d2)]
          rw [ih c (hszl c (List.mem_cons_self c rest)) d2]
          rw [ihl (fun x hx => hszl x (List.mem_cons_of_mem c hx)) d2]
      cases cs with
      | nil => rfl
      | cons c crest =>
        show maskSelect (false :: leafMaskL (c :: crest))
          (((d, nm, a) :: preorderDL (d + 1) (c :: crest)).map (fun it => f it.2.2)) = _
        rw [List.map_cons]
        show ([] : List β) ++ maskSelect (leafMaskL (c :: crest))
          ((preorderDL (d + 1) (c :: crest)).map (fun it => f it.2.2)) = _
        rw [List.nil_append, hl (c :: crest) hsz (d + 1)]
        rfl

theorem Memo.get_empty (pol : Pol) : Memo.empty.get pol = none := by
  cases pol <;> rfl

mutual
/-- Every `_weight_grade_cache` in the subtree is empty (the state of a
freshly loaded tree). -/
def memosClear : NamedNode GData → Bool
  | .node _ d cs => decide (d.memo = Memo.empty) && memosClearL cs
def memosClearL : List (NamedNode GData) → Bool
  | [] => true
  | c :: rest => memosClear c && memosClearL rest
end

theorem memosClear_node (n : Str) (d : GData) (cs : List (NamedNode GData)) :
    memosClear (.node n d cs) = (decide (d.memo = Memo.empty) && memosClearL cs) := rfl

theorem memosClearL_cons (c : NamedNode GData) (rest : List (NamedNode GData)) :
    memosClearL (c :: rest) = (memosClear c && memosClearL rest) := rfl

theorem memosClearL_mem : ∀ {l : List (NamedNode GData)}, memosClearL l = true →
    ∀ x ∈ l, memosClear x = true := by
  intro l
  induction l with
  | nil => intro _ x hx; cases hx
  | cons c rest ih =>
    intro h x hx
    rw [memosClearL_cons, Bool.and_eq_true] at h
    cases hx with
    | head => exact h.1
    | tail _ hx2 => exact ih h.2 x hx2

theorem wgC_leaf_eq (nm : Str) (d : GData) (pol : Pol) :
    wgC (.node nm d []) pol =
      (match d.memo.get pol with
       | some v => .ok v
       | none => wgLeaf d pol.dflt) := rfl

theorem wgC_cons_eq (nm : Str) (d : GData) (c : NamedNode GData) (cs : List (NamedNode GData))
    (pol : Pol) :
    wgC (.node nm d (c :: cs)) pol =
      (match d.memo.get pol with
       | some v => .ok v
       | none =>
         match wgCFold ((c :: cs).map (fun x => x.data.adata)) pol (c :: cs)
             (Fraction.ofInt 0) (Fraction.ofInt 0) with
         | .err e => .err e
         | .ok (tg, tw) =>
           .ok (if tw.beq (Fraction.ofInt 0) then Fraction.ofInt 0 else tg.div tw)) := rfl

theorem wgCFold_nil_eq (sibs : List AData) (pol : Pol) (tg tw : Fraction) :
    wgCFold sibs pol [] tg tw = .ok (tg, tw) := rfl

theorem wgCFold_cons_eq (sibs : List AData) (pol : Pol) (c : NamedNode GData)
    (rest : List (NamedNode GData)) (tg tw : Fraction) :
    wgCFold sibs pol (c :: rest) tg tw =
      (if pol.dflt.isNone && !c.data.has_grade then wgCFold sibs pol rest tg tw
       else
         match percent_weight false sibs c.data.adata with
         | .err e => .err e
         | .ok w =>
           match wgC c pol with
           | .err e => .err e
           | .ok g =>
             wgCFold sibs pol rest (tg + w * g)
               (if c.data.adata.extra_credit then tw else tw + w)) := rfl

theorem wgC_eq_wg : ∀ (n : ℕ) (t : NamedNode GData), sizeOf t ≤ n →
    memosClear t = true → ∀ (pol : Pol), wgC t pol = wg t pol.dflt := by
  intro n
  induction n with
  | zero =>
    intro t ht
    exfalso
    cases t with
    | node nm a cs => simp [NamedNode.node.sizeOf_spec] at ht
  | succ n ih =>
    intro t ht hm pol
    cases t with
    | node nm d cs =>
      have hsz : ∀ x ∈ cs, sizeOf x ≤ n := by
        intro x hx
        have h1 : sizeOf x < sizeOf cs := List.sizeOf_lt_of_mem hx
        have h3 : sizeOf (NamedNode.node nm d cs) = 1 + sizeOf nm + sizeOf d
            + sizeOf cs := by simp [NamedNode.node.sizeOf_spec]
        omega
      rw [memosClear_node, Bool.and_eq_true] at hm
      have hme : d.memo = Memo.empty := of_decide_eq_true hm.1
      have hml := memosClearL_mem hm.2
      have hfold : ∀ (l : List (NamedNode GData)), (∀ x ∈ l, sizeOf x ≤ n) →
          (∀ x ∈ l, memosClear x = true) → ∀ (sibs : List AData) (tg tw : Fraction),
          wgCFold sibs pol l tg tw = wgFold sibs pol.dflt l tg tw := by
        intro l
        induction l with
        | nil => intro _ _ sibs tg tw; rfl
        | cons c rest ihl =>
          intro hszl hcl sibs tg tw
          rw [wgCFold_cons_eq, wgFold_cons_eq]
          by_cases hskip : (pol.dflt.isNone && !c.data.has_grade) = true
          · rw [if_pos hskip, if_pos hskip]
            exact ihl (fun x hx => hszl x (List.mem_cons_of_mem c hx))
              (fun x hx => hcl x (List.mem_cons_of_mem c hx)) sibs tg tw
          · rw [if_neg hskip, if_neg hskip]
            rw [ih c (hszl c (List.mem_cons_self c rest))
              (hcl c (List.mem_cons_self c rest)) pol]
            cases percent_weight false sibs c.data.adata with
            | err e => rfl
            | ok w =>
              cases wg c pol.dflt with
              | err e => rfl
              | ok g =>
                exact ihl (fun x hx => hszl x (List.mem_cons_of_mem c hx))
                  (fun x hx => hcl x (List.mem_cons_of_mem c hx)) sibs _ _
      cases cs with
      | nil =>
        rw [wgC_leaf_eq, hme, Memo.get_empty, wg_leaf_eq]
      | cons c crest =>
        rw [wgC_cons_eq, hme, Memo.get_empty, wg_cons_eq]
        rw [hfold (c :: crest) hsz hml]

theorem mapND_data {α β : Type} (f : α → β) (t : NamedNode α) :
    (mapND f t).data = f t.data := by
  cases t with
  | node n d cs => rfl

theorem mapNDL_eq_map {α β : Type} (f : α → β) :
    ∀ (l : List (NamedNode α)), mapNDL f l = l.map (mapND f) := by
  intro l
  induction l with
  | nil => rfl
  | cons c rest ih => rw [mapNDL_cons, ih, List.map_cons]

mutual
/-- Every non-root node of the assignment tree has a computable percent
weight among its siblings (`Assignment.percent_weight` succeeds). -/
def pwA : NamedNode AData → Bool
  | .node _ _ [] => true
  | .node _ _ (c :: cs) =>
    ((c :: cs).all (fun x =>
      (percent_weight false ((c :: cs).map (fun y => y.data)) x.data).isOk)) && pwAL (c :: cs)
def pwAL : List (NamedNode AData) → Bool
  | [] => true
  | c :: rest => pwA c && pwAL rest
end

mutual
/-- The grade-tree counterpart of `pwA`, reading each node's bound
assignment data. -/
def pwG : NamedNode GData → Bool
  | .node _ _ [] => true
  | .node _ _ (c :: cs) =>
    ((c :: cs).all (fun x =>
      (percent_weight false ((c :: cs).map (fun y => y.data.adata)) x.data.adata).isOk)) &&
      pwGL (c :: cs)
def pwGL : List (NamedNode GData) → Bool
  | [] => true
  | c :: rest => pwG c && pwGL rest
end

theorem pwA_leaf (n : Str) (d : AData) : pwA (.node n d []) = true := rfl

theorem pwA_node (n : Str) (d : AData) (c : NamedNode AData) (cs : List (NamedNode AData)) :
    pwA (.node n d (c :: cs)) =
      (((c :: cs).all (fun x =>
        (percent_weight false ((c :: cs).map (fun y => y.data)) x.data).isOk)) &&
        pwAL (c :: cs)) := rfl

theorem pwAL_cons (c : NamedNode AData) (rest : List (NamedNode AData)) :
    pwAL (c :: rest) = (pwA c && pwAL rest) := rfl

theorem pwG_leaf (n : Str) (d : GData) : pwG (.node n d []) = true := rfl

theorem pwG_node (n : Str) (d : GData) (c : NamedNode GData) (cs : List (NamedNode GData)) :
    pwG (.node n d (c :: cs)) =
      (((c :: cs).all (fun x =>
        (percent_weight false ((c :: cs).map (fun y => y.data.adata)) x.data.adata).isOk)) &&
        pwGL (c :: cs)) := rfl

theorem pwGL_cons (c : NamedNode GData) (rest : List (NamedNode GData)) :
    pwGL (c :: rest) = (pwG c && pwGL rest) := rfl

theorem pwGL_mem : ∀ {l : List (NamedNode GData)}, pwGL l = true →
    ∀ x ∈ l, pwG x = true := by
  intro l
  induction l with
  | nil => intro _ x hx; cases hx
  | cons c rest ih =>
    intro h x hx
    rw [pwGL_cons, Bool.and_eq_true] at h
    cases hx with
    | head => exact h.1
    | tail _ hx2 => exact ih h.2 x hx2

theorem all_map_comp {α β : Type} (f : α → β) (p : β → Bool) :
    ∀ (l : List α), (l.map f).all p = l.all (fun x => p (f x)) := by
  intro l
  induction l with
  | nil => rfl
  | cons a rest ih => rw [List.map_cons, List.all_cons, List.all_cons, ih]

theorem all_congr_mem {α : Type} (p q : α → Bool) :
    ∀ (l : List α), (∀ x ∈ l, p x = q x) → l.all p = l.all q := by
  intro l
  induction l with
  | nil => intro _; rfl
  | cons a rest ih =>
    intro h
    rw [List.all_cons, List.all_cons, h a (List.mem_cons_self a rest)]
    rw [ih (fun x hx => h x (List.mem_cons_of_mem a hx))]

theorem pwG_eq_pwA : ∀ (n : ℕ) (t : NamedNode GData), sizeOf t ≤ n →
    pwG t = pwA (mapND GData.adata t) := by
  intro n
  induction n with
  | zero =>
    intro t ht
    exfalso
    cases t with
    | node nm a cs => simp [NamedNode.node.sizeOf_spec] at ht
  | succ n ih =>
    intro t ht
    cases t with
    | node nm d cs =>
      have hsz : ∀ x ∈ cs, sizeOf x ≤ n := by
        intro x hx
        have h1 : sizeOf x < sizeOf cs := List.sizeOf_lt_of_mem hx
        have h3 : sizeOf (NamedNode.node nm d cs) = 1 + sizeOf nm + sizeOf d
            + sizeOf cs := by simp [NamedNode.node.sizeOf_spec]
        omega
      have hlist : ∀ (l : List (NamedNode GData)), (∀ x ∈ l, sizeOf x ≤ n) →
          pwGL l = pwAL (mapNDL GData.adata l) := by
        intro l
        induction l with
        | nil => intro _; rfl
        | cons c rest ihl =>
          intro hszl
          rw [pwGL_cons, mapNDL_cons, pwAL_cons]
          rw [ih c (hszl c (List.mem_cons_self c rest))]
          rw [ihl (fun x hx => hszl x (List.mem_cons_of_mem c hx))]
      cases cs with
      | nil => rfl
      | cons c crest =>
        rw [mapND_node, mapNDL_cons, pwG_node, pwA_node]
        rw [← mapNDL_cons]
        rw [hlist (c :: crest) hsz]
        have hmaps : (mapNDL GData.adata (c :: crest)).map (fun y => y.data) =
            (c :: crest).map (fun y => y.data.adata) := by
          rw [mapNDL_eq_map, List.map_map]
          exact List.map_congr_left (fun x _ => mapND_data GData.adata x)
        have hall : (mapNDL GData.adata (c :: crest)).all (fun x =>
            (percent_weight false ((mapNDL GData.adata (c :: crest)).map (fun y => y.data))
              x.data).isOk) =
            (c :: crest).all (fun x =>
              (percent_weight false ((c :: crest).map (fun y => y.data.adata))
                x.data.adata).isOk) := by
          rw [hmaps, mapNDL_eq_map, all_map_comp]
          exact all_congr_mem _ _ _ (fun x _ => by rw [mapND_data])
        rw [hall]

mutual
/-- The data invariant of a freshly loaded grade tree
(`GradeBook._create_grades`, src/overunder.py:639-649): every stored text is
a clean stripped cell and every cache is empty; the root is stored unparsed
with `has_grade = False`; any other leaf's parsed value and flag agree with
re-parsing its stored text; an internal node's flag is the disjunction of
its children's. -/
def ldT : Bool → NamedNode GData → Bool
  | isRoot, .node _ d [] =>
    cellOK d.grade_str && decide (d.memo = Memo.empty) &&
      (if isRoot then decide (d.percent_grade = none) && (d.has_grade == false)
       else
         (match parse_grade_str d.adata d.grade_str with
          | .ok v => decide (v = d.percent_grade)
          | .err _ => false) && (d.has_grade == d.percent_grade.isSome))
  | isRoot, .node _ d (c :: cs) =>
    cellOK d.grade_str && decide (d.memo = Memo.empty) && decide (d.percent_grade = none) &&
      (d.has_grade == (c :: cs).any (fun x => x.data.has_grade)) && ldL (c :: cs)
def ldL : List (NamedNode GData) → Bool
  | [] => true
  | c :: rest => ldT false c && ldL rest
end

theorem ldT_leaf_eq (isRoot : Bool) (nm : Str) (d : GData) :
    ldT isRoot (.node nm d []) =
      (cellOK d.grade_str && decide (d.memo = Memo.empty) &&
        (if isRoot then decide (d.percent_grade = none) && (d.has_grade == false)
         else
           (match parse_grade_str d.adata d.grade_str with
            | .ok v => decide (v = d.percent_grade)
            | .err _ => false) && (d.has_grade == d.percent_grade.isSome))) := rfl

theorem ldT_node_eq (isRoot : Bool) (nm : Str) (d : GData) (c : NamedNode GData)
    (cs : List (NamedNode GData)) :
    ldT isRoot (.node nm d (c :: cs)) =
      (cellOK d.grade_str && decide (d.memo = Memo.empty) &&
        decide (d.percent_grade = none) &&
        (d.has_grade == (c :: cs).any (fun x => x.data.has_grade)) && ldL (c :: cs)) := rfl

theorem ldL_cons (c : NamedNode GData) (rest : List (NamedNode GData)) :
    ldL (c :: rest) = (ldT false c && ldL rest) := rfl

theorem ldL_mem : ∀ {l : List (NamedNode GData)}, ldL l = true →
    ∀ x ∈ l, ldT false x = true := by
  intro l
  induction l with
  | nil => intro _ x hx; cases hx
  | cons c rest ih =>
    intro h x hx
    rw [ldL_cons, Bool.and_eq_true] at h
    cases hx with
    | head => exact h.1
    | tail _ hx2 => exact ih h.2 x hx2

theorem ldT_memosClear : ∀ (n : ℕ) (b : Bool) (t : NamedNode GData), sizeOf t ≤ n →
    ldT b t = true → memosClear t = true := by
  intro n
  induction n with
  | zero =>
    intro b t ht
    exfalso
    cases t with
    | node nm a cs => simp [NamedNode.node.sizeOf_spec] at ht
  | succ n ih =>
    intro b t ht h
    cases t with
    | node nm d cs =>
      have hsz : ∀ x ∈ cs, sizeOf x ≤ n := by
        intro x hx
        have h1 : sizeOf x < sizeOf cs := List.sizeOf_lt_of_mem hx
        have h3 : sizeOf (NamedNode.node nm d cs) = 1 + sizeOf nm + sizeOf d
            + sizeOf cs := by simp [NamedNode.node.sizeOf_spec]
        omega
      cases cs with
      | nil =>
        rw [ldT_leaf_eq, Bool.and_eq_true, Bool.and_eq_true] at h
        rw [memosClear_node, Bool.and_eq_true]
        exact ⟨h.1.2, rfl⟩
      | cons c crest =>
        rw [ldT_node_eq, Bool.and_eq_true, Bool.and_eq_true, Bool.and_eq_true,
          Bool.and_eq_true] at h
        rw [memosClear_node, Bool.and_eq_true]
        refine ⟨h.1.1.1.2, ?_⟩
        have hldl := h.2
        have : ∀ (l : List (NamedNode GData)), (∀ x ∈ l, sizeOf x ≤ n) →
            ldL l = true → memosClearL l = true := by
          intro l
          induction l with
          | nil => intro _ _; rfl
          | cons z zs ihl =>
            intro hszl hz
            rw [ldL_cons, Bool.and_eq_true] at hz
            rw [memosClearL_cons, Bool.and_eq_true]
            exact ⟨ih false z (hszl z (List.mem_cons_self z zs)) hz.1,
              ihl (fun x hx => hszl x (List.mem_cons_of_mem z hx)) hz.2⟩
        exact this (c :: crest) hsz hldl

theorem wg_ok_of_ld : ∀ (n : ℕ) (b : Bool) (t : NamedNode GData), sizeOf t ≤ n →
    ldT b t = true → pwG t = true → ∀ (dflt : Option Fraction),
      ∃ v, wg t dflt = .ok v := by
  intro n
  induction n with
  | zero =>
    intro b t ht
    exfalso
    cases t with
    | node nm a cs => simp [NamedNode.node.sizeOf_spec] at ht
  | succ n ih =>
    intro b t ht hld hpw dflt
    cases t with
    | node nm d cs =>
      have hsz : ∀ x ∈ cs, sizeOf x ≤ n := by
        intro x hx
        have h1 : sizeOf x < sizeOf cs := List.sizeOf_lt_of_mem hx
        have h3 : sizeOf (NamedNode.node nm d cs) = 1 + sizeOf nm + sizeOf d
            + sizeOf cs := by simp [NamedNode.node.sizeOf_spec]
        omega
      cases cs with
      | nil =>
        rw [wg_leaf_eq]
        unfold wgLeaf
        cases hg : d.has_grade with
        | false =>
          cases dflt with
          | none => exact ⟨Fraction.ofInt 0, rfl⟩
          | some g => exact ⟨g, rfl⟩
        | true =>
          rw [ldT_leaf_eq, Bool.and_eq_true] at hld
          have h2 := hld.2
          cases b with
          | true =>
            rw [if_pos rfl, Bool.and_eq_true, beq_iff_eq] at h2
            rw [hg] at h2
            exact absurd h2.2 (by decide)
          | false =>
            rw [if_neg (by decide), Bool.and_eq_true, beq_iff_eq] at h2
            rw [hg] at h2
            have hsome := h2.2.symm
            cases hp : d.percent_grade with
            | none => rw [hp] at hsome; exact absurd hsome (by decide)
            | some v => exact ⟨v, rfl⟩
      | cons c crest =>
        rw [ldT_node_eq, Bool.and_eq_true, Bool.and_eq_true, Bool.and_eq_true,
          Bool.and_eq_true] at hld
        rw [pwG_node, Bool.and_eq_true] at hpw
        have hpwall := List.all_eq_true.mp hpw.1
        have hldall := ldL_mem hld.2
        have hpwrec := pwGL_mem hpw.2
        rw [wg_cons_eq]
        have hfold : ∀ (l : List (NamedNode GData)),
            (∀ x ∈ l, sizeOf x ≤ n) → (∀ x ∈ l, ldT false x = true) →
            (∀ x ∈ l, pwG x = true) →
            (∀ x ∈ l, (percent_weight false ((c :: crest).map (fun y => y.data.adata))
              x.data.adata).isOk = true) →
            ∀ (tg tw : Fraction), ∃ p, wgFold ((c :: crest).map (fun y => y.data.adata))
              dflt l tg tw = .ok p := by
          intro l
          induction l with
          | nil => intro _ _ _ _ tg tw; exact ⟨(tg, tw), rfl⟩
          | cons z zs ihl =>
            intro hszl hldl hpwl hpwal tg tw
            rw [wgFold_cons_eq]
            by_cases hskip : (dflt.isNone && !z.data.has_grade) = true
            · rw [if_pos hskip]
              exact ihl (fun x hx => hszl x (List.mem_cons_of_mem z hx))
                (fun x hx => hldl x (List.mem_cons_of_mem z hx))
                (fun x hx => hpwl x (List.mem_cons_of_mem z hx))
                (fun x hx => hpwal x (List.mem_cons_of_mem z hx)) tg tw
            · rw [if_neg hskip]
              have hpwz := hpwal z (List.mem_cons_self z zs)
              obtain ⟨w, hw⟩ : ∃ w, percent_weight false
                  ((c :: crest).map (fun y => y.data.adata)) z.data.adata = .ok w := by
                cases hx : percent_weight false ((c :: crest).map (fun y => y.data.adata))
                    z.data.adata with
                | err e => rw [hx] at hpwz; simp [Res.isOk] at hpwz
                | ok w => exact ⟨w, rfl⟩
              rw [hw]
              obtain ⟨g, hg⟩ := ih false z (hszl z (List.mem_cons_self z zs))
                (hldl z (List.mem_cons_self z zs)) (hpwl z (List.mem_cons_self z zs)) dflt
              rw [hg]
              exact ihl (fun x hx => hszl x (List.mem_cons_of_mem z hx))
                (fun x hx => hldl x (List.mem_cons_of_mem z hx))
                (fun x hx => hpwl x (List.mem_cons_of_mem z hx))
                (fun x hx => hpwal x (List.mem_cons_of_mem z hx)) _ _
        obtain ⟨p, hp⟩ := hfold (c :: crest) hsz hldall hpwrec hpwall
          (Fraction.ofInt 0) (Fraction.ofInt 0)
        rw [hp]
        exact ⟨_, rfl⟩

mutual
/-- Two grade trees equal except possibly in the raw text stored at
internal nodes (which no aggregate computation reads). -/
def eqBS : NamedNode GData → NamedNode GData → Bool
  | .node n1 d1 [], .node n2 d2 [] => decide (n1 = n2) && decide (d1 = d2)
  | .node n1 d1 (c1 :: cs1), .node n2 d2 (c2 :: cs2) =>
    decide (n1 = n2) && decide (d1.adata = d2.adata) &&
      decide (d1.percent_grade = d2.percent_grade) && (d1.has_grade == d2.has_grade) &&
      decide (d1.memo = d2.memo) && eqBSL (c1 :: cs1) (c2 :: cs2)
  | _, _ => false
def eqBSL : List (NamedNode GData) → List (NamedNode GData) → Bool
  | [], [] => true
  | c :: r, c' :: r' => eqBS c c' && eqBSL r r'
  | _, _ => false
end

theorem eqBS_leaf_eq (n1 n2 : Str) (d1 d2 : GData) :
    eqBS (.node n1 d1 []) (.node n2 d2 []) = (decide (n1 = n2) && decide (d1 = d2)) := rfl

theorem eqBS_node_eq (n1 n2 : Str) (d1 d2 : GData) (c1 c2 : NamedNode GData)
    (cs1 cs2 : List (NamedNode GData)) :
    eqBS (.node n1 d1 (c1 :: cs1)) (.node n2 d2 (c2 :: cs2)) =
      (decide (n1 = n2) && decide (d1.adata = d2.adata) &&
        decide (d1.percent_grade = d2.percent_grade) && (d1.has_grade == d2.has_grade) &&
        decide (d1.memo = d2.memo) && eqBSL (c1 :: cs1) (c2 :: cs2)) := rfl

theorem eqBSL_cons_eq (c c' : NamedNode GData) (r r' : List (NamedNode GData)) :
    eqBSL (c :: r) (c' :: r') = (eqBS c c' && eqBSL r r') := rfl

theorem eqBS_shape : ∀ {t1 t2 : NamedNode GData}, eqBS t1 t2 = true →
    ∃ n1 d1 cs1 n2 d2 cs2, t1 = .node n1 d1 cs1 ∧ t2 = .node n2 d2 cs2 ∧ n1 = n2 ∧
      d1.adata = d2.adata ∧ d1.percent_grade = d2.percent_grade ∧
      d1.has_grade = d2.has_grade ∧ d1.memo = d2.memo ∧
      (cs1 = [] ↔ cs2 = []) := by
  intro t1 t2 h
  cases t1 with
  | node n1 d1 cs1 =>
    cases t2 with
    | node n2 d2 cs2 =>
      cases cs1 with
      | nil =>
        cases cs2 with
        | nil =>
          rw [eqBS_leaf_eq, Bool.and_eq_true, decide_eq_true_eq, decide_eq_true_eq] at h
          exact ⟨n1, d1, [], n2, d2, [], rfl, rfl, h.1, by rw [h.2], by rw [h.2],
            by rw [h.2], by rw [h.2], Iff.rfl⟩
        | cons c2 r2 =>
          exfalso
          exact Bool.noConfusion h
      | cons c1 r1 =>
        cases cs2 with
        | nil =>
          exfalso
          exact Bool.noConfusion h
        | cons c2 r2 =>
          rw [eqBS_node_eq, Bool.and_eq_true, Bool.and_eq_true, Bool.and_eq_true,
            Bool.and_eq_true, Bool.and_eq_true, decide_eq_true_eq, decide_eq_true_eq,
            decide_eq_true_eq, decide_eq_true_eq, beq_iff_eq] at h
          refine ⟨n1, d1, c1 :: r1, n2, d2, c2 :: r2, rfl, rfl, h.1.1.1.1.1, h.1.1.1.1.2,
            h.1.1.1.2, h.1.1.2, h.1.2, ?_⟩
          constructor
          · intro hx; exact List.noConfusion hx
          · intro hx; exact List.noConfusion hx

theorem eqBSL_map_adata : ∀ {l1 l2 : List (NamedNode GData)}, eqBSL l1 l2 = true →
    l1.map (fun x => x.data.adata) = l2.map (fun x => x.data.adata) := by
  intro l1
  induction l1 with
  | nil =>
    intro l2 h
    cases l2 with
    | nil => rfl
    | cons c r => exact Bool.noConfusion h
  | cons c1 r1 ih =>
    intro l2 h
    cases l2 with
    | nil => exact Bool.noConfusion h
    | cons c2 r2 =>
      rw [eqBSL_cons_eq, Bool.and_eq_true] at h
      obtain ⟨nn1, dd1, ccs1, nn2, dd2, ccs2, he1, he2, _, had, _, _, _, _⟩ :=
        eqBS_shape h.1
      rw [List.map_cons, List.map_cons, ih h.2]
      rw [he1, he2]
      show (dd1.adata) :: _ = (dd2.adata) :: _
      rw [had]

theorem eqBSL_parts : ∀ {c1 c2 : NamedNode GData} {r1 r2 : List (NamedNode GData)},
    eqBSL (c1 :: r1) (c2 :: r2) = true → eqBS c1 c2 = true ∧ eqBSL r1 r2 = true := by
  intro c1 c2 r1 r2 h
  rw [eqBSL_cons_eq, Bool.and_eq_true] at h
  exact h

theorem wg_congr_eqBS : ∀ (n : ℕ) (t1 : NamedNode GData), sizeOf t1 ≤ n →
    ∀ (t2 : NamedNode GData), eqBS t1 t2 = true → ∀ (dflt : Option Fraction),
      wg t1 dflt = wg t2 dflt := by
  intro n
  induction n with
  | zero =>
    intro t1 ht
    exfalso
    cases t1 with
    | node nm a cs => simp [NamedNode.node.sizeOf_spec] at ht
  | succ n ih =>
    intro t1 ht t2 heq dflt
    obtain ⟨n1, d1, cs1, n2, d2, cs2, he1, he2, hn, had, hpg, hhg, hmm, hnil⟩ :=
      eqBS_shape heq
    subst he1
    subst he2
    have hsz : ∀ x ∈ cs1, sizeOf x ≤ n := by
      intro x hx
      have h1 : sizeOf x < sizeOf cs1 := List.sizeOf_lt_of_mem hx
      have h3 : sizeOf (NamedNode.node n1 d1 cs1) = 1 + sizeOf n1 + sizeOf d1
          + sizeOf cs1 := by simp [NamedNode.node.sizeOf_spec]
      omega
    have hfold : ∀ (l1 : List (NamedNode GData)), (∀ x ∈ l1, sizeOf x ≤ n) →
        ∀ (l2 : List (NamedNode GData)), eqBSL l1 l2 = true →
        ∀ (sibs : List AData) (tg tw : Fraction),
          wgFold sibs dflt l1 tg tw = wgFold sibs dflt l2 tg tw := by
      intro l1
      induction l1 with
      | nil =>
        intro _ l2 hl
        cases l2 with
        | nil => intro sibs tg tw; rfl
        | cons c r => exact Bool.noConfusion hl
      | cons c1 r1 ihl =>
        intro hszl l2 hl
        cases l2 with
        | nil => exact Bool.noConfusion hl
        | cons c2 r2 =>
          intro sibs tg tw
          obtain ⟨hc, hr⟩ := eqBSL_parts hl
          obtain ⟨m1, e1, zs1, m2, e2, zs2, hce1, hce2, _, hcad, hcpg, hchg, _, _⟩ :=
            eqBS_shape hc
          rw [wgFold_cons_eq, wgFold_cons_eq]
          have hdata1 : c1.data = e1 := by rw [hce1]; rfl
          have hdata2 : c2.data = e2 := by rw [hce2]; rfl
          rw [hdata1, hdata2, hchg, hcad]
          by_cases hskip : (dflt.isNone && !e2.has_grade) = true
          · rw [if_pos hskip, if_pos hskip]
            exact ihl (fun x hx => hszl x (List.mem_cons_of_mem c1 hx)) r2 hr sibs tg tw
          · rw [if_neg hskip, if_neg hskip]
            cases percent_weight false sibs e2.adata with
            | err e => rfl
            | ok w =>
              rw [ih c1 (hszl c1 (List.mem_cons_self c1 r1)) c2 hc dflt]
              cases wg c2 dflt with
              | err e => rfl
              | ok g =>
                exact ihl (fun x hx => hszl x (List.mem_cons_of_mem c1 hx)) r2 hr sibs _ _
    cases cs1 with
    | nil =>
      cases cs2 with
      | nil =>
        have hd : d1 = d2 := by
          have := heq
          rw [eqBS_leaf_eq, Bool.and_eq_true, decide_eq_true_eq, decide_eq_true_eq] at this
          exact this.2
        rw [wg_leaf_eq, wg_leaf_eq, hd]
      | cons c2 r2 =>
        exfalso
        exact List.noConfusion (hnil.mp rfl)
    | cons c1 r1 =>
      cases cs2 with
      | nil =>
        exfalso
        have := hnil.mpr rfl
        exact List.noConfusion this
      | cons c2 r2 =>
        rw [wg_cons_eq, wg_cons_eq]
        have heqL : eqBSL (c1 :: r1) (c2 :: r2) = true := by
          have := heq
          rw [eqBS_node_eq, Bool.and_eq_true] at this
          exact this.2
        rw [eqBSL_map_adata heqL]
        rw [hfold (c1 :: r1) hsz (c2 :: r2) heqL]

theorem memosClear_congr_eqBS : ∀ (n : ℕ) (t1 : NamedNode GData), sizeOf t1 ≤ n →
    ∀ (t2 : NamedNode GData), eqBS t1 t2 = true → memosClear t1 = memosClear t2 := by
  intro n
  induction n with
  | zero =>
    intro t1 ht
    exfalso
    cases t1 with
    | node nm a cs => simp [NamedNode.node.sizeOf_spec] at ht
  | succ n ih =>
    intro t1 ht t2 heq
    obtain ⟨n1, d1, cs1, n2, d2, cs2, he1, he2, hn, had, hpg, hhg, hmm, hnil⟩ :=
      eqBS_shape heq
    subst he1
    subst he2
    have hsz : ∀ x ∈ cs1, sizeOf x ≤ n := by
      intro x hx
      have h1 : sizeOf x < sizeOf cs1 := List.sizeOf_lt_of_mem hx
      have h3 : sizeOf (NamedNode.node n1 d1 cs1) = 1 + sizeOf n1 + sizeOf d1
          + sizeOf cs1 := by simp [NamedNode.node.sizeOf_spec]
      omega
    have hlst : ∀ (l1 : List (NamedNode GData)), (∀ x ∈ l1, sizeOf x ≤ n) →
        ∀ (l2 : List (NamedNode GData)), eqBSL l1 l2 = true →
          memosClearL l1 = memosClearL l2 := by
      intro l1
      induction l1 with
      | nil =>
        intro _ l2 hl
        cases l2 with
        | nil => rfl
        | cons c r => exact Bool.noConfusion hl
      | cons c1 r1 ihl =>
        intro hszl l2 hl
        cases l2 with
        | nil => exact Bool.noConfusion hl
        | cons c2 r2 =>
          obtain ⟨hc, hr⟩ := eqBSL_parts hl
          rw [memosClearL_cons, memosClearL_cons]
          rw [ih c1 (hszl c1 (List.mem_cons_self c1 r1)) c2 hc]
          rw [ihl (fun x hx => hszl x (List.mem_cons_of_mem c1 hx)) r2 hr]
    cases cs1 with
    | nil =>
      cases cs2 with
      | nil =>
        have hd : d1 = d2 := by
          have := heq
          rw [eqBS_leaf_eq, Bool.and_eq_true, decide_eq_true_eq, decide_eq_true_eq] at this
          exact this.2
        rw [memosClear_node, memosClear_node, hd]
      | cons c2 r2 =>
        exfalso
        exact List.noConfusion (hnil.mp rfl)
    | cons c1 r1 =>
      cases cs2 with
      | nil =>
        exfalso
        exact List.noConfusion (hnil.mpr rfl)
      | cons c2 r2 =>
        have heqL : eqBSL (c1 :: r1) (c2 :: r2) = true := by
          have := heq
          rw [eqBS_node_eq, Bool.and_eq_true] at this
          exact this.2
        rw [memosClear_node, memosClear_node, hmm]
        rw [hlst (c1 :: r1) hsz (c2 :: r2) heqL]

theorem exportT_leaf_eq (fmt : Fraction → Str) (n : Str) (d : GData) :
    exportT fmt (.node n d []) = .ok [d.grade_str] := rfl

theorem exportT_node_eq (fmt : Fraction → Str) (n : Str) (d : GData) (c : NamedNode GData)
    (cs : List (NamedNode GData)) :
    exportT fmt (.node n d (c :: cs)) =
      (match wgC (.node n d (c :: cs)) Pol.mn with
       | .err e => .err e
       | .ok v =>
         match exportL fmt (c :: cs) with
         | .err e => .err e
         | .ok cells => .ok (fmt v :: cells)) := rfl

theorem exportL_nil_eq (fmt : Fraction → Str) : exportL fmt [] = .ok [] := rfl

theorem exportL_cons_eq (fmt : Fraction → Str) (c : NamedNode GData)
    (rest : List (NamedNode GData)) :
    exportL fmt (c :: rest) =
      (match exportT fmt c with
       | .err e => .err e
       | .ok cells =>
         match exportL fmt rest with
         | .err e => .err e
         | .ok cells' => .ok (cells ++ cells')) := rfl

theorem exportT_congr_eqBS : ∀ (n : ℕ) (t1 : NamedNode GData), sizeOf t1 ≤ n →
    ∀ (t2 : NamedNode GData), eqBS t1 t2 = true → memosClear t1 = true →
      ∀ (fmt : Fraction → Str), exportT fmt t1 = exportT fmt t2 := by
  intro n
  induction n with
  | zero =>
    intro t1 ht
    exfalso
    cases t1 with
    | node nm a cs => simp [NamedNode.node.sizeOf_spec] at ht
  | succ n ih =>
    intro t1 ht t2 heq hmc fmt
    obtain ⟨n1, d1, cs1, n2, d2, cs2, he1, he2, hn, had, hpg, hhg, hmm, hnil⟩ :=
      eqBS_shape heq
    subst he1
    subst he2
    have hsz : ∀ x ∈ cs1, sizeOf x ≤ n := by
      intro x hx
      have h1 : sizeOf x < sizeOf cs1 := List.sizeOf_lt_of_mem hx
      have h3 : sizeOf (NamedNode.node n1 d1 cs1) = 1 + sizeOf n1 + sizeOf d1
          + sizeOf cs1 := by simp [NamedNode.node.sizeOf_spec]
      omega
    rw [memosClear_node, Bool.and_eq_true] at hmc
    have hlst : ∀ (l1 : List (NamedNode GData)), (∀ x ∈ l1, sizeOf x ≤ n) →
        ∀ (l2 : List (NamedNode GData)), eqBSL l1 l2 = true → memosClearL l1 = true →
          exportL fmt l1 = exportL fmt l2 := by
      intro l1
      induction l1 with
      | nil =>
        intro _ l2 hl _
        cases l2 with
        | nil => rfl
        | cons c r => exact Bool.noConfusion hl
      | cons c1 r1 ihl =>
        intro hszl l2 hl hmcl
        cases l2 with
        | nil => exact Bool.noConfusion hl
        | cons c2 r2 =>
          obtain ⟨hc, hr⟩ := eqBSL_parts hl
          rw [memosClearL_cons, Bool.and_eq_true] at hmcl
          rw [exportL_cons_eq, exportL_cons_eq]
          rw [ih c1 (hszl c1 (List.mem_cons_self c1 r1)) c2 hc hmcl.1 fmt]
          rw [ihl (fun x hx => hszl x (List.mem_cons_of_mem c1 hx)) r2 hr hmcl.2]
    cases cs1 with
    | nil =>
      cases cs2 with
      | nil =>
        have hd : d1 = d2 := by
          have := heq
          rw [eqBS_leaf_eq, Bool.and_eq_true, decide_eq_true_eq, decide_eq_true_eq] at this
          exact this.2
        rw [exportT_leaf_eq, exportT_leaf_eq, hd]
      | cons c2 r2 =>
        exfalso
        exact List.noConfusion (hnil.mp rfl)
    | cons c1 r1 =>
      cases cs2 with
      | nil =>
        exfalso
        exact List.noConfusion (hnil.mpr rfl)
      | cons c2 r2 =>
        have heqL : eqBSL (c1 :: r1) (c2 :: r2) = true := by
          have := heq
          rw [eqBS_node_eq, Bool.and_eq_true] at this
          exact this.2
        have hmc1 : memosClear (NamedNode.node n1 d1 (c1 :: r1)) = true := by
          rw [memosClear_node, Bool.and_eq_true]
          exact hmc
        have hmc2 : memosClear (NamedNode.node n2 d2 (c2 :: r2)) = true := by
          rw [← memosClear_congr_eqBS (sizeOf (NamedNode.node n1 d1 (c1 :: r1)))
            (NamedNode.node n1 d1 (c1 :: r1)) (le_refl _) _ heq]
          exact hmc1
        rw [exportT_node_eq, exportT_node_eq]
        rw [wgC_eq_wg (sizeOf (NamedNode.node n1 d1 (c1 :: r1))) _ (le_refl _) hmc1 Pol.mn]
        rw [wgC_eq_wg (sizeOf (NamedNode.node n2 d2 (c2 :: r2))) _ (le_refl _) hmc2 Pol.mn]
        rw [wg_congr_eqBS (sizeOf (NamedNode.node n1 d1 (c1 :: r1))) _ (le_refl _) _ heq]
        rw [hlst (c1 :: r1) hsz (c2 :: r2) heqL hmc.2]

theorem exportT_ok : ∀ (n : ℕ) (b : Bool) (t : NamedNode GData), sizeOf t ≤ n →
    ldT b t = true → pwG t = true → ∀ (fmt : Fraction → Str),
    (∀ v, cellOK (fmt v) = true) →
    ∃ cells, exportT fmt t = .ok cells ∧
      (∀ d : ℕ, cells.length = (preorderD d t).length) ∧
      (∀ cell ∈ cells, cellOK cell = true) ∧
      maskSelect (leafMaskT t) cells = leafVals GData.grade_str t := by
  intro n
  induction n with
  | zero =>
    intro b t ht
    exfalso
    cases t with
    | node nm a cs => simp [NamedNode.node.sizeOf_spec] at ht
  | succ n ih =>
    intro b t ht hld hpw fmt hfmt
    cases t with
    | node nm d cs =>
      have hsz : ∀ x ∈ cs, sizeOf x ≤ n := by
        intro x hx
        have h1 : sizeOf x < sizeOf cs := List.sizeOf_lt_of_mem hx
        have h3 : sizeOf (NamedNode.node nm d cs) = 1 + sizeOf nm + sizeOf d
            + sizeOf cs := by simp [NamedNode.node.sizeOf_spec]
        omega
      cases cs with
      | nil =>
        refine ⟨[d.grade_str], exportT_leaf_eq fmt nm d, fun d2 => rfl, ?_, rfl⟩
        intro cell hcell
        rw [List.mem_singleton] at hcell
        rw [hcell]
        rw [ldT_leaf_eq, Bool.and_eq_true, Bool.and_eq_true] at hld
        exact hld.1.1
      | cons c crest =>
        have hldn := hld
        rw [ldT_node_eq, Bool.and_eq_true, Bool.and_eq_true, Bool.and_eq_true,
          Bool.and_eq_true] at hldn
        have hldall := ldL_mem hldn.2
        rw [pwG_node, Bool.and_eq_true] at hpw
        have hpwrec := pwGL_mem hpw.2
        have hlst : ∀ (l : List (NamedNode GData)), (∀ x ∈ l, sizeOf x ≤ n) →
            (∀ x ∈ l, ldT false x = true) → (∀ x ∈ l, pwG x = true) →
            ∃ cellsL, exportL fmt l = .ok cellsL ∧
              (∀ d2 : ℕ, cellsL.length = (preorderDL d2 l).length) ∧
              (∀ cell ∈ cellsL, cellOK cell = true) ∧
              maskSelect (leafMaskL l) cellsL = leafValsL GData.grade_str l := by
          intro l
          induction l with
          | nil => intro _ _ _; exact ⟨[], rfl, fun _ => rfl, fun cell hc => absurd hc
              (List.not_mem_nil cell), rfl⟩
          | cons z zs ihl =>
            intro hszl hldl hpwl
            obtain ⟨cz, hcz, hczlen, hczok, hczmask⟩ := ih false z
              (hszl z (List.mem_cons_self z zs)) (hldl z (List.mem_cons_self z zs))
              (hpwl z (List.mem_cons_self z zs)) fmt hfmt
            obtain ⟨crs, hcrs, hcrslen, hcrsok, hcrsmask⟩ := ihl
              (fun x hx => hszl x (List.mem_cons_of_mem z hx))
              (fun x hx => hldl x (List.mem_cons_of_mem z hx))
              (fun x hx => hpwl x (List.mem_cons_of_mem z hx))
            refine ⟨cz ++ crs, ?_, ?_, ?_, ?_⟩
            · rw [exportL_cons_eq, hcz, hcrs]
            · intro d2
              show (cz ++ crs).length = (preorderD d2 z ++ preorderDL d2 zs).length
              rw [List.length_append, List.length_append, hczlen d2, hcrslen d2]
            · intro cell hcell
              rw [List.mem_append] at hcell
              cases hcell with
              | inl hc => exact hczok cell hc
              | inr hc => exact hcrsok cell hc
            · show maskSelect (leafMaskT z ++ leafMaskL zs) (cz ++ crs) = _
              rw [maskSelect_append _ _ _ _ (by
                rw [leafMaskT_length _ z (le_refl _) 0]
                exact (hczlen 0).symm)]
              rw [hczmask, hcrsmask]
              rfl
        obtain ⟨cellsL, hcellsL, hlen, hok, hmask⟩ := hlst (c :: crest) hsz hldall hpwrec
        have hmemos : memosClear (NamedNode.node nm d (c :: crest)) = true :=
          ldT_memosClear (sizeOf (NamedNode.node nm d (c :: crest))) b _ (le_refl _) hld
        obtain ⟨v, hv⟩ := wg_ok_of_ld (sizeOf (NamedNode.node nm d (c :: crest))) b _
          (le_refl _) hld (by rw [pwG_node, Bool.and_eq_true]; exact hpw) Pol.mn.dflt
        have hwgc : wgC (NamedNode.node nm d (c :: crest)) Pol.mn = .ok v := by
          rw [wgC_eq_wg (sizeOf (NamedNode.node nm d (c :: crest))) _ (le_refl _)
            hmemos Pol.mn]
          exact hv
        refine ⟨fmt v :: cellsL, ?_, ?_, ?_, ?_⟩
        · rw [exportT_node_eq, hwgc, hcellsL]
        · intro d2
          show (fmt v :: cellsL).length = ((d2, nm, d) :: preorderDL (d2 + 1) (c :: crest)).length
          rw [List.length_cons, List.length_cons, hlen (d2 + 1)]
        · intro cell hcell
          cases hcell with
          | head => exact hfmt v
          | tail _ hc => exact hok cell hc
        · show maskSelect (false :: leafMaskL (c :: crest)) (fmt v :: cellsL) = _
          show ([] : List Str) ++ maskSelect (leafMaskL (c :: crest)) cellsL = _
          rw [List.nil_append, hmask]
          rfl

mutual
/-- The tree that reloading a just-exported row produces, before the
construction-time `_propagate` pass: each internal node's stored text is
replaced by its exported cell (the formatted cached-minimum aggregate) and
re-parsed, leaves are reloaded verbatim, and the root is stored unparsed. -/
def preG (fmt : Fraction → Str) : Bool → NamedNode GData → NamedNode GData
  | _, .node n d [] => .node n d []
  | isRoot, .node n d (c :: cs) =>
    let cell := match wgC (.node n d (c :: cs)) Pol.mn with
      | .ok v => fmt v
      | .err _ => d.grade_str
    if isRoot then
      .node n ⟨d.adata, cell, none, false, Memo.empty⟩ (preGL fmt (c :: cs))
    else
      let pg := match parse_grade_str d.adata cell with
        | .ok v => v
        | .err _ => none
      .node n ⟨d.adata, cell, pg, pg.isSome, Memo.empty⟩ (preGL fmt (c :: cs))
def preGL (fmt : Fraction → Str) : List (NamedNode GData) → List (NamedNode GData)
  | [] => []
  | c :: rest => preG fmt false c :: preGL fmt rest
end

theorem preG_leaf_eq (fmt : Fraction → Str) (b : Bool) (n : Str) (d : GData) :
    preG fmt b (.node n d []) = .node n d [] := by
  cases b <;> rfl

theorem preG_node_eq (fmt : Fraction → Str) (b : Bool) (n : Str) (d : GData)
    (c : NamedNode GData) (cs : List (NamedNode GData)) :
    preG fmt b (.node n d (c :: cs)) =
      (let cell := match wgC (.node n d (c :: cs)) Pol.mn with
        | .ok v => fmt v
        | .err _ => d.grade_str
      if b then
        .node n ⟨d.adata, cell, none, false, Memo.empty⟩ (preGL fmt (c :: cs))
      else
        let pg := match parse_grade_str d.adata cell with
          | .ok v => v
          | .err _ => none
        .node n ⟨d.adata, cell, pg, pg.isSome, Memo.empty⟩ (preGL fmt (c :: cs))) := rfl

theorem preGL_nil_eq (fmt : Fraction → Str) : preGL fmt [] = [] := rfl

theorem preGL_cons_eq (fmt : Fraction → Str) (c : NamedNode GData)
    (rest : List (NamedNode GData)) :
    preGL fmt (c :: rest) = preG fmt false c :: preGL fmt rest := rfl

theorem annotateUp_leaf_eq (n : Str) (d : GData) :
    annotateUp (.node n d []) = .node n d [] := rfl

theorem annotateUp_node_eq (n : Str) (d : GData) (c : NamedNode GData)
    (cs : List (NamedNode GData)) :
    annotateUp (.node n d (c :: cs)) =
      .node n
        { d with
          percent_grade := none
          has_grade := (annotateUpL (c :: cs)).any (fun x => x.data.has_grade)
          memo := Memo.empty } (annotateUpL (c :: cs)) := rfl

theorem annotateUpL_nil_eq : annotateUpL [] = [] := rfl

theorem annotateUpL_cons_eq (c : NamedNode GData) (rest : List (NamedNode GData)) :
    annotateUpL (c :: rest) = annotateUp c :: annotateUpL rest := rfl

theorem eqBSL_any_has : ∀ {l1 l2 : List (NamedNode GData)}, eqBSL l1 l2 = true →
    l1.any (fun x => x.data.has_grade) = l2.any (fun x => x.data.has_grade) := by
  intro l1
  induction l1 with
  | nil =>
    intro l2 h
    cases l2 with
    | nil => rfl
    | cons c r => exact Bool.noConfusion h
  | cons c1 r1 ih =>
    intro l2 h
    cases l2 with
    | nil => exact Bool.noConfusion h
    | cons c2 r2 =>
      obtain ⟨hc, hr⟩ := eqBSL_parts h
      obtain ⟨m1, e1, zs1, m2, e2, zs2, hce1, hce2, _, _, _, hchg, _, _⟩ := eqBS_shape hc
      rw [List.any_cons, List.any_cons, ih hr]
      rw [hce1, hce2]
      show (e1.has_grade || _) = (e2.has_grade || _)
      rw [hchg]

theorem eqBS_annotate_preG (fmt : Fraction → Str) :
    ∀ (n : ℕ) (b : Bool) (t : NamedNode GData), sizeOf t ≤ n → ldT b t = true →
      eqBS t (annotateUp (preG fmt b t)) = true := by
  intro n
  induction n with
  | zero =>
    intro b t ht
    exfalso
    cases t with
    | node nm a cs => simp [NamedNode.node.sizeOf_spec] at ht
  | succ n ih =>
    intro b t ht hld
    cases t with
    | node nm d cs =>
      have hsz : ∀ x ∈ cs, sizeOf x ≤ n := by
        intro x hx
        have h1 : sizeOf x < sizeOf cs := List.sizeOf_lt_of_mem hx
        have h3 : sizeOf (NamedNode.node nm d cs) = 1 + sizeOf nm + sizeOf d
            + sizeOf cs := by simp [NamedNode.node.sizeOf_spec]
        omega
      cases cs with
      | nil =>
        rw [preG_leaf_eq, annotateUp_leaf_eq, eqBS_leaf_eq]
        rw [Bool.and_eq_true, decide_eq_true_eq, decide_eq_true_eq]
        exact ⟨rfl, rfl⟩
      | cons c crest =>
        have hlst : ∀ (l : List (NamedNode GData)), (∀ x ∈ l, sizeOf x ≤ n) →
            (∀ x ∈ l, ldT false x = true) →
            eqBSL l (annotateUpL (preGL fmt l)) = true := by
          intro l
          induction l with
          | nil => intro _ _; rfl
          | cons z zs ihl =>
            intro hszl hldl
            rw [preGL_cons_eq, annotateUpL_cons_eq, eqBSL_cons_eq, Bool.and_eq_true]
            exact ⟨ih false z (hszl z (List.mem_cons_self z zs))
                (hldl z (List.mem_cons_self z zs)),
              ihl (fun x hx => hszl x (List.mem_cons_of_mem z hx))
                (fun x hx => hldl x (List.mem_cons_of_mem z hx))⟩
        have hldn := hld
        rw [ldT_node_eq, Bool.and_eq_true, Bool.and_eq_true, Bool.and_eq_true,
          Bool.and_eq_true] at hldn
        have hpg : d.percent_grade = none := of_decide_eq_true hldn.1.1.2
        have hmemo : d.memo = Memo.empty := of_decide_eq_true hldn.1.1.1.2
        have hhas : d.has_grade = (c :: crest).any (fun x => x.data.has_grade) :=
          beq_iff_eq.mp hldn.1.2
        have heqL : eqBSL (c :: crest) (annotateUpL (preGL fmt (c :: crest))) = true :=
          hlst (c :: crest) hsz (ldL_mem hldn.2)
        rw [preGL_cons_eq] at heqL
        rw [annotateUpL_cons_eq] at heqL
        have hany := eqBSL_any_has heqL
        rw [preG_node_eq]
        cases b with
        | true =>
          rw [if_pos rfl, preGL_cons_eq, annotateUp_node_eq, annotateUpL_cons_eq,
            eqBS_node_eq]
          rw [Bool.and_eq_true, Bool.and_eq_true, Bool.and_eq_true, Bool.and_eq_true,
            Bool.and_eq_true]
          refine ⟨⟨⟨⟨⟨decide_eq_true rfl, decide_eq_true rfl⟩, ?_⟩, ?_⟩, ?_⟩, heqL⟩
          · rw [decide_eq_true_eq]
            exact hpg
          · rw [hhas, hany]
            exact beq_self_eq_true _
          · rw [decide_eq_true_eq]
            rw [hmemo]
        | false =>
          rw [if_neg (by exact Bool.false_ne_true), preGL_cons_eq, annotateUp_node_eq,
            annotateUpL_cons_eq, eqBS_node_eq]
          rw [Bool.and_eq_true, Bool.and_eq_true, Bool.and_eq_true, Bool.and_eq_true,
            Bool.and_eq_true]
          refine ⟨⟨⟨⟨⟨decide_eq_true rfl, decide_eq_true rfl⟩, ?_⟩, ?_⟩, ?_⟩, heqL⟩
          · rw [decide_eq_true_eq]
            exact hpg
          · rw [hhas, hany]
            exact beq_self_eq_true _
          · rw [decide_eq_true_eq]
            rw [hmemo]

/-- The sign-stripped core of a grade string
(`parse_fraction`, src/overunder.py:220-224). -/
def pctCore (s : Str) : Str :=
  if (s.dropWhile (· == '+')).head? == some '-' then (s.dropWhile (· == '+')).drop 1
  else s.dropWhile (· == '+')

/-- A string whose sign-stripped core matches the percent pattern with a
parseable number, and which is not the `'none'` sentinel — such a string
parses successfully under *any* bound assignment. -/
def pctShaped (s : Str) : Bool :=
  !(decide (s.map Char.toLower = "none".toList)) &&
    matchPercent (pctCore s) && (parseDecimal (pctCore s).dropLast).isSome

theorem parse_fraction_pct_ok (s0 : Str)
    (hsent : ¬(s0.map Char.toLower = "none".toList))
    (hpct : matchPercent (pctCore s0) = true)
    (hv : (parseDecimal (pctCore s0).dropLast).isSome = true)
    (fp : Option Fraction) (gs : Option (Str → Option Fraction)) :
    ∃ w, parse_fraction s0 fp gs = .ok (some w, .percent) := by
  obtain ⟨v, hv'⟩ : ∃ v, parseDecimal (pctCore s0).dropLast = some v := by
    cases hx : parseDecimal (pctCore s0).dropLast with
    | none => rw [hx] at hv; simp at hv
    | some v => exact ⟨v, rfl⟩
  have hcore : parse_fraction_core (pctCore s0) fp gs =
      .ok (v.div (Fraction.ofInt 100), .percent) := by
    unfold parse_fraction_core
    rw [if_pos hpct, hv']
  simp only [parse_fraction]
  rw [if_neg hsent]
  have hfold : (if (s0.dropWhile (· == '+')).head? == some '-'
      then (s0.dropWhile (· == '+')).drop 1
      else s0.dropWhile (· == '+')) = pctCore s0 := rfl
  rw [hfold, hcore]
  exact ⟨_, rfl⟩

theorem pctShaped_parse_ok {s : Str} (h : pctShaped s = true) (a : AData) :
    ∃ w, parse_grade_str a s = .ok (some w) := by
  unfold pctShaped at h
  rw [Bool.and_eq_true, Bool.and_eq_true] at h
  have hsent : ¬(s.map Char.toLower = "none".toList) := by
    have h2 := h.1.1
    rw [Bool.not_eq_true'] at h2
    exact of_decide_eq_false h2
  obtain ⟨w, hw⟩ := parse_fraction_pct_ok s hsent h.1.2 h.2 (some a.weight)
    (some LETTER_FRACTIONS)
  unfold parse_grade_str
  rw [hw]
  exact ⟨w, rfl⟩

/-- A number-formatting function whose output always survives the
write/read cycle: clean cells in signed-percent shape (the shape of
`f'{float(x):.2%}'`, src/overunder.py:518). -/
def FmtOK (fmt : Fraction → Str) : Prop :=
  ∀ v : Fraction, cellOK (fmt v) = true ∧ pctShaped (fmt v) = true

theorem export_length : ∀ (n : ℕ) (t : NamedNode GData) (fmt : Fraction → Str),
    sizeOf t ≤ n → ∀ cells, exportT fmt t = .ok cells →
      ∀ (d : ℕ), cells.length = (preorderD d t).length := by
  intro n
  induction n with
  | zero =>
    intro t fmt ht
    exfalso
    cases t with
    | node nm a cs => simp [NamedNode.node.sizeOf_spec] at ht
  | succ n ih =>
    intro t fmt ht cells hcells d
    cases t with
    | node nm dd cs =>
      have hsz : ∀ x ∈ cs, sizeOf x ≤ n := by
        intro x hx
        have h1 : sizeOf x < sizeOf cs := List.sizeOf_lt_of_mem hx
        have h3 : sizeOf (NamedNode.node nm dd cs) = 1 + sizeOf nm + sizeOf dd
            + sizeOf cs := by simp [NamedNode.node.sizeOf_spec]
        omega
      have hlst : ∀ (l : List (NamedNode GData)), (∀ x ∈ l, sizeOf x ≤ n) →
          ∀ cellsL, exportL fmt l = .ok cellsL → ∀ (d2 : ℕ),
            cellsL.length = (preorderDL d2 l).length := by
        intro l
        induction l with
        | nil =>
          intro _ cellsL hc d2
          rw [exportL_nil_eq] at hc
          cases hc
          rfl
        | cons z zs ihl =>
          intro hszl cellsL hc d2
          rw [exportL_cons_eq] at hc
          cases hz : exportT fmt z with
          | err e => rw [hz] at hc; cases hc
          | ok cz =>
            rw [hz] at hc
            cases hzs : exportL fmt zs with
            | err e => rw [hzs] at hc; cases hc
            | ok czs =>
              rw [hzs] at hc
              cases hc
              show (cz ++ czs).length = (preorderD d2 z ++ preorderDL d2 zs).length
              rw [List.length_append, List.length_append]
              rw [ih z fmt (hszl z (List.mem_cons_self z zs)) cz hz d2]
              rw [ihl (fun x hx => hszl x (List.mem_cons_of_mem z hx)) czs hzs d2]
      cases cs with
      | nil =>
        rw [exportT_leaf_eq] at hcells
        cases hcells
        rfl
      | cons c crest =>
        rw [exportT_node_eq] at hcells
        cases hg : wgC (NamedNode.node nm dd (c :: crest)) Pol.mn with
        | err e => rw [hg] at hcells; cases hcells
        | ok v =>
          rw [hg] at hcells
          cases hL : exportL fmt (c :: crest) with
          | err e => rw [hL] at hcells; cases hcells
          | ok cellsL =>
            rw [hL] at hcells
            cases hcells
            show (fmt v :: cellsL).length =
              ((d, nm, dd) :: preorderDL (d + 1) (c :: crest)).length
            rw [List.length_cons, List.length_cons]
            rw [hlst (c :: crest) hsz cellsL hL (d + 1)]

theorem gradeItems_cons_eq (b : Bool) (d : ℕ) (nn : Str) (a : AData) (cell : Str)
    (rest : List ((ℕ × Str × AData) × Str)) :
    gradeItems b (((d, nn, a), cell) :: rest) =
      (match initG a cell b with
       | .err e => .err e
       | .ok g =>
         match gradeItems false rest with
         | .err e => .err e
         | .ok gs => .ok ((d, nn, g) :: gs)) := rfl

theorem gradeItems_append : ∀ {z1 z2 : List ((ℕ × Str × AData) × Str)}
    {o1 o2 : List (ℕ × Str × GData)},
    gradeItems false z1 = .ok o1 → gradeItems false z2 = .ok o2 →
    gradeItems false (z1 ++ z2) = .ok (o1 ++ o2) := by
  intro z1
  induction z1 with
  | nil =>
    intro z2 o1 o2 h1 h2
    cases h1
    exact h2
  | cons p rest ih =>
    intro z2 o1 o2 h1 h2
    obtain ⟨⟨d, nn, a⟩, cell⟩ := p
    rw [gradeItems_cons_eq] at h1
    cases hi : initG a cell false with
    | err e => rw [hi] at h1; cases h1
    | ok g =>
      rw [hi] at h1
      cases hr : gradeItems false rest with
      | err e => rw [hr] at h1; cases h1
      | ok gs =>
        rw [hr] at h1
        cases h1
        rw [List.cons_append, gradeItems_cons_eq, hi, ih hr h2]
        rfl

theorem preG_node_root (fmt : Fraction → Str) (n : Str) (d : GData) (c : NamedNode GData)
    (cs : List (NamedNode GData)) {v : Fraction}
    (hv : wgC (.node n d (c :: cs)) Pol.mn = .ok v) :
    preG fmt true (.node n d (c :: cs)) =
      .node n ⟨d.adata, fmt v, none, false, Memo.empty⟩ (preGL fmt (c :: cs)) := by
  rw [preG_node_eq, hv]
  rfl

theorem preG_node_nonroot (fmt : Fraction → Str) (n : Str) (d : GData) (c : NamedNode GData)
    (cs : List (NamedNode GData)) {v : Fraction} {pg : Option Fraction}
    (hv : wgC (.node n d (c :: cs)) Pol.mn = .ok v)
    (hparse : parse_grade_str d.adata (fmt v) = .ok pg) :
    preG fmt false (.node n d (c :: cs)) =
      .node n ⟨d.adata, fmt v, pg, pg.isSome, Memo.empty⟩ (preGL fmt (c :: cs)) := by
  rw [preG_node_eq, hv]
  show (let pg2 := match parse_grade_str d.adata (fmt v) with
      | .ok w => w
      | .err _ => none
    NamedNode.node n ⟨d.adata, fmt v, pg2, pg2.isSome, Memo.empty⟩ (preGL fmt (c :: cs))) = _
  rw [hparse]

theorem reload_gradeItems (fmt : Fraction → Str) (hfmt : FmtOK fmt) :
    ∀ (n : ℕ) (b : Bool) (t : NamedNode GData), sizeOf t ≤ n → ldT b t = true →
      ∀ (cells : List Str), exportT fmt t = .ok cells → ∀ (d : ℕ),
        gradeItems b
          (((preorderD d t).map (fun it => (it.1, it.2.1, it.2.2.adata))).zip cells) =
          .ok (preorderD d (preG fmt b t)) := by
  intro n
  induction n with
  | zero =>
    intro b t ht
    exfalso
    cases t with
    | node nm a cs => simp [NamedNode.node.sizeOf_spec] at ht
  | succ n ih =>
    intro b t ht hld cells hcells d
    cases t with
    | node nm dd cs =>
      have hsz : ∀ x ∈ cs, sizeOf x ≤ n := by
        intro x hx
        have h1 : sizeOf x < sizeOf cs := List.sizeOf_lt_of_mem hx
        have h3 : sizeOf (NamedNode.node nm dd cs) = 1 + sizeOf nm + sizeOf dd
            + sizeOf cs := by simp [NamedNode.node.sizeOf_spec]
        omega
      cases cs with
      | nil =>
        rw [exportT_leaf_eq] at hcells
        cases hcells
        rw [ldT_leaf_eq, Bool.and_eq_true, Bool.and_eq_true] at hld
        have hstr : strip dd.grade_str = dd.grade_str := (cellOK_parts hld.1.1).2.2.2
        have hmemo : dd.memo = Memo.empty := of_decide_eq_true hld.1.2
        rw [preG_leaf_eq]
        show (match initG dd.adata dd.grade_str b with
          | Res.err e => Res.err e
          | Res.ok g =>
            match gradeItems false [] with
            | Res.err e => Res.err e
            | Res.ok gs => Res.ok ((d, nm, g) :: gs)) = Res.ok [(d, nm, dd)]
        cases b with
        | true =>
          have h2 := hld.2
          rw [if_pos rfl, Bool.and_eq_true, decide_eq_true_eq, beq_iff_eq] at h2
          have hinit : initG dd.adata dd.grade_str true = .ok dd := by
            unfold initG
            rw [if_pos ⟨rfl, hstr.symm⟩]
            rw [← h2.1, ← h2.2, ← hmemo]
          rw [hinit]
          rfl
        | false =>
          have h2 := hld.2
          rw [if_neg (by exact Bool.false_ne_true), Bool.and_eq_true, beq_iff_eq] at h2
          obtain ⟨v0, hv0, hveq⟩ : ∃ v0, parse_grade_str dd.adata dd.grade_str = .ok v0 ∧
              v0 = dd.percent_grade := by
            cases hp : parse_grade_str dd.adata dd.grade_str with
            | err e =>
              rw [hp] at h2
              exact absurd h2.1 (by exact Bool.noConfusion)
            | ok v0 =>
              rw [hp] at h2
              exact ⟨v0, rfl, of_decide_eq_true h2.1⟩
          have hinit : initG dd.adata dd.grade_str false = .ok dd := by
            unfold initG
            rw [if_neg (fun hx => Bool.noConfusion hx.1)]
            rw [hstr, hv0]
            show Res.ok (⟨dd.adata, dd.grade_str, v0, v0.isSome, Memo.empty⟩ : GData) =
              Res.ok dd
            rw [hveq, ← h2.2, ← hmemo]
          rw [hinit]
          rfl
      | cons c crest =>
        rw [exportT_node_eq] at hcells
        cases hg : wgC (NamedNode.node nm dd (c :: crest)) Pol.mn with
        | err e => rw [hg] at hcells; cases hcells
        | ok v =>
          rw [hg] at hcells
          cases hL : exportL fmt (c :: crest) with
          | err e => rw [hL] at hcells; cases hcells
          | ok cellsL =>
            rw [hL] at hcells
            cases hcells
            have hldn := hld
            rw [ldT_node_eq, Bool.and_eq_true, Bool.and_eq_true, Bool.and_eq_true,
              Bool.and_eq_true] at hldn
            have hldall := ldL_mem hldn.2
            have hfmtv := hfmt v
            have hstrf : strip (fmt v) = fmt v := (cellOK_parts hfmtv.1).2.2.2
            have hlst : ∀ (l : List (NamedNode GData)), (∀ x ∈ l, sizeOf x ≤ n) →
                (∀ x ∈ l, ldT false x = true) → ∀ (cl : List Str),
                exportL fmt l = .ok cl → ∀ (d2 : ℕ),
                gradeItems false
                  (((preorderDL d2 l).map (fun it => (it.1, it.2.1, it.2.2.adata))).zip cl)
                  = .ok (preorderDL d2 (preGL fmt l)) := by
              intro l
              induction l with
              | nil =>
                intro _ _ cl hcl d2
                rw [exportL_nil_eq] at hcl
                cases hcl
                rfl
              | cons z zs ihl =>
                intro hszl hldl cl hcl d2
                rw [exportL_cons_eq] at hcl
                cases hz : exportT fmt z with
                | err e => rw [hz] at hcl; cases hcl
                | ok cz =>
                  rw [hz] at hcl
                  cases hzs : exportL fmt zs with
                  | err e => rw [hzs] at hcl; cases hcl
                  | ok czs =>
                    rw [hzs] at hcl
                    cases hcl
                    show gradeItems false
                      (((preorderD d2 z ++ preorderDL d2 zs).map
                        (fun it => (it.1, it.2.1, it.2.2.adata))).zip (cz ++ czs)) = _
                    rw [List.map_append]
                    rw [List.zip_append (by
                      rw [List.length_map]
                      exact (export_length _ z fmt (le_refl _) cz hz d2).symm)]
                    have hone := ih false z (hszl z (List.mem_cons_self z zs))
                      (hldl z (List.mem_cons_self z zs)) cz hz d2
                    have hrest := ihl (fun x hx => hszl x (List.mem_cons_of_mem z hx))
                      (fun x hx => hldl x (List.mem_cons_of_mem z hx)) czs hzs d2
                    rw [gradeItems_append hone hrest]
                    rfl
            have hrest := hlst (c :: crest) hsz hldall cellsL hL (d + 1)
            show gradeItems b ((((d, nm, dd.adata), fmt v)) ::
              (((preorderDL (d + 1) (c :: crest)).map
                (fun it => (it.1, it.2.1, it.2.2.adata))).zip cellsL)) = _
            rw [gradeItems_cons_eq]
            cases b with
            | true =>
              unfold initG
              rw [if_pos ⟨rfl, hstrf.symm⟩]
              rw [hrest]
              rw [preG_node_root fmt nm dd c crest hg]
              rfl
            | false =>
              obtain ⟨w, hw⟩ := pctShaped_parse_ok hfmtv.2 dd.adata
              unfold initG
              rw [if_neg (fun hx => Bool.noConfusion hx.1)]
              rw [hstrf, hw]
              rw [hrest]
              rw [preG_node_nonroot fmt nm dd c crest hg hw]
              rfl

/-- The state `initG` gives the root entry: clean stored text, nothing
parsed, no flag, empty cache. -/
def gdRootOK (g : GData) : Bool :=
  cellOK g.grade_str && decide (g.percent_grade = none) && (g.has_grade == false) &&
    decide (g.memo = Memo.empty)

/-- The state `initG` gives every non-root entry: clean stored text whose
re-parse reproduces the stored parsed value, a consistent flag, and an
empty cache. -/
def gdNodeOK (g : GData) : Bool :=
  cellOK g.grade_str && decide (g.memo = Memo.empty) &&
    (match parse_grade_str g.adata g.grade_str with
     | .ok v => decide (v = g.percent_grade)
     | .err _ => false) && (g.has_grade == g.percent_grade.isSome)

mutual
/-- Every node's data is in fresh non-root entry state. -/
def entriesOK : NamedNode GData → Bool
  | .node _ d cs => gdNodeOK d && entriesOKL cs
def entriesOKL : List (NamedNode GData) → Bool
  | [] => true
  | c :: rest => entriesOK c && entriesOKL rest
end

theorem entriesOK_node (n : Str) (d : GData) (cs : List (NamedNode GData)) :
    entriesOK (.node n d cs) = (gdNodeOK d && entriesOKL cs) := rfl

theorem entriesOKL_cons (c : NamedNode GData) (rest : List (NamedNode GData)) :
    entriesOKL (c :: rest) = (entriesOK c && entriesOKL rest) := rfl

theorem initG_false_ok {a : AData} {cell : Str} {g : GData}
    (hc : cellOK cell = true) (h : initG a cell false = .ok g) :
    gdNodeOK g = true ∧ g.adata = a ∧ g.grade_str = cell := by
  have hstr : strip cell = cell := (cellOK_parts hc).2.2.2
  unfold initG at h
  rw [if_neg (fun hx => Bool.noConfusion hx.1)] at h
  cases hp : parse_grade_str a (strip cell) with
  | err e => rw [hp] at h; cases h
  | ok v =>
    rw [hp] at h
    cases h
    rw [hstr] at hp
    refine ⟨?_, rfl, hstr⟩
    unfold gdNodeOK
    show (cellOK (strip cell) && decide (Memo.empty = Memo.empty) &&
      (match parse_grade_str a (strip cell) with
       | .ok w => decide (w = v)
       | .err _ => false) && (v.isSome == v.isSome)) = true
    rw [hstr, hp]
    rw [Bool.and_eq_true, Bool.and_eq_true, Bool.and_eq_true]
    exact ⟨⟨⟨hc, decide_eq_true rfl⟩, decide_eq_true rfl⟩, beq_self_eq_true _⟩

theorem initG_true_ok {a : AData} {cell : Str} {g : GData}
    (hc : cellOK cell = true) (h : initG a cell true = .ok g) :
    gdRootOK g = true ∧ g.adata = a ∧ g.grade_str = cell := by
  have hstr : strip cell = cell := (cellOK_parts hc).2.2.2
  unfold initG at h
  rw [if_pos ⟨rfl, hstr.symm⟩] at h
  cases h
  refine ⟨?_, rfl, rfl⟩
  unfold gdRootOK
  show (cellOK cell && decide ((none : Option Fraction) = none) && (false == false) &&
    decide (Memo.empty = Memo.empty)) = true
  rw [Bool.and_eq_true, Bool.and_eq_true, Bool.and_eq_true]
  exact ⟨⟨⟨hc, decide_eq_true rfl⟩, rfl⟩, decide_eq_true rfl⟩

theorem gradeItems_false_facts :
    ∀ (z : List ((ℕ × Str × AData) × Str)) (gitems : List (ℕ × Str × GData)),
      gradeItems false z = .ok gitems → (∀ p ∈ z, cellOK p.2 = true) →
      (∀ it ∈ gitems, gdNodeOK it.2.2 = true) ∧
      gitems.map (fun it => (it.1, it.2.1, it.2.2.adata)) = z.map Prod.fst ∧
      gitems.map (fun it => it.2.2.grade_str) = z.map (fun p => p.2) := by
  intro z
  induction z with
  | nil =>
    intro gitems h _
    cases h
    exact ⟨fun it hit => absurd hit (List.not_mem_nil it), rfl, rfl⟩
  | cons p rest ih =>
    intro gitems h hcells
    obtain ⟨⟨d, nn, a⟩, cell⟩ := p
    rw [gradeItems_cons_eq] at h
    cases hi : initG a cell false with
    | err e => rw [hi] at h; cases h
    | ok g =>
      rw [hi] at h
      cases hr : gradeItems false rest with
      | err e => rw [hr] at h; cases h
      | ok gs =>
        rw [hr] at h
        cases h
        obtain ⟨hok, hadata, hgs⟩ := initG_false_ok
          (hcells ((d, nn, a), cell) (List.mem_cons_self _ rest)) hi
        obtain ⟨ih1, ih2, ih3⟩ := ih gs hr
          (fun q hq => hcells q (List.mem_cons_of_mem _ hq))
        refine ⟨?_, ?_, ?_⟩
        · intro it hit
          cases hit with
          | head => exact hok
          | tail _ hit2 => exact ih1 it hit2
        · rw [List.map_cons, List.map_cons, ih2]
          show (d, nn, g.adata) :: _ = (d, nn, a) :: _
          rw [hadata]
        · rw [List.map_cons, List.map_cons, ih3]
          show g.grade_str :: _ = cell :: _
          rw [hgs]

theorem gradeItems_true_facts :
    ∀ {z : List ((ℕ × Str × AData) × Str)} {gitems : List (ℕ × Str × GData)},
      gradeItems true z = .ok gitems → (∀ p ∈ z, cellOK p.2 = true) → z ≠ [] →
      ∃ d nn a cell rest g grest, z = ((d, nn, a), cell) :: rest ∧
        gitems = (d, nn, g) :: grest ∧ gdRootOK g = true ∧
        gradeItems false rest = .ok grest ∧
        gitems.map (fun it => (it.1, it.2.1, it.2.2.adata)) = z.map Prod.fst ∧
        gitems.map (fun it => it.2.2.grade_str) = z.map (fun p => p.2) := by
  intro z gitems h hcells hne
  cases z with
  | nil => exact absurd rfl hne
  | cons p rest =>
    obtain ⟨⟨d, nn, a⟩, cell⟩ := p
    rw [gradeItems_cons_eq] at h
    cases hi : initG a cell true with
    | err e => rw [hi] at h; cases h
    | ok g =>
      rw [hi] at h
      cases hr : gradeItems false rest with
      | err e => rw [hr] at h; cases h
      | ok gs =>
        rw [hr] at h
        cases h
        obtain ⟨hok, hadata, hgs⟩ := initG_true_ok
          (hcells ((d, nn, a), cell) (List.mem_cons_self _ rest)) hi
        obtain ⟨_, ih2, ih3⟩ := gradeItems_false_facts rest gs hr
          (fun q hq => hcells q (List.mem_cons_of_mem _ hq))
        refine ⟨d, nn, a, cell, rest, g, gs, rfl, rfl, hok, hr, ?_, ?_⟩
        · rw [List.map_cons, List.map_cons, ih2]
          show (d, nn, g.adata) :: _ = (d, nn, a) :: _
          rw [hadata]
        · rw [List.map_cons, List.map_cons, ih3]
          show g.grade_str :: _ = cell :: _
          rw [hgs]

theorem entriesOK_of_preorder : ∀ (n : ℕ) (t : NamedNode GData), sizeOf t ≤ n →
    ∀ (d : ℕ), (∀ it ∈ preorderD d t, gdNodeOK it.2.2 = true) → entriesOK t = true := by
  intro n
  induction n with
  | zero =>
    intro t ht
    exfalso
    cases t with
    | node nm a cs => simp [NamedNode.node.sizeOf_spec] at ht
  | succ n ih =>
    intro t ht d hall
    cases t with
    | node nm dd cs =>
      have hsz : ∀ x ∈ cs, sizeOf x ≤ n := by
        intro x hx
        have h1 : sizeOf x < sizeOf cs := List.sizeOf_lt_of_mem hx
        have h3 : sizeOf (NamedNode.node nm dd cs) = 1 + sizeOf nm + sizeOf dd
            + sizeOf cs := by simp [NamedNode.node.sizeOf_spec]
        omega
      rw [entriesOK_node, Bool.and_eq_true]
      constructor
      · exact hall (d, nm, dd) (by
          show (d, nm, dd) ∈ (d, nm, dd) :: preorderDL (d + 1) cs
          exact List.mem_cons_self _ _)
      · have hlst : ∀ (l : List (NamedNode GData)), (∀ x ∈ l, sizeOf x ≤ n) →
            ∀ (d2 : ℕ), (∀ it ∈ preorderDL d2 l, gdNodeOK it.2.2 = true) →
            entriesOKL l = true := by
          intro l
          induction l with
          | nil => intro _ _ _; rfl
          | cons z zs ihl =>
            intro hszl d2 hall2
            rw [entriesOKL_cons, Bool.and_eq_true]
            constructor
            · refine ih z (hszl z (List.mem_cons_self z zs)) d2 ?_
              intro it hit
              refine hall2 it ?_
              show it ∈ preorderD d2 z ++ preorderDL d2 zs
              exact List.mem_append.mpr (Or.inl hit)
            · refine ihl (fun x hx => hszl x (List.mem_cons_of_mem z hx)) d2 ?_
              intro it hit
              refine hall2 it ?_
              show it ∈ preorderD d2 z ++ preorderDL d2 zs
              exact List.mem_append.mpr (Or.inr hit)
        refine hlst cs hsz (d + 1) ?_
        intro it hit
        refine hall it ?_
        show it ∈ (d, nm, dd) :: preorderDL (d + 1) cs
        exact List.mem_cons_of_mem _ hit

theorem gdNodeOK_parts {g : GData} (h : gdNodeOK g = true) :
    cellOK g.grade_str = true ∧ g.memo = Memo.empty ∧
    (match parse_grade_str g.adata g.grade_str with
     | Res.ok v => decide (v = g.percent_grade)
     | Res.err _ => false) = true ∧ g.has_grade = g.percent_grade.isSome := by
  unfold gdNodeOK at h
  rw [Bool.and_eq_true, Bool.and_eq_true, Bool.and_eq_true, beq_iff_eq] at h
  exact ⟨h.1.1.1, of_decide_eq_true h.1.1.2, h.1.2, h.2⟩

theorem ldT_annotate : ∀ (n : ℕ) (t : NamedNode GData), sizeOf t ≤ n →
    entriesOK t = true → ldT false (annotateUp t) = true := by
  intro n
  induction n with
  | zero =>
    intro t ht
    exfalso
    cases t with
    | node nm a cs => simp [NamedNode.node.sizeOf_spec] at ht
  | succ n ih =>
    intro t ht he
    cases t with
    | node nm dd cs =>
      have hsz : ∀ x ∈ cs, sizeOf x ≤ n := by
        intro x hx
        have h1 : sizeOf x < sizeOf cs := List.sizeOf_lt_of_mem hx
        have h3 : sizeOf (NamedNode.node nm dd cs) = 1 + sizeOf nm + sizeOf dd
            + sizeOf cs := by simp [NamedNode.node.sizeOf_spec]
        omega
      rw [entriesOK_node, Bool.and_eq_true] at he
      obtain ⟨hc, hm, hp, hh⟩ := gdNodeOK_parts he.1
      have hlst : ∀ (l : List (NamedNode GData)), (∀ x ∈ l, sizeOf x ≤ n) →
          entriesOKL l = true → ldL (annotateUpL l) = true := by
        intro l
        induction l with
        | nil => intro _ _; rfl
        | cons z zs ihl =>
          intro hszl hel
          rw [entriesOKL_cons, Bool.and_eq_true] at hel
          rw [annotateUpL_cons_eq, ldL_cons, Bool.and_eq_true]
          exact ⟨ih z (hszl z (List.mem_cons_self z zs)) hel.1,
            ihl (fun x hx => hszl x (List.mem_cons_of_mem z hx)) hel.2⟩
      cases cs with
      | nil =>
        rw [annotateUp_leaf_eq, ldT_leaf_eq]
        rw [if_neg (by exact Bool.false_ne_true)]
        rw [Bool.and_eq_true, Bool.and_eq_true]
        refine ⟨⟨hc, decide_eq_true hm⟩, ?_⟩
        rw [Bool.and_eq_true]
        exact ⟨hp, by rw [hh]; exact beq_self_eq_true _⟩
      | cons c crest =>
        rw [annotateUp_node_eq, annotateUpL_cons_eq, ldT_node_eq]
        rw [Bool.and_eq_true, Bool.and_eq_true, Bool.and_eq_true, Bool.and_eq_true]
        refine ⟨⟨⟨⟨hc, decide_eq_true rfl⟩, decide_eq_true rfl⟩, ?_⟩, ?_⟩
        · rw [← annotateUpL_cons_eq]
          exact beq_self_eq_true _
        · rw [← annotateUpL_cons_eq]
          exact hlst (c :: crest) hsz he.2

theorem gdRootOK_parts {g : GData} (h : gdRootOK g = true) :
    cellOK g.grade_str = true ∧ g.percent_grade = none ∧ g.has_grade = false ∧
      g.memo = Memo.empty := by
  unfold gdRootOK at h
  rw [Bool.and_eq_true, Bool.and_eq_true, Bool.and_eq_true, beq_iff_eq] at h
  exact ⟨h.1.1.1, of_decide_eq_true h.1.1.2, h.1.2, of_decide_eq_true h.2⟩

theorem ldT_annotate_root (nm : Str) (dd : GData) (cs : List (NamedNode GData))
    (hroot : gdRootOK dd = true) (hcs : entriesOKL cs = true) :
    ldT true (annotateUp (.node nm dd cs)) = true := by
  obtain ⟨hc, hpg, hhg, hm⟩ := gdRootOK_parts hroot
  have hlst : ∀ (l : List (NamedNode GData)), entriesOKL l = true →
      ldL (annotateUpL l) = true := by
    intro l
    induction l with
    | nil => intro _; rfl
    | cons z zs ihl =>
      intro hel
      rw [entriesOKL_cons, Bool.and_eq_true] at hel
      rw [annotateUpL_cons_eq, ldL_cons, Bool.and_eq_true]
      exact ⟨ldT_annotate _ z (le_refl _) hel.1, ihl hel.2⟩
  cases cs with
  | nil =>
    rw [annotateUp_leaf_eq, ldT_leaf_eq]
    rw [if_pos rfl]
    rw [Bool.and_eq_true, Bool.and_eq_true]
    refine ⟨⟨hc, decide_eq_true hm⟩, ?_⟩
    rw [Bool.and_eq_true]
    refine ⟨decide_eq_true hpg, ?_⟩
    rw [hhg]
    rfl
  | cons c crest =>
    rw [annotateUp_node_eq, annotateUpL_cons_eq, ldT_node_eq]
    rw [Bool.and_eq_true, Bool.and_eq_true, Bool.and_eq_true, Bool.and_eq_true]
    refine ⟨⟨⟨⟨hc, decide_eq_true rfl⟩, decide_eq_true rfl⟩, ?_⟩, ?_⟩
    · rw [← annotateUpL_cons_eq]
      exact beq_self_eq_true _
    · rw [← annotateUpL_cons_eq]
      exact hlst (c :: crest) hcs

theorem preorderDL_mem_of_mem {α : Type} :
    ∀ (l : List (NamedNode α)) (x : NamedNode α), x ∈ l →
      ∀ (d : ℕ) (it : ℕ × Str × α), it ∈ preorderD d x → it ∈ preorderDL d l := by
  intro l
  induction l with
  | nil => intro x hx; cases hx
  | cons z zs ih =>
    intro x hx d it hit
    show it ∈ preorderD d z ++ preorderDL d zs
    cases hx with
    | head => exact List.mem_append.mpr (Or.inl hit)
    | tail _ hx2 => exact List.mem_append.mpr (Or.inr (ih x hx2 d it hit))

theorem entriesOKL_of_preorder : ∀ (l : List (NamedNode GData)) (d : ℕ),
    (∀ it ∈ preorderDL d l, gdNodeOK it.2.2 = true) → entriesOKL l = true := by
  intro l
  induction l with
  | nil => intro _ _; rfl
  | cons z zs ih =>
    intro d h
    rw [entriesOKL_cons, Bool.and_eq_true]
    constructor
    · refine entriesOK_of_preorder _ z (le_refl _) d ?_
      intro it hit
      exact h it (preorderDL_mem_of_mem (z :: zs) z (List.mem_cons_self z zs) d it hit)
    · refine ih d ?_
      intro it hit
      refine h it ?_
      show it ∈ preorderD d z ++ preorderDL d zs
      exact List.mem_append.mpr (Or.inr hit)

theorem annotate_map_proj {β : Type} (f : GData → β)
    (hf : ∀ (g : GData) (b : Bool),
      f { g with percent_grade := none, has_grade := b, memo := Memo.empty } = f g)
    (t : NamedNode GData) (d : ℕ) :
    (preorderD d (annotateUp t)).map (fun it => (it.1, it.2.1, f it.2.2)) =
      (preorderD d t).map (fun it => (it.1, it.2.1, f it.2.2)) := by
  rw [← preorderD_mapND f _ (annotateUp t) (le_refl _) d]
  rw [← preorderD_mapND f _ t (le_refl _) d]
  rw [annotateUp_mapND f hf _ t (le_refl _)]

theorem create_grades_facts (items : List (ℕ × Str × AData)) (cells : List Str)
    (hlen : cells.length = items.length)
    (hcellsOK : ∀ cell ∈ cells, cellOK cell = true)
    (hwfd : wfDepths items = true)
    {g1 : NamedNode GData} (h : _create_grades items cells = .ok g1) :
    ldT true g1 = true ∧
    (preorderD 0 g1).map (fun it => (it.1, it.2.1, it.2.2.adata)) = items ∧
    (preorderD 0 g1).map (fun it => it.2.2.grade_str) = cells := by
  unfold _create_grades at h
  cases hgi : gradeItems true (items.zip cells) with
  | err e => rw [hgi] at h; cases h
  | ok gitems =>
    rw [hgi] at h
    have h2 : (match buildTree gitems with
      | some t => Res.ok (annotateUp t)
      | none => Res.err PErr.keyError) = Res.ok g1 := h
    cases hbt : buildTree gitems with
    | none => rw [hbt] at h2; cases h2
    | some t1 =>
      rw [hbt] at h2
      cases h2
      have hzcells : ∀ p ∈ items.zip cells, cellOK p.2 = true := by
        intro p hp
        obtain ⟨p1, p2⟩ := p
        exact hcellsOK p2 (List.of_mem_zip hp).2
      have hzne : items.zip cells ≠ [] := by
        cases items with
        | nil => cases hwfd
        | cons i irest =>
          cases cells with
          | nil => cases hlen
          | cons c crest =>
            rw [List.zip_cons_cons]
            exact fun hx => List.noConfusion hx
      obtain ⟨d0, nn, a0, cell0, zrest, g0, grest, hzeq, hgeq, hrootok, hgrest, hproj, hgstr⟩ :=
        gradeItems_true_facts hgi hzcells hzne
      have hfst : (items.zip cells).map Prod.fst = items :=
        List.map_fst_zip items cells (le_of_eq hlen.symm)
      have hsnd : (items.zip cells).map (fun p => p.2) = cells := by
        show (items.zip cells).map Prod.snd = cells
        exact List.map_snd_zip items cells (le_of_eq hlen)
      have hwfg : wfDepths gitems = true := by
        rw [wfDepths_of_map gitems items (by
          have : gitems.map Prod.fst =
              (gitems.map (fun it => (it.1, it.2.1, it.2.2.adata))).map Prod.fst := by
            rw [List.map_map]
            exact List.map_congr_left (fun x _ => rfl)
          rw [this, hproj, hfst])]
        exact hwfd
      obtain ⟨t2, ht2, hpre2⟩ := buildTree_preorder gitems hwfg
      have ht12 : t1 = t2 := by
        rw [hbt] at ht2
        exact Option.some.inj ht2
      subst ht12
      have hpre1 : preorderD 0 t1 = gitems := hpre2
      have hldg : ldT true (annotateUp t1) = true := by
        cases t1 with
        | node nm0 dd0 cs0 =>
          have hh : (0, nm0, dd0) :: preorderDL 1 cs0 = (d0, nn, g0) :: grest := by
            rw [← hgeq, ← hpre1]
            rfl
          injection hh with hh1 hh2
          injection hh1 with _ hh3
          injection hh3 with hnm hdd
          refine ldT_annotate_root nm0 dd0 cs0 (by rw [hdd]; exact hrootok) ?_
          refine entriesOKL_of_preorder cs0 1 ?_
          intro it hit
          have hmem : it ∈ grest := by
            rw [← hh2]
            exact hit
          exact (gradeItems_false_facts zrest grest hgrest (by
            intro p hp
            refine hzcells p ?_
            rw [hzeq]
            exact List.mem_cons_of_mem _ hp)).1 it hmem
      refine ⟨hldg, ?_, ?_⟩
      · rw [annotate_map_proj GData.adata (fun g b => rfl) t1 0, hpre1, hproj, hzeq]
        rw [← hzeq, hfst]
      · have h3 : (preorderD 0 (annotateUp t1)).map
            (fun it => (it.1, it.2.1, it.2.2.grade_str)) =
            gitems.map (fun it => (it.1, it.2.1, it.2.2.grade_str)) := by
          rw [annotate_map_proj GData.grade_str (fun g b => rfl) t1 0, hpre1]
        have h4 : (preorderD 0 (annotateUp t1)).map (fun it => it.2.2.grade_str) =
            ((preorderD 0 (annotateUp t1)).map
              (fun it => (it.1, it.2.1, it.2.2.grade_str))).map (fun tr => tr.2.2) := by
          rw [List.map_map]
          exact List.map_congr_left (fun x _ => rfl)
        rw [h4, h3, List.map_map]
        rw [show ((fun (tr : ℕ × Str × Str) => tr.2.2) ∘
          (fun (it : ℕ × Str × GData) => (it.1, it.2.1, it.2.2.grade_str))) =
          (fun it => it.2.2.grade_str) from rfl]
        rw [hgstr, hsnd]
